import Mathlib

/-!
# Verification of the tchisla-solver core against its specification

This file shallowly embeds the parts of the `tchisla-solver` Rust
repository that the specification's claims are about, and settles each
claim by a theorem over the embedding.

Embedding conventions:
* Rust `i64`/`i128` arithmetic is modelled by `ℤ` (the theorems about the
  solver carry hypotheses keeping every intermediate inside the machine
  range, so exact integers are faithful).
* `num::rational::Ratio<i64>` is modelled by `ℚ`.
* Fallible operations return `Option`.
* The two floating-point computations of the code (the initial guess of
  `try_sqrt` and the `log2`-based admission gates) are modelled by an
  oracle parameter, respectively by the exact inequality the float
  comparison implements; this is stated at the definitions concerned.
-/

namespace Tchisla

/-! ## `src/number_theory.rs` -/

/-- `factorial` from `src/number_theory.rs`: `let mut result = 1; for x in
2..=n { result *= x }`.  The product over the (possibly empty) integer
range `2..=n`. -/
def factorial (n : ℤ) : ℤ := ((Finset.Icc (2 : ℤ) n).prod id)

/-- `factorial_divide` from `src/number_theory.rs`: the product over the
integer range `(n+1)..=m`. -/
def factorial_divide (m n : ℤ) : ℤ := ((Finset.Icc (n + 1) m).prod id)

/-- The squares table `generate_squares(n)` of `src/number_theory.rs`:
`result[(i*i) % n] = true` for `i in 0..=(n/2)`. -/
def squaresMod (n : ℕ) (r : ℕ) : Bool :=
  (List.range (n / 2 + 1)).any (fun i => i * i % n == r)

/-- The Newton loop of `try_sqrt`: `loop { let y = (x + n/x)/2; if y >= x
{ return if x*x == n { Some(y) } else { None } }; x = y; }`, on
nonnegative quantities (the loop only runs for `n > 2^64`). -/
def newtonLoop (n x : ℕ) : Option ℕ :=
  if h : x ≤ (x + n / x) / 2 then
    (if x * x = n then some ((x + n / x) / 2) else none)
  else newtonLoop n ((x + n / x) / 2)
termination_by x
decreasing_by omega

lemma newtonLoop_eq (n x : ℕ) :
    newtonLoop n x =
      if x ≤ (x + n / x) / 2 then
        (if x * x = n then some ((x + n / x) / 2) else none)
      else newtonLoop n ((x + n / x) / 2) := by
  rw [newtonLoop]
  by_cases h : x ≤ (x + n / x) / 2 <;> simp [h]

/-- `try_sqrt` from `src/number_theory.rs`.  The float guess
`((n as f64).sqrt() + 0.5) as i128` is modelled by the oracle parameter
`guess : ℕ → ℕ` (both occurrences in the source).  Everything else is
literal: the `0`/`1` fast path, rejection of negatives, the small branch
(`n ≤ 2^64`) testing the guess directly, the residue sieves mod
`64, 63, 65, 11`, and the Newton iteration. -/
def trySqrt (guess : ℕ → ℕ) (n : ℤ) : Option ℤ :=
  if n = 0 ∨ n = 1 then some n
  else if n < 0 then none
  else if n.toNat ≤ 2 ^ 64 then
    (if guess n.toNat * guess n.toNat = n.toNat then some (guess n.toNat : ℤ) else none)
  else if !(squaresMod 64 (n.toNat % (11 * 63 * 64 * 65) % 64)) ||
      !(squaresMod 63 (n.toNat % (11 * 63 * 64 * 65) % 63)) ||
      !(squaresMod 65 (n.toNat % (11 * 63 * 64 * 65) % 65)) ||
      !(squaresMod 11 (n.toNat % (11 * 63 * 64 * 65) % 11)) then none
  else
    Option.map (fun y : ℕ => (y : ℤ))
      (newtonLoop n.toNat ((guess n.toNat + n.toNat / guess n.toNat) / 2))

/-! Correctness of the Newton loop. -/

lemma lt_div_succ_mul (n x : ℕ) (hx : 0 < x) : n < (n / x + 1) * x := by
  have h1 := Nat.div_add_mod n x
  have h2 := Nat.mod_lt n hx
  calc n = x * (n / x) + n % x := h1.symm
    _ < x * (n / x) + x := by omega
    _ = (n / x + 1) * x := by ring

lemma sqrt_le_step (n x : ℕ) (hx : 0 < x) : Nat.sqrt n ≤ (x + n / x) / 2 := by
  set s := Nat.sqrt n with hs
  set q := n / x with hq
  rcases le_or_lt s ((x + q) / 2) with h | h
  · exact h
  · exfalso
    have h2 : x + q + 1 ≤ 2 * s := by omega
    have h3 : s * s ≤ n := Nat.sqrt_le n
    have h4 : n < (q + 1) * x := lt_div_succ_mul n x hx
    have h2' : (x : ℤ) + q + 1 ≤ 2 * s := by exact_mod_cast h2
    have h3' : (s : ℤ) * s ≤ n := by exact_mod_cast h3
    have h4' : (n : ℤ) < (q + 1) * x := by exact_mod_cast h4
    nlinarith [sq_nonneg ((s : ℤ) - x)]

lemma step_lt_self (n x : ℕ) (hx : Nat.sqrt n < x) : (x + n / x) / 2 < x := by
  have h1 : n < x * x := by
    have hxx : Nat.sqrt n + 1 ≤ x := hx
    calc n < (Nat.sqrt n + 1) * (Nat.sqrt n + 1) := Nat.lt_succ_sqrt n
      _ ≤ x * x := Nat.mul_le_mul hxx hxx
  have h2 : n / x < x := Nat.div_lt_of_lt_mul (by omega)
  omega

lemma newtonLoop_eq_sqrt (n : ℕ) (hn : 1 ≤ n) :
    ∀ x, Nat.sqrt n ≤ x →
      newtonLoop n x = if Nat.sqrt n * Nat.sqrt n = n then some (Nat.sqrt n) else none := by
  intro x
  induction x using Nat.strong_induction_on with
  | _ x ih =>
    intro hsx
    have hs1 : 1 ≤ Nat.sqrt n := (Nat.sqrt_pos).2 hn
    have hx1 : 1 ≤ x := le_trans hs1 hsx
    rw [newtonLoop_eq]
    by_cases hge : x ≤ (x + n / x) / 2
    · rw [if_pos hge]
      have hxle : x ≤ Nat.sqrt n := by
        by_contra hlt
        have := step_lt_self n x (by omega)
        omega
      have hxeq : x = Nat.sqrt n := le_antisymm hxle hsx
      rw [← hxeq]
      by_cases hsq : x * x = n
      · rw [if_pos hsq, if_pos hsq]
        have hdiv : n / x = x := by
          rw [← hsq]; exact Nat.mul_div_cancel_left x hx1
        rw [hdiv]
        congr 1
        omega
      · rw [if_neg hsq, if_neg hsq]
    · rw [if_neg hge]
      have hlt : (x + n / x) / 2 < x := by omega
      exact ih _ hlt (sqrt_le_step n x hx1)

/-- Soundness of the Newton loop from any start value: a returned root
squares back to `n`. -/
lemma newtonLoop_sound (n : ℕ) (hn : 2 ≤ n) :
    ∀ x y, newtonLoop n x = some y → y * y = n := by
  intro x
  induction x using Nat.strong_induction_on with
  | _ x ih =>
    intro y hx
    rw [newtonLoop_eq] at hx
    by_cases hge : x ≤ (x + n / x) / 2
    · rw [if_pos hge] at hx
      by_cases hsq : x * x = n
      · rw [if_pos hsq] at hx
        rcases Option.some_inj.1 hx with rfl
        have hx1 : 1 ≤ x := by
          rcases Nat.eq_zero_or_pos x with rfl | h
          · omega
          · exact h
        have hdiv : n / x = x := by
          rw [← hsq]; exact Nat.mul_div_cancel_left x hx1
        rw [hdiv]
        have hxx : (x + x) / 2 = x := by omega
        rw [hxx]
        exact hsq
      · rw [if_neg hsq] at hx
        exact absurd hx (by simp)
    · rw [if_neg hge] at hx
      exact ih _ (by omega) y hx

/-- The residue sieves accept every square residue. -/
lemma squaresMod_of_square (p k : ℕ) (hp : 0 < p)
    (htbl : ∀ j < p, squaresMod p (j * j % p) = true) :
    squaresMod p (k * k % p) = true := by
  have h1 : k * k % p = (k % p) * (k % p) % p := by
    conv_lhs => rw [Nat.mul_mod]
  rw [h1]
  exact htbl (k % p) (Nat.mod_lt k hp)

lemma sieve_pass (m k : ℕ) (hm : m = k * k) :
    let r := m % (11 * 63 * 64 * 65)
    (!(squaresMod 64 (r % 64)) || !(squaresMod 63 (r % 63)) ||
      !(squaresMod 65 (r % 65)) || !(squaresMod 11 (r % 11))) = false := by
  intro r
  have h64 : r % 64 = k * k % 64 := by
    rw [show r = m % (11 * 63 * 64 * 65) from rfl, Nat.mod_mod_of_dvd m (by norm_num), hm]
  have h63 : r % 63 = k * k % 63 := by
    rw [show r = m % (11 * 63 * 64 * 65) from rfl, Nat.mod_mod_of_dvd m (by norm_num), hm]
  have h65 : r % 65 = k * k % 65 := by
    rw [show r = m % (11 * 63 * 64 * 65) from rfl, Nat.mod_mod_of_dvd m (by norm_num), hm]
  have h11 : r % 11 = k * k % 11 := by
    rw [show r = m % (11 * 63 * 64 * 65) from rfl, Nat.mod_mod_of_dvd m (by norm_num), hm]
  rw [h64, h63, h65, h11]
  rw [squaresMod_of_square 64 k (by norm_num) (by decide),
    squaresMod_of_square 63 k (by norm_num) (by decide),
    squaresMod_of_square 65 k (by norm_num) (by decide),
    squaresMod_of_square 11 k (by norm_num) (by decide)]
  rfl

/-- **C6.** `try_sqrt` returns `None` on negatives and otherwise succeeds
exactly on perfect squares, returning the exact root: for every `n` and
`m`, `try_sqrt(n) = Some(m)` iff `m ≥ 0` and `m·m = n` (hence
`try_sqrt(x*x) = Some(x)` for `x ≥ 0`, and `m² = y` whenever
`try_sqrt(y) = Some(m)`).  The float guess is an oracle assumed to return
the exact root on perfect squares in the small branch and a positive
value in the large branch — both true of IEEE `f64` on these ranges. -/
theorem trySqrt_correct (guess : ℕ → ℕ)
    (H1 : ∀ m k : ℕ, 2 ≤ m → m ≤ 2 ^ 64 → k * k = m → guess m = k)
    (H2 : ∀ m : ℕ, 2 ^ 64 < m → 1 ≤ guess m) :
    ∀ n m : ℤ, trySqrt guess n = some m ↔ (0 ≤ m ∧ m * m = n) := by
  intro n m
  unfold trySqrt
  by_cases h01 : n = 0 ∨ n = 1
  · rw [if_pos h01]
    constructor
    · intro h
      rcases Option.some_inj.1 h with rfl
      rcases h01 with rfl | rfl <;> norm_num
    · rintro ⟨hm0, hmm⟩
      rcases h01 with rfl | rfl
      · have : m = 0 := by nlinarith
        rw [this]
      · have : m = 1 := by nlinarith
        rw [this]
  · rw [if_neg h01]
    by_cases hneg : n < 0
    · rw [if_pos hneg]
      constructor
      · intro h; exact absurd h (by simp)
      · rintro ⟨hm0, hmm⟩
        nlinarith
    · rw [if_neg hneg]
      push_neg at hneg
      have hn2 : 2 ≤ n := by
        rcases lt_or_le n 2 with h | h
        · interval_cases n
          · exact absurd (Or.inl rfl) h01
          · exact absurd (Or.inr rfl) h01
        · exact h
      have htn : (n.toNat : ℤ) = n := Int.toNat_of_nonneg hneg
      have hM2 : 2 ≤ n.toNat := by omega
      by_cases hsmall : n.toNat ≤ 2 ^ 64
      · rw [if_pos hsmall]
        constructor
        · intro h
          by_cases hg : guess n.toNat * guess n.toNat = n.toNat
          · rw [if_pos hg] at h
            rcases Option.some_inj.1 h with rfl
            refine ⟨by positivity, ?_⟩
            rw [← htn]
            exact_mod_cast congrArg (fun k : ℕ => (k : ℤ)) hg
          · rw [if_neg hg] at h
            exact absurd h (by simp)
        · rintro ⟨hm0, hmm⟩
          have hmt : (m.toNat : ℤ) = m := Int.toNat_of_nonneg hm0
          have hk : m.toNat * m.toNat = n.toNat := by
            have : ((m.toNat * m.toNat : ℕ) : ℤ) = ((n.toNat : ℕ) : ℤ) := by
              push_cast
              rw [hmt, htn]
              exact hmm
            exact_mod_cast this
          rw [H1 n.toNat m.toNat hM2 hsmall hk, if_pos hk, hmt]
      · rw [if_neg hsmall]
        push_neg at hsmall
        constructor
        · intro h0
          by_cases hs : (!(squaresMod 64 (n.toNat % (11 * 63 * 64 * 65) % 64)) ||
              !(squaresMod 63 (n.toNat % (11 * 63 * 64 * 65) % 63)) ||
              !(squaresMod 65 (n.toNat % (11 * 63 * 64 * 65) % 65)) ||
              !(squaresMod 11 (n.toNat % (11 * 63 * 64 * 65) % 11))) = true
          · rw [if_pos hs] at h0
            exact absurd h0 (by simp)
          · rw [if_neg hs] at h0
            rcases Option.map_eq_some'.1 h0 with ⟨y, hy, rfl⟩
            have hy2 := newtonLoop_sound n.toNat (by omega) _ y hy
            refine ⟨by positivity, ?_⟩
            rw [← htn]
            exact_mod_cast congrArg (fun k : ℕ => (k : ℤ)) hy2
        · rintro ⟨hm0, hmm⟩
          have hmt : (m.toNat : ℤ) = m := Int.toNat_of_nonneg hm0
          have hk : m.toNat * m.toNat = n.toNat := by
            have : ((m.toNat * m.toNat : ℕ) : ℤ) = ((n.toNat : ℕ) : ℤ) := by
              push_cast
              rw [hmt, htn]
              exact hmm
            exact_mod_cast this
          rw [sieve_pass n.toNat m.toNat hk.symm, if_neg (by simp)]
          have hg1 : 1 ≤ guess n.toNat := H2 n.toNat hsmall
          have hsqrtM : Nat.sqrt n.toNat = m.toNat := by
            rw [← hk, Nat.sqrt_eq]
          rw [newtonLoop_eq_sqrt n.toNat (by omega)
            ((guess n.toNat + n.toNat / guess n.toNat) / 2)
            (sqrt_le_step n.toNat (guess n.toNat) hg1), hsqrtM, if_pos hk]
          simp only [Option.map_some']
          rw [hmt]

/-- Closed witness for `trySqrt_correct`, discharging the oracle
hypotheses with `Nat.sqrt`. -/
theorem trySqrt_correct_witness : trySqrt Nat.sqrt 9 = some 3 :=
  (trySqrt_correct Nat.sqrt
    (fun m k _ _ hk => by rw [← hk, Nat.sqrt_eq])
    (fun m hm => (Nat.sqrt_pos).2 (by omega))
    9 3).2 ⟨by norm_num, by norm_num⟩

/-- **C10.** `factorial(n)` is the empty product `1` for every `n ≤ 1`,
negative `n` included; the helper is total and never signals an error. -/
theorem factorial_of_le_one (n : ℤ) (h : n ≤ 1) : factorial n = 1 := by
  unfold factorial
  rw [Finset.Icc_eq_empty (by omega), Finset.prod_empty]

/-- Closed witness for `factorial_of_le_one` at the negative input `-5`. -/
theorem factorial_of_le_one_witness : factorial (-5) = 1 :=
  factorial_of_le_one (-5) (by norm_num)

/-! ## `src/rational.rs` — the crate's own `Rational` type -/

/-- `gcd` from `src/rational.rs`: the remainder loop on absolute values
(with an initial swap), which is exactly `Nat.gcd` on the absolute
values. -/
def ratGcd (x y : ℤ) : ℤ :=
  if x.natAbs < y.natAbs then (Nat.gcd y.natAbs x.natAbs : ℤ)
  else (Nat.gcd x.natAbs y.natAbs : ℤ)

/-- The `Rational` struct of `src/rational.rs`: a raw
numerator/denominator pair. -/
structure CrateRational where
  numerator : ℤ
  denominator : ℤ
  deriving DecidableEq, Repr

namespace CrateRational

/-- `Rational::zero()`. -/
def zero : CrateRational := ⟨0, 1⟩

/-- `Rational::reduce` from `src/rational.rs` (`Int.tdiv` is Rust's
truncating `/`; the divisions are exact). -/
def reduce (r : CrateRational) : CrateRational :=
  if r.numerator = 0 then zero
  else
    let g := ratGcd r.numerator r.denominator
    let n := r.numerator.tdiv g
    let d := r.denominator.tdiv g
    if 0 < d then ⟨n, d⟩ else ⟨-n, -d⟩

/-- `Rational::new` from `src/rational.rs`. -/
def new (numerator denominator : ℤ) : CrateRational :=
  reduce ⟨numerator, denominator⟩

/-- The `add` operator of `src/rational.rs` (lines 175–182). -/
def addR (a b : CrateRational) : CrateRational :=
  new (a.numerator * b.denominator + a.denominator * b.numerator)
    (a.denominator * b.denominator)

/-- The `sub` operator of `src/rational.rs` (lines 221–228), exactly as
written in the source: note the `+` in the numerator. -/
def subR (a b : CrateRational) : CrateRational :=
  new (a.numerator * b.denominator + a.denominator * b.numerator)
    (a.denominator * b.denominator)

/-- The value a pair denotes. -/
def toQ (r : CrateRational) : ℚ := (r.numerator : ℚ) / (r.denominator : ℚ)

end CrateRational

/-- **C2** (code bug).  The `Rational` `sub` operator does not compute the
difference: its numerator uses `+` where subtraction requires `-`, making
`sub` identical to `add`.  At the failing input `x = 1/2`, `y = 1/3` the
code returns `5/6 = x + y` instead of the exact difference `1/6`;
`5/6` is in lowest terms with positive denominator, but is not `x − y`. -/
theorem ratSub_computes_sum :
    (∀ a b : CrateRational, CrateRational.subR a b = CrateRational.addR a b) ∧
    CrateRational.subR ⟨1, 2⟩ ⟨1, 3⟩ = ⟨5, 6⟩ ∧
    CrateRational.toQ ⟨5, 6⟩ = CrateRational.toQ ⟨1, 2⟩ + CrateRational.toQ ⟨1, 3⟩ ∧
    CrateRational.toQ ⟨5, 6⟩ ≠ CrateRational.toQ ⟨1, 2⟩ - CrateRational.toQ ⟨1, 3⟩ := by
  refine ⟨fun a b => rfl, by decide, ?_, ?_⟩
  · show (5 : ℚ) / 6 = 1 / 2 + 1 / 3
    norm_num
  · show (5 : ℚ) / 6 ≠ 1 / 2 - 1 / 3
    norm_num

/-! ## `src/expression.rs` — the expression DAG and its smart
constructors -/

/-- The `Expression` enum of `src/expression.rs`. -/
inductive Expr where
  | number (x : ℤ)
  | negate (a : Expr)
  | add (a b : Expr)
  | subtract (a b : Expr)
  | multiply (a b : Expr)
  | divide (a b : Expr)
  | power (a b : Expr)
  | sqrt (a : Expr) (order : ℕ)
  | factorial (a : Expr)
  deriving DecidableEq, Repr

namespace Expr

/-- `Expression::from_negate`. -/
def fromNegate : Expr → Expr
  | .subtract y z => .subtract z y
  | x => .negate x

/-- `Expression::from_add` (match arms in the source's `if let` order). -/
def fromAdd : Expr → Expr → Expr
  | .subtract x1 x2, .subtract y1 y2 => .subtract (.add x1 y1) (.add x2 y2)
  | .subtract x1 x2, y => .subtract (.add x1 y) x2
  | x, .subtract y1 y2 => .subtract (.add x y1) y2
  | x, .add y1 y2 => .add (fromAdd x y1) y2
  | x, y => .add x y

/-- `Expression::from_subtract`. -/
def fromSubtract : Expr → Expr → Expr
  | x, .subtract y1 y2 => fromAdd x (.subtract y2 y1)
  | .subtract x1 x2, y => .subtract x1 (.add x2 y)
  | x, y => .subtract x y

/-- `Expression::from_multiply`. -/
def fromMultiply : Expr → Expr → Expr
  | .divide x1 x2, .divide y1 y2 => .divide (.multiply x1 y1) (.multiply x2 y2)
  | .divide x1 x2, y => .divide (.multiply x1 y) x2
  | x, .divide y1 y2 => .divide (.multiply x y1) y2
  | x, .multiply y1 y2 => .multiply (fromMultiply x y1) y2
  | x, y => .multiply x y

/-- `Expression::from_divide`. -/
def fromDivide : Expr → Expr → Expr
  | x, .divide y1 y2 => fromMultiply x (.divide y2 y1)
  | .divide x1 x2, y => .divide x1 (.multiply x2 y)
  | x, y => .divide x y

/-- `Expression::from_power`. -/
def fromPower : Expr → Expr → Expr
  | .power x1 x2, y => .power x1 (fromMultiply x2 y)
  | .sqrt x0 o, y => .sqrt (fromPower x0 y) o
  | x, y => .power x y

/-- `Expression::from_sqrt`. -/
def fromSqrt (x : Expr) (order : ℕ) : Expr :=
  if order = 0 then x
  else match x with
    | .sqrt y z => .sqrt y (z + order)
    | .multiply y z => fromMultiply (fromSqrt y order) (fromSqrt z order)
    | .divide y z => fromDivide (fromSqrt y order) (fromSqrt z order)
    | x => .sqrt x order

/-- `Expression::from_number` / `from_factorial`. -/
def fromNumber (x : ℤ) : Expr := .number x

def fromFactorial (x : Expr) : Expr := .factorial x

end Expr

/-- **C9** counterexample.  `from_multiply` applied to the product
`√2 · √3` (both sqrt order 1, so common order `min 1 1 = 1`) returns the
plain `Multiply` node, not the square root of the product of the lowered
operands. -/
theorem fromMultiply_sqrt_counterexample :
    Expr.fromMultiply (.sqrt (.number 2) 1) (.sqrt (.number 3) 1)
        = .multiply (.sqrt (.number 2) 1) (.sqrt (.number 3) 1) ∧
    Expr.fromMultiply (.sqrt (.number 2) 1) (.sqrt (.number 3) 1)
        ≠ .sqrt (.multiply (.number 2) (.number 3)) (min 1 1) := by
  exact ⟨rfl, by decide⟩

/-- **C9** (amended).  `from_multiply` never combines square roots: for
all operands and orders the product of two `Sqrt` nodes is the literal
`Multiply` node.  The rewrite `√ᵖa·√ᵖb ≡ √ᵖ(a·b)` is implemented in the
opposite direction by `from_sqrt`, which distributes a square root of
positive order over a product. -/
theorem fromMultiply_sqrt_plain :
    (∀ (a b : Expr) (p q : ℕ),
      Expr.fromMultiply (.sqrt a p) (.sqrt b q) = .multiply (.sqrt a p) (.sqrt b q)) ∧
    (∀ (c d : Expr) (k : ℕ),
      Expr.fromSqrt (.multiply c d) (k + 1)
        = Expr.fromMultiply (Expr.fromSqrt c (k + 1)) (Expr.fromSqrt d (k + 1))) := by
  constructor
  · intro a b p q
    rfl
  · intro c d k
    rw [Expr.fromSqrt]
    simp

/-! ## Digit count of an expression

The digit count of the spec's glossary: the number of occurrences of the
source digit in an expression, a `k`-digit repunit literal counting as
`k` (the decimal length of the literal). -/

namespace Expr

/-- Number of decimal digits of the literal `x`. -/
def digitLen (x : ℤ) : ℕ := (Nat.digits 10 x.natAbs).length

/-- Digit count of an expression. -/
def countDigits : Expr → ℕ
  | .number x => digitLen x
  | .negate a => countDigits a
  | .add a b => countDigits a + countDigits b
  | .subtract a b => countDigits a + countDigits b
  | .multiply a b => countDigits a + countDigits b
  | .divide a b => countDigits a + countDigits b
  | .power a b => countDigits a + countDigits b
  | .sqrt a _ => countDigits a
  | .factorial a => countDigits a

lemma count_fromNegate (a : Expr) : countDigits (fromNegate a) = countDigits a := by
  cases a <;> simp [fromNegate, countDigits] <;> omega

lemma count_fromAdd (x y : Expr) :
    countDigits (fromAdd x y) = countDigits x + countDigits y := by
  induction x, y using fromAdd.induct <;> simp [fromAdd, countDigits] <;> omega

lemma count_fromSubtract (x y : Expr) :
    countDigits (fromSubtract x y) = countDigits x + countDigits y := by
  cases y <;> cases x <;> simp [fromSubtract, count_fromAdd, countDigits] <;> omega

lemma count_fromMultiply (x y : Expr) :
    countDigits (fromMultiply x y) = countDigits x + countDigits y := by
  induction x, y using fromMultiply.induct <;> simp [fromMultiply, countDigits] <;> omega

lemma count_fromDivide (x y : Expr) :
    countDigits (fromDivide x y) = countDigits x + countDigits y := by
  cases y <;> cases x <;> simp [fromDivide, count_fromMultiply, countDigits] <;> omega

lemma count_fromPower (x y : Expr) :
    countDigits (fromPower x y) = countDigits x + countDigits y := by
  induction x, y using fromPower.induct <;>
    simp [fromPower, count_fromMultiply, countDigits] <;> omega

lemma fromSqrt_eq (x : Expr) (s : ℕ) :
    fromSqrt x s = if s = 0 then x
      else match x with
        | .sqrt y z => .sqrt y (z + s)
        | .multiply y z => fromMultiply (fromSqrt y s) (fromSqrt z s)
        | .divide y z => fromDivide (fromSqrt y s) (fromSqrt z s)
        | x => .sqrt x s := by
  cases x <;> rfl

lemma count_fromSqrt (x : Expr) (s : ℕ) :
    countDigits (fromSqrt x s) = countDigits x := by
  by_cases hs : s = 0
  · subst hs
    rw [fromSqrt_eq]
    simp
  · induction x <;> rw [fromSqrt_eq, if_neg hs] <;>
      simp_all [countDigits, count_fromMultiply, count_fromDivide]

end Expr

/-! ## Real-valued semantics of expressions

"Evaluating `e` in the domain yields `v`" is read as: the (real-number)
value of the expression tree equals the embedding of the domain value.
`GoodN e v` says `e` denotes the nonnegative real `v` (with the side
conditions that make every node well defined: positive divisors,
positive bases of powers, natural arguments of factorials, and
nonnegative subtractions).  `GoodX e v` is the sign-free variant needed
for exponent subtrees, where `from_negate` places negated and swapped
subtractions. -/

/-- `s`-fold iterated real square root. -/
noncomputable def sqrtIter (s : ℕ) (x : ℝ) : ℝ := Real.sqrt^[s] x

mutual

inductive GoodN : Expr → ℝ → Prop where
  | number (x : ℤ) (hx : 1 ≤ x) : GoodN (.number x) x
  | add {a b : Expr} {va vb : ℝ} :
      GoodN a va → GoodN b vb → GoodN (.add a b) (va + vb)
  | sub {a b : Expr} {va vb : ℝ} :
      GoodN a va → GoodN b vb → vb ≤ va → GoodN (.subtract a b) (va - vb)
  | mul {a b : Expr} {va vb : ℝ} :
      GoodN a va → GoodN b vb → GoodN (.multiply a b) (va * vb)
  | div {a b : Expr} {va vb : ℝ} :
      GoodN a va → GoodN b vb → 0 < vb → GoodN (.divide a b) (va / vb)
  | pow {a b : Expr} {va vb : ℝ} :
      GoodN a va → 0 < va → GoodX b vb → GoodN (.power a b) (va ^ vb)
  | sqrt {a : Expr} {va : ℝ} (s : ℕ) :
      GoodN a va → GoodN (.sqrt a s) (sqrtIter s va)
  | fact {a : Expr} (m : ℕ) :
      GoodN a m → GoodN (.factorial a) (Nat.factorial m : ℝ)

inductive GoodX : Expr → ℝ → Prop where
  | lift {e : Expr} {v : ℝ} : GoodN e v → GoodX e v
  | neg {e : Expr} {v : ℝ} : GoodX e v → GoodX (.negate e) (-v)
  | sub {a b : Expr} {va vb : ℝ} :
      GoodX a va → GoodX b vb → GoodX (.subtract a b) (va - vb)
  | mul {a b : Expr} {va vb : ℝ} :
      GoodX a va → GoodX b vb → GoodX (.multiply a b) (va * vb)
  | div {a b : Expr} {va vb : ℝ} :
      GoodX a va → GoodX b vb → vb ≠ 0 → GoodX (.divide a b) (va / vb)

end

lemma sqrtIter_nonneg {s : ℕ} {x : ℝ} (hx : 0 ≤ x) : 0 ≤ sqrtIter s x := by
  cases s with
  | zero => simpa [sqrtIter] using hx
  | succ s =>
    rw [sqrtIter, Function.iterate_succ_apply']
    exact Real.sqrt_nonneg _

lemma sqrtIter_succ (s : ℕ) (x : ℝ) :
    sqrtIter (s + 1) x = Real.sqrt (sqrtIter s x) := by
  rw [sqrtIter, Function.iterate_succ_apply', sqrtIter]

lemma sqrtIter_add (s t : ℕ) (x : ℝ) :
    sqrtIter (s + t) x = sqrtIter t (sqrtIter s x) := by
  rw [sqrtIter, sqrtIter, sqrtIter, Nat.add_comm, Function.iterate_add_apply]

lemma sqrtIter_pos {s : ℕ} {x : ℝ} (hx : 0 < x) : 0 < sqrtIter s x := by
  induction s with
  | zero => simpa [sqrtIter] using hx
  | succ s ih =>
    rw [sqrtIter_succ]
    exact Real.sqrt_pos.2 ih

lemma sqrtIter_mul {s : ℕ} {x y : ℝ} (hx : 0 ≤ x) :
    sqrtIter s (x * y) = sqrtIter s x * sqrtIter s y := by
  induction s with
  | zero => simp [sqrtIter]
  | succ s ih =>
    rw [sqrtIter_succ, sqrtIter_succ, sqrtIter_succ, ih,
      Real.sqrt_mul (sqrtIter_nonneg hx)]

lemma sqrtIter_div {s : ℕ} {x y : ℝ} (hx : 0 ≤ x) :
    sqrtIter s (x / y) = sqrtIter s x / sqrtIter s y := by
  induction s with
  | zero => simp [sqrtIter]
  | succ s ih =>
    rw [sqrtIter_succ, sqrtIter_succ, sqrtIter_succ, ih,
      Real.sqrt_div (sqrtIter_nonneg hx)]

/-- Every `GoodN` value is nonnegative. -/
lemma GoodN.nonneg : ∀ {e : Expr} {v : ℝ}, GoodN e v → 0 ≤ v := by
  intro e
  induction e with
  | number x =>
    intro v h
    cases h with
    | number _ hx =>
      have : (1 : ℝ) ≤ (x : ℝ) := by exact_mod_cast hx
      linarith
  | negate a iha => intro v h; cases h
  | add a b iha ihb =>
    intro v h
    cases h with
    | add ha hb => have := iha ha; have := ihb hb; linarith
  | subtract a b iha ihb =>
    intro v h
    cases h with
    | sub ha hb hle => have := ihb hb; linarith
  | multiply a b iha ihb =>
    intro v h
    cases h with
    | mul ha hb => exact mul_nonneg (iha ha) (ihb hb)
  | divide a b iha ihb =>
    intro v h
    cases h with
    | div ha hb hpos => exact div_nonneg (iha ha) (le_of_lt hpos)
  | power a b iha ihb =>
    intro v h
    cases h with
    | pow ha hpos hb => exact Real.rpow_nonneg (le_of_lt hpos) _
  | sqrt a s iha =>
    intro v h
    cases h with
    | sqrt _ ha => exact sqrtIter_nonneg (iha ha)
  | factorial a iha =>
    intro v h
    cases h with
    | fact m _ => positivity

/-! Unfolding equations of the smart constructors, one per match arm. -/

namespace Expr

lemma fromMultiply_dd (x1 x2 y1 y2 : Expr) :
    fromMultiply (.divide x1 x2) (.divide y1 y2)
      = .divide (.multiply x1 y1) (.multiply x2 y2) := rfl

lemma fromMultiply_dy (x1 x2 y : Expr) (hy : ∀ y1 y2, y ≠ .divide y1 y2) :
    fromMultiply (.divide x1 x2) y = .divide (.multiply x1 y) x2 := by
  cases y <;> first | rfl | exact absurd rfl (hy _ _)

lemma fromMultiply_xd (x y1 y2 : Expr) (hx : ∀ x1 x2, x ≠ .divide x1 x2) :
    fromMultiply x (.divide y1 y2) = .divide (.multiply x y1) y2 := by
  cases x <;> first | rfl | exact absurd rfl (hx _ _)

lemma fromMultiply_xm (x y1 y2 : Expr) (hx : ∀ x1 x2, x ≠ .divide x1 x2) :
    fromMultiply x (.multiply y1 y2) = .multiply (fromMultiply x y1) y2 := by
  cases x <;> first | rfl | exact absurd rfl (hx _ _)

lemma fromMultiply_plain (x y : Expr) (hx : ∀ x1 x2, x ≠ .divide x1 x2)
    (hy1 : ∀ y1 y2, y ≠ .divide y1 y2) (hy2 : ∀ y1 y2, y ≠ .multiply y1 y2) :
    fromMultiply x y = .multiply x y := by
  cases x <;> cases y <;>
    first
      | rfl
      | exact absurd rfl (hx _ _)
      | exact absurd rfl (hy1 _ _)
      | exact absurd rfl (hy2 _ _)

lemma fromAdd_ss (x1 x2 y1 y2 : Expr) :
    fromAdd (.subtract x1 x2) (.subtract y1 y2)
      = .subtract (.add x1 y1) (.add x2 y2) := rfl

lemma fromAdd_sy (x1 x2 y : Expr) (hy : ∀ y1 y2, y ≠ .subtract y1 y2) :
    fromAdd (.subtract x1 x2) y = .subtract (.add x1 y) x2 := by
  cases y <;> first | rfl | exact absurd rfl (hy _ _)

lemma fromAdd_xs (x y1 y2 : Expr) (hx : ∀ x1 x2, x ≠ .subtract x1 x2) :
    fromAdd x (.subtract y1 y2) = .subtract (.add x y1) y2 := by
  cases x <;> first | rfl | exact absurd rfl (hx _ _)

lemma fromAdd_xa (x y1 y2 : Expr) (hx : ∀ x1 x2, x ≠ .subtract x1 x2) :
    fromAdd x (.add y1 y2) = .add (fromAdd x y1) y2 := by
  cases x <;> first | rfl | exact absurd rfl (hx _ _)

lemma fromAdd_plain (x y : Expr) (hx : ∀ x1 x2, x ≠ .subtract x1 x2)
    (hy1 : ∀ y1 y2, y ≠ .subtract y1 y2) (hy2 : ∀ y1 y2, y ≠ .add y1 y2) :
    fromAdd x y = .add x y := by
  cases x <;> cases y <;>
    first
      | rfl
      | exact absurd rfl (hx _ _)
      | exact absurd rfl (hy1 _ _)
      | exact absurd rfl (hy2 _ _)

lemma fromSubtract_ys (x y1 y2 : Expr) :
    fromSubtract x (.subtract y1 y2) = fromAdd x (.subtract y2 y1) := by
  cases x <;> rfl

lemma fromSubtract_sy (x1 x2 y : Expr) (hy : ∀ y1 y2, y ≠ .subtract y1 y2) :
    fromSubtract (.subtract x1 x2) y = .subtract x1 (.add x2 y) := by
  cases y <;> first | rfl | exact absurd rfl (hy _ _)

lemma fromSubtract_plain (x y : Expr) (hx : ∀ x1 x2, x ≠ .subtract x1 x2)
    (hy : ∀ y1 y2, y ≠ .subtract y1 y2) :
    fromSubtract x y = .subtract x y := by
  cases x <;> cases y <;>
    first
      | rfl
      | exact absurd rfl (hx _ _)
      | exact absurd rfl (hy _ _)

lemma fromDivide_yd (x y1 y2 : Expr) :
    fromDivide x (.divide y1 y2) = fromMultiply x (.divide y2 y1) := by
  cases x <;> rfl

lemma fromDivide_dy (x1 x2 y : Expr) (hy : ∀ y1 y2, y ≠ .divide y1 y2) :
    fromDivide (.divide x1 x2) y = .divide x1 (.multiply x2 y) := by
  cases y <;> first | rfl | exact absurd rfl (hy _ _)

lemma fromDivide_plain (x y : Expr) (hx : ∀ x1 x2, x ≠ .divide x1 x2)
    (hy : ∀ y1 y2, y ≠ .divide y1 y2) :
    fromDivide x y = .divide x y := by
  cases x <;> cases y <;>
    first
      | rfl
      | exact absurd rfl (hx _ _)
      | exact absurd rfl (hy _ _)

lemma fromPower_p (x1 x2 y : Expr) :
    fromPower (.power x1 x2) y = .power x1 (fromMultiply x2 y) := rfl

lemma fromPower_s (x0 : Expr) (o : ℕ) (y : Expr) :
    fromPower (.sqrt x0 o) y = .sqrt (fromPower x0 y) o := rfl

lemma fromPower_plain (x y : Expr) (hx1 : ∀ x1 x2, x ≠ .power x1 x2)
    (hx2 : ∀ x0 o, x ≠ .sqrt x0 o) :
    fromPower x y = .power x y := by
  cases x <;>
    first
      | rfl
      | exact absurd rfl (hx1 _ _)
      | exact absurd rfl (hx2 _ _)

lemma fromNegate_s (y z : Expr) : fromNegate (.subtract y z) = .subtract z y := rfl

lemma fromNegate_plain (x : Expr) (hx : ∀ x1 x2, x ≠ .subtract x1 x2) :
    fromNegate x = .negate x := by
  cases x <;> first | rfl | exact absurd rfl (hx _ _)

end Expr

/-! Inversion lemmas for `GoodX`. -/

lemma GoodX.subtract_inv {a b : Expr} {v : ℝ} (h : GoodX (.subtract a b) v) :
    ∃ va vb, GoodX a va ∧ GoodX b vb ∧ v = va - vb := by
  cases h with
  | lift h' =>
    cases h' with
    | sub ha hb _ => exact ⟨_, _, .lift ha, .lift hb, rfl⟩
  | sub ha hb => exact ⟨_, _, ha, hb, rfl⟩

lemma GoodX.multiply_inv {a b : Expr} {v : ℝ} (h : GoodX (.multiply a b) v) :
    ∃ va vb, GoodX a va ∧ GoodX b vb ∧ v = va * vb := by
  cases h with
  | lift h' =>
    cases h' with
    | mul ha hb => exact ⟨_, _, .lift ha, .lift hb, rfl⟩
  | mul ha hb => exact ⟨_, _, ha, hb, rfl⟩

lemma GoodX.divide_inv {a b : Expr} {v : ℝ} (h : GoodX (.divide a b) v) :
    ∃ va vb, GoodX a va ∧ GoodX b vb ∧ vb ≠ 0 ∧ v = va / vb := by
  cases h with
  | lift h' =>
    cases h' with
    | div ha hb hb0 => exact ⟨_, _, .lift ha, .lift hb, ne_of_gt hb0, rfl⟩
  | div ha hb hb0 => exact ⟨_, _, ha, hb, hb0, rfl⟩

/-- `from_negate` is value-correct on exponent subtrees. -/
lemma good_fromNegateX {e : Expr} {v : ℝ} (h : GoodX e v) :
    GoodX (Expr.fromNegate e) (-v) := by
  cases e with
  | subtract y z =>
    rcases h.subtract_inv with ⟨vy, vz, hy, hz, rfl⟩
    rw [Expr.fromNegate_s]
    have : -(vy - vz) = vz - vy := by ring
    rw [this]
    exact .sub hz hy
  | number x => rw [Expr.fromNegate_plain _ (by intro _ _ h; cases h)]; exact .neg h
  | negate a => rw [Expr.fromNegate_plain _ (by intro _ _ h; cases h)]; exact .neg h
  | add a b => rw [Expr.fromNegate_plain _ (by intro _ _ h; cases h)]; exact .neg h
  | multiply a b => rw [Expr.fromNegate_plain _ (by intro _ _ h; cases h)]; exact .neg h
  | divide a b => rw [Expr.fromNegate_plain _ (by intro _ _ h; cases h)]; exact .neg h
  | power a b => rw [Expr.fromNegate_plain _ (by intro _ _ h; cases h)]; exact .neg h
  | sqrt a s => rw [Expr.fromNegate_plain _ (by intro _ _ h; cases h)]; exact .neg h
  | factorial a => rw [Expr.fromNegate_plain _ (by intro _ _ h; cases h)]; exact .neg h

/-- `from_multiply` is value-correct on exponent subtrees. -/
lemma good_fromMultiplyX (a b : Expr) :
    ∀ {va vb : ℝ}, GoodX a va → GoodX b vb → GoodX (Expr.fromMultiply a b) (va * vb) := by
  induction a, b using Expr.fromMultiply.induct with
  | case1 x1 x2 y1 y2 =>
    intro va vb ha hb
    rcases ha.divide_inv with ⟨a1, a2, h1, h2, h20, rfl⟩
    rcases hb.divide_inv with ⟨b1, b2, h3, h4, h40, rfl⟩
    rw [Expr.fromMultiply_dd]
    have : a1 / a2 * (b1 / b2) = (a1 * b1) / (a2 * b2) := by
      field_simp
    rw [this]
    exact .div (.mul h1 h3) (.mul h2 h4) (mul_ne_zero h20 h40)
  | case2 x1 x2 y hy =>
    intro va vb ha hb
    rcases ha.divide_inv with ⟨a1, a2, h1, h2, h20, rfl⟩
    rw [Expr.fromMultiply_dy _ _ _ (fun y1 y2 h => hy y1 y2 h)]
    have : a1 / a2 * vb = (a1 * vb) / a2 := by field_simp
    rw [this]
    exact .div (.mul h1 hb) h2 h20
  | case3 x y1 y2 hx _ =>
    intro va vb ha hb
    rcases hb.divide_inv with ⟨b1, b2, h3, h4, h40, rfl⟩
    rw [Expr.fromMultiply_xd _ _ _ (fun x1 x2 h => hx x1 x2 h)]
    have : va * (b1 / b2) = (va * b1) / b2 := by field_simp
    rw [this]
    exact .div (.mul ha h3) h4 h40
  | case4 x y1 y2 hx ih =>
    intro va vb ha hb
    rcases hb.multiply_inv with ⟨b1, b2, h3, h4, rfl⟩
    rw [Expr.fromMultiply_xm _ _ _ (fun x1 x2 h => hx x1 x2 h)]
    have : va * (b1 * b2) = (va * b1) * b2 := by ring
    rw [this]
    exact .mul (ih ha h3) h4
  | case5 x y _ hx hyd hym =>
    intro va vb ha hb
    rw [Expr.fromMultiply_plain _ _ (fun x1 x2 h => hx x1 x2 h)
      (fun y1 y2 h => hyd y1 y2 h) (fun y1 y2 h => hym y1 y2 h)]
    exact .mul ha hb

/-! Value-correctness of the smart constructors on stored (nonnegative)
expressions. -/

lemma good_fromAdd {a b : Expr} :
    ∀ {va vb : ℝ}, GoodN a va → GoodN b vb → GoodN (Expr.fromAdd a b) (va + vb) := by
  induction a, b using Expr.fromAdd.induct with
  | case1 x1 x2 y1 y2 =>
    intro va vb ha hb
    cases ha with | sub h1 h2 h12 =>
    cases hb with | sub h3 h4 h34 =>
    rw [Expr.fromAdd_ss]
    have heq : ∀ a1 a2 b1 b2 : ℝ, (a1 - a2) + (b1 - b2) = (a1 + b1) - (a2 + b2) := by
      intro _ _ _ _; ring
    rw [heq]
    exact .sub (.add h1 h3) (.add h2 h4) (by linarith)
  | case2 x1 x2 y hy =>
    intro va vb ha hb
    cases ha with | sub h1 h2 h12 =>
    rw [Expr.fromAdd_sy _ _ _ (fun y1 y2 h => hy y1 y2 h)]
    have hb0 := hb.nonneg
    have heq : ∀ a1 a2 b : ℝ, (a1 - a2) + b = (a1 + b) - a2 := by intro _ _ _; ring
    rw [heq]
    exact .sub (.add h1 hb) h2 (by linarith)
  | case3 x y1 y2 hx _ =>
    intro va vb ha hb
    cases hb with | sub h3 h4 h34 =>
    rw [Expr.fromAdd_xs _ _ _ (fun x1 x2 h => hx x1 x2 h)]
    have ha0 := ha.nonneg
    have heq : ∀ a b1 b2 : ℝ, a + (b1 - b2) = (a + b1) - b2 := by intro _ _ _; ring
    rw [heq]
    exact .sub (.add ha h3) h4 (by linarith)
  | case4 x y1 y2 hx ih =>
    intro va vb ha hb
    cases hb with | add h3 h4 =>
    rw [Expr.fromAdd_xa _ _ _ (fun x1 x2 h => hx x1 x2 h)]
    have heq : ∀ a b1 b2 : ℝ, a + (b1 + b2) = (a + b1) + b2 := by intro _ _ _; ring
    rw [heq]
    exact .add (ih ha h3) h4
  | case5 x y _ hx hy1 hy2 =>
    intro va vb ha hb
    rw [Expr.fromAdd_plain _ _ (fun x1 x2 h => hx x1 x2 h)
      (fun y1 y2 h => hy1 y1 y2 h) (fun y1 y2 h => hy2 y1 y2 h)]
    exact .add ha hb

/-- `from_add` applied to a right operand that is a raw `Subtract` node —
the shape `from_subtract` produces internally — needs only
`vq ≤ va + vp`. -/
lemma good_fromAdd_sub_right {a p q : Expr} {va vp vq : ℝ}
    (ha : GoodN a va) (hp : GoodN p vp) (hq : GoodN q vq)
    (hle : vq ≤ va + vp) :
    GoodN (Expr.fromAdd a (.subtract p q)) (va + (vp - vq)) := by
  rcases Classical.em (∃ a1 a2, a = .subtract a1 a2) with ⟨a1, a2, rfl⟩ | hno
  · cases ha with | sub h1 h2 h12 =>
    rw [Expr.fromAdd_ss]
    have heq : ∀ a1 a2 b1 b2 : ℝ, (a1 - a2) + (b1 - b2) = (a1 + b1) - (a2 + b2) := by
      intro _ _ _ _; ring
    rw [heq]
    exact .sub (.add h1 hp) (.add h2 hq) (by linarith)
  · rw [Expr.fromAdd_xs _ _ _ (fun x1 x2 h => hno ⟨x1, x2, h⟩)]
    have heq : ∀ a b1 b2 : ℝ, a + (b1 - b2) = (a + b1) - b2 := by intro _ _ _; ring
    rw [heq]
    exact .sub (.add ha hp) hq (by linarith)

lemma good_fromSubtract {a b : Expr} {va vb : ℝ}
    (ha : GoodN a va) (hb : GoodN b vb) (hle : vb ≤ va) :
    GoodN (Expr.fromSubtract a b) (va - vb) := by
  rcases Classical.em (∃ b1 b2, b = .subtract b1 b2) with ⟨b1, b2, rfl⟩ | hnb
  · cases hb with | sub h3 h4 h34 =>
    rw [Expr.fromSubtract_ys]
    have h30 := h3.nonneg
    have h40 := h4.nonneg
    have := good_fromAdd_sub_right ha h4 h3 (by linarith)
    have heq : ∀ a b1 b2 : ℝ, a + (b2 - b1) = a - (b1 - b2) := by intro _ _ _; ring
    rw [heq] at this
    exact this
  · rcases Classical.em (∃ a1 a2, a = .subtract a1 a2) with ⟨a1, a2, rfl⟩ | hna
    · cases ha with | sub h1 h2 h12 =>
      rw [Expr.fromSubtract_sy _ _ _ (fun y1 y2 h => hnb ⟨y1, y2, h⟩)]
      have hb0 := hb.nonneg
      have heq : ∀ a1 a2 b : ℝ, (a1 - a2) - b = a1 - (a2 + b) := by intro _ _ _; ring
      rw [heq]
      exact .sub h1 (.add h2 hb) (by linarith)
    · rw [Expr.fromSubtract_plain _ _ (fun x1 x2 h => hna ⟨x1, x2, h⟩)
        (fun y1 y2 h => hnb ⟨y1, y2, h⟩)]
      exact .sub ha hb hle

lemma good_fromMultiply {a b : Expr} :
    ∀ {va vb : ℝ}, GoodN a va → GoodN b vb → GoodN (Expr.fromMultiply a b) (va * vb) := by
  induction a, b using Expr.fromMultiply.induct with
  | case1 x1 x2 y1 y2 =>
    intro va vb ha hb
    cases ha with | div h1 h2 h20 =>
    cases hb with | div h3 h4 h40 =>
    rw [Expr.fromMultiply_dd]
    have heq : ∀ a1 a2 b1 b2 : ℝ, a2 ≠ 0 → b2 ≠ 0 →
        (a1 / a2) * (b1 / b2) = (a1 * b1) / (a2 * b2) := by
      intro a1 a2 b1 b2 h2 h4; field_simp
    rw [heq _ _ _ _ (ne_of_gt h20) (ne_of_gt h40)]
    exact .div (.mul h1 h3) (.mul h2 h4) (mul_pos h20 h40)
  | case2 x1 x2 y hy =>
    intro va vb ha hb
    cases ha with | div h1 h2 h20 =>
    rw [Expr.fromMultiply_dy _ _ _ (fun y1 y2 h => hy y1 y2 h)]
    have heq : ∀ a1 a2 b : ℝ, a2 ≠ 0 → (a1 / a2) * b = (a1 * b) / a2 := by
      intro a1 a2 b h2; field_simp
    rw [heq _ _ _ (ne_of_gt h20)]
    exact .div (.mul h1 hb) h2 h20
  | case3 x y1 y2 hx _ =>
    intro va vb ha hb
    cases hb with | div h3 h4 h40 =>
    rw [Expr.fromMultiply_xd _ _ _ (fun x1 x2 h => hx x1 x2 h)]
    have heq : ∀ a b1 b2 : ℝ, b2 ≠ 0 → a * (b1 / b2) = (a * b1) / b2 := by
      intro a b1 b2 h4; field_simp
    rw [heq _ _ _ (ne_of_gt h40)]
    exact .div (.mul ha h3) h4 h40
  | case4 x y1 y2 hx ih =>
    intro va vb ha hb
    cases hb with | mul h3 h4 =>
    rw [Expr.fromMultiply_xm _ _ _ (fun x1 x2 h => hx x1 x2 h)]
    have heq : ∀ a b1 b2 : ℝ, a * (b1 * b2) = (a * b1) * b2 := by intro _ _ _; ring
    rw [heq]
    exact .mul (ih ha h3) h4
  | case5 x y _ hx hyd hym =>
    intro va vb ha hb
    rw [Expr.fromMultiply_plain _ _ (fun x1 x2 h => hx x1 x2 h)
      (fun y1 y2 h => hyd y1 y2 h) (fun y1 y2 h => hym y1 y2 h)]
    exact .mul ha hb

lemma good_fromDivide {a b : Expr} {va vb : ℝ}
    (ha : GoodN a va) (hb : GoodN b vb) (hbpos : 0 < vb) :
    GoodN (Expr.fromDivide a b) (va / vb) := by
  rcases Classical.em (∃ b1 b2, b = .divide b1 b2) with ⟨b1, b2, rfl⟩ | hnb
  · cases hb with | div h3 h4 h40 =>
    rw [Expr.fromDivide_yd]
    rename_i vb1 vb2
    have hb1 : 0 < vb1 := by
      by_contra hb1
      push_neg at hb1
      have : vb1 / vb2 ≤ 0 := div_nonpos_of_nonpos_of_nonneg hb1 (le_of_lt h40)
      linarith
    have := good_fromMultiply ha (GoodN.div h4 h3 hb1)
    have heq : va * (vb2 / vb1) = va / (vb1 / vb2) := by
      field_simp
    rw [heq] at this
    exact this
  · rcases Classical.em (∃ a1 a2, a = .divide a1 a2) with ⟨a1, a2, rfl⟩ | hna
    · cases ha with | div h1 h2 h20 =>
      rw [Expr.fromDivide_dy _ _ _ (fun y1 y2 h => hnb ⟨y1, y2, h⟩)]
      rename_i va1 va2
      have heq : (va1 / va2) / vb = va1 / (va2 * vb) := by
        field_simp
      rw [heq]
      exact .div h1 (.mul h2 hb) (mul_pos h20 hbpos)
    · rw [Expr.fromDivide_plain _ _ (fun x1 x2 h => hna ⟨x1, x2, h⟩)
        (fun y1 y2 h => hnb ⟨y1, y2, h⟩)]
      exact .div ha hb hbpos

namespace Expr

lemma fromSqrt_zero (x : Expr) : fromSqrt x 0 = x := by cases x <;> rfl

lemma fromSqrt_sq (y : Expr) (z s : ℕ) (hs : s ≠ 0) :
    fromSqrt (.sqrt y z) s = .sqrt y (z + s) := by
  rw [fromSqrt_eq, if_neg hs]

lemma fromSqrt_mul (y z : Expr) (s : ℕ) (hs : s ≠ 0) :
    fromSqrt (.multiply y z) s = fromMultiply (fromSqrt y s) (fromSqrt z s) := by
  rw [fromSqrt_eq, if_neg hs]

lemma fromSqrt_div (y z : Expr) (s : ℕ) (hs : s ≠ 0) :
    fromSqrt (.divide y z) s = fromDivide (fromSqrt y s) (fromSqrt z s) := by
  rw [fromSqrt_eq, if_neg hs]

lemma fromSqrt_plain (x : Expr) (s : ℕ) (hs : s ≠ 0)
    (h1 : ∀ y z, x ≠ .sqrt y z) (h2 : ∀ y z, x ≠ .multiply y z)
    (h3 : ∀ y z, x ≠ .divide y z) :
    fromSqrt x s = .sqrt x s := by
  rw [fromSqrt_eq, if_neg hs]
  cases x <;>
    first
      | rfl
      | exact absurd rfl (h1 _ _)
      | exact absurd rfl (h2 _ _)
      | exact absurd rfl (h3 _ _)

end Expr

lemma pos_of_sqrtIter_pos {o : ℕ} {x : ℝ} (h : 0 < sqrtIter o x) : 0 < x := by
  induction o with
  | zero => simpa [sqrtIter] using h
  | succ o ih =>
    rw [sqrtIter_succ] at h
    exact ih (Real.sqrt_pos.1 h)

lemma sqrtIter_rpow (o : ℕ) {x : ℝ} (hx : 0 < x) (c : ℝ) :
    sqrtIter o (x ^ c) = (sqrtIter o x) ^ c := by
  induction o with
  | zero => simp [sqrtIter]
  | succ o ih =>
    rw [sqrtIter_succ, sqrtIter_succ, ih]
    have hz : 0 < sqrtIter o x := sqrtIter_pos hx
    rw [Real.sqrt_eq_rpow, Real.sqrt_eq_rpow,
      ← Real.rpow_mul (le_of_lt hz), ← Real.rpow_mul (le_of_lt hz), mul_comm c (1 / 2)]

/-- `from_sqrt` is value-correct: it computes the `s`-fold square root,
distributing over products and quotients. -/
lemma good_fromSqrt {a : Expr} (s : ℕ) :
    ∀ {va : ℝ}, GoodN a va → GoodN (Expr.fromSqrt a s) (sqrtIter s va) := by
  rcases Nat.eq_zero_or_pos s with rfl | hs
  · intro va ha
    rw [Expr.fromSqrt_zero]
    simpa [sqrtIter] using ha
  · have hs0 : s ≠ 0 := Nat.pos_iff_ne_zero.1 hs
    induction a with
    | sqrt y z _ =>
      intro va ha
      cases ha with | sqrt _ hy =>
      rw [Expr.fromSqrt_sq _ _ _ hs0, ← sqrtIter_add]
      exact .sqrt _ hy
    | multiply y z ihy ihz =>
      intro va ha
      cases ha with | mul hy hz =>
      rw [Expr.fromSqrt_mul _ _ _ hs0, sqrtIter_mul hy.nonneg]
      exact good_fromMultiply (ihy hy) (ihz hz)
    | divide y z ihy ihz =>
      intro va ha
      cases ha with | div hy hz hz0 =>
      rw [Expr.fromSqrt_div _ _ _ hs0, sqrtIter_div hy.nonneg]
      exact good_fromDivide (ihy hy) (ihz hz) (sqrtIter_pos hz0)
    | number x =>
      intro va ha
      rw [Expr.fromSqrt_plain _ _ hs0 (by intro _ _ h; cases h)
        (by intro _ _ h; cases h) (by intro _ _ h; cases h)]
      exact .sqrt _ ha
    | negate a _ =>
      intro va ha
      rw [Expr.fromSqrt_plain _ _ hs0 (by intro _ _ h; cases h)
        (by intro _ _ h; cases h) (by intro _ _ h; cases h)]
      exact .sqrt _ ha
    | add a b _ _ =>
      intro va ha
      rw [Expr.fromSqrt_plain _ _ hs0 (by intro _ _ h; cases h)
        (by intro _ _ h; cases h) (by intro _ _ h; cases h)]
      exact .sqrt _ ha
    | subtract a b _ _ =>
      intro va ha
      rw [Expr.fromSqrt_plain _ _ hs0 (by intro _ _ h; cases h)
        (by intro _ _ h; cases h) (by intro _ _ h; cases h)]
      exact .sqrt _ ha
    | power a b _ _ =>
      intro va ha
      rw [Expr.fromSqrt_plain _ _ hs0 (by intro _ _ h; cases h)
        (by intro _ _ h; cases h) (by intro _ _ h; cases h)]
      exact .sqrt _ ha
    | factorial a _ =>
      intro va ha
      rw [Expr.fromSqrt_plain _ _ hs0 (by intro _ _ h; cases h)
        (by intro _ _ h; cases h) (by intro _ _ h; cases h)]
      exact .sqrt _ ha

/-- `from_power` is value-correct: it lifts exponents through `Power` and
through `Sqrt`. -/
lemma good_fromPower {a : Expr} :
    ∀ {b : Expr} {va vb : ℝ}, GoodN a va → 0 < va → GoodX b vb →
      GoodN (Expr.fromPower a b) (va ^ vb) := by
  induction a with
  | power a1 a2 iha _ =>
    intro b va vb ha hpos hb
    cases ha with | pow h1 h1pos h2 =>
    rw [Expr.fromPower_p]
    rename_i va1 va2
    rw [← Real.rpow_mul (le_of_lt h1pos)]
    exact .pow h1 h1pos (good_fromMultiplyX _ _ h2 hb)
  | sqrt a0 o iha =>
    intro b va vb ha hpos hb
    cases ha with | sqrt _ h0 =>
    rename_i v0
    have h0pos : 0 < v0 := pos_of_sqrtIter_pos hpos
    rw [Expr.fromPower_s, ← sqrtIter_rpow o h0pos]
    exact .sqrt _ (iha h0 h0pos hb)
  | number x =>
    intro b va vb ha hpos hb
    rw [Expr.fromPower_plain _ _ (by intro _ _ h; cases h) (by intro _ _ h; cases h)]
    exact .pow ha hpos hb
  | negate a _ =>
    intro b va vb ha hpos hb
    rw [Expr.fromPower_plain _ _ (by intro _ _ h; cases h) (by intro _ _ h; cases h)]
    exact .pow ha hpos hb
  | add a b _ _ =>
    intro b va vb ha hpos hb
    rw [Expr.fromPower_plain _ _ (by intro _ _ h; cases h) (by intro _ _ h; cases h)]
    exact .pow ha hpos hb
  | subtract a b _ _ =>
    intro b va vb ha hpos hb
    rw [Expr.fromPower_plain _ _ (by intro _ _ h; cases h) (by intro _ _ h; cases h)]
    exact .pow ha hpos hb
  | multiply a b _ _ =>
    intro b va vb ha hpos hb
    rw [Expr.fromPower_plain _ _ (by intro _ _ h; cases h) (by intro _ _ h; cases h)]
    exact .pow ha hpos hb
  | divide a b _ _ =>
    intro b va vb ha hpos hb
    rw [Expr.fromPower_plain _ _ (by intro _ _ h; cases h) (by intro _ _ h; cases h)]
    exact .pow ha hpos hb
  | factorial a _ =>
    intro b va vb ha hpos hb
    rw [Expr.fromPower_plain _ _ (by intro _ _ h; cases h) (by intro _ _ h; cases h)]
    exact .pow ha hpos hb

/-! ## The integer solver (`Solver<i64>`)

Shallow embedding of `src/solver/{mod,solver,searcher,range_check,
unary_operation,binary_operation}.rs` instantiated at the `i64` domain.
Modelling conventions:
* `i64` values are exact integers (`ℤ`); the solver theorems carry
  hypotheses (`max_digits ≤ 57`, `max_factorial ≤ 34`) under which no
  `i64`/`i128` operation of the source can overflow, so this is faithful.
* The hash map `states` is an association list with fresh-key insertion
  (the gate guarantees keys are fresh).
* Rust's truncating `/` and `%` are `Int.tdiv`/`Int.tmod`.
* The two `f64` `log2` admission tests are modelled by the exact integer
  inequalities they implement (`k·log₂10 − log₂9 ≤ md ↔ 10^k ≤ 9·2^md`,
  proved below against the real logarithm, and
  `log₂x · e > md ↔ x^e > 2^md` for `x ≥ 1`).
* `number_theory::try_sqrt` is modelled by its exact behaviour
  (established in `trySqrt_correct`): success exactly on perfect squares.
* `search` is modelled as one full level; the resumption token only
  matters across separate `solve` calls after an early exit, and within
  one `solve` call every level that continues the loop ran to
  completion, which is what the model computes.
* The recursion of the insertion gate through `sqrt`/`factorial` is
  fuel-indexed; every theorem below holds for every fuel value.
-/

/-- `Limits` (`src/solver/mod.rs`). -/
structure Limits where
  maxDigits : ℕ
  maxFactorial : ℤ
  maxQuadraticPower : ℕ
  deriving Repr, DecidableEq

/-- `State<T>` (`src/solver/mod.rs`) at `T = i64`. -/
structure SR where
  number : ℤ
  digits : ℕ
  expression : Expr
  deriving Repr, DecidableEq

/-- The fields of `Solver<i64>` that the embedded operations touch. -/
structure IState where
  n : ℤ
  target : ℤ
  table : List (ℤ × Expr × ℕ)
  byDepth : List (List ℤ)
  extraByDepth : List (List (ℤ × Expr))
  depthSearched : ℕ
  limits : Limits
  progressive : Bool
  newNumbers : List ℤ
  deriving Repr, DecidableEq

/-- Association list lookup (the `states` hash map). -/
def tlookup : List (ℤ × Expr × ℕ) → ℤ → Option (Expr × ℕ)
  | [], _ => none
  | (k, e, d) :: t, v => if k = v then some (e, d) else tlookup t v

/-- `vec.resize(n, [])`-style padding. -/
def padTo {α : Type} (l : List (List α)) (n : ℕ) : List (List α) :=
  l ++ List.replicate (n - l.length) []

/-- `resize` + `push` into `states_by_depth[digits]`. -/
def pushAt (l : List (List ℤ)) (d : ℕ) (v : ℤ) : List (List ℤ) :=
  let l' := padTo l (d + 1)
  l'.set d (l'.getD d [] ++ [v])

def byDepthAt (st : IState) (d : ℕ) : List ℤ := st.byDepth.getD d []

/-- `RangeCheck<i64>` (`src/solver/range_check.rs` lines 14–19):
`*x <= 1 << max_digits`. -/
def rangeCheckI (st : IState) (x : ℤ) : Prop := x ≤ 2 ^ st.limits.maxDigits

instance (st : IState) (x : ℤ) : Decidable (rangeCheckI st x) := by
  unfold rangeCheckI; infer_instance

/-- `Solver::insert` (`src/solver/solver.rs` lines 119–129). -/
def insertI (x : ℤ) (digits : ℕ) (e : Expr) (st : IState) : Bool × IState :=
  (x == st.target,
    { st with
        table := (x, e, digits) :: st.table
        byDepth := pushAt st.byDepth digits x
        newNumbers := if st.progressive then st.newNumbers ++ [x] else st.newNumbers })

/-- The exact behaviour of `number_theory::try_sqrt` on `i64` inputs
(see `trySqrt_correct`): the root of a perfect square, `none`
otherwise. -/
def intSqrt? (v : ℤ) : Option ℤ :=
  if 0 ≤ v ∧ Int.sqrt v * Int.sqrt v = v then some (Int.sqrt v) else none

/-- `Solver::try_insert` (`src/solver/solver.rs` lines 71–97), the
`check` gate of §4.4.1, with its chained `sqrt` (`unary_operation.rs`
lines 109–117) and `factorial` (`unary_operation.rs` lines 79–91) calls;
`is_int` is identically true on `i64`. -/
def tryInsert : ℕ → ℤ → ℕ → Expr → IState → Bool × IState
  | 0, _, _, _, st => (false, st)
  | fuel + 1, x, digits, e, st =>
    if ¬ rangeCheckI st x ∨ (tlookup st.table x).isSome then (false, st)
    else
      let p1 := insertI x digits e st
      let p2 :=
        match intSqrt? x with
        | some y => tryInsert fuel y digits (Expr.fromSqrt e 1) p1.2
        | none => (false, p1.2)
      let p3 :=
        if x < st.limits.maxFactorial then
          tryInsert fuel (factorial x) digits (Expr.fromFactorial e) p2.2
        else (false, p2.2)
      (p1.1 || p2.1 || p3.1, p3.2)

/-- The concat admission gate: the exact content of
`digits·log₂10 − log₂9 ≤ max_digits` (equivalence with the real-log form
proved in `concatGate_iff_logb`). -/
def concatGate (d md : ℕ) : Prop := (10 : ℤ) ^ d ≤ 9 * 2 ^ md

instance (d md : ℕ) : Decidable (concatGate d md) := by
  unfold concatGate; infer_instance

/-- The repunit value `(10^d − 1)/9 · n`. -/
def repunit (n : ℤ) (d : ℕ) : ℤ := (10 ^ d - 1) / 9 * n

/-- `concat` (`src/solver/unary_operation.rs` lines 67–73). -/
def concatI (fuel d : ℕ) (st : IState) : Bool × IState :=
  if ¬ concatGate d st.limits.maxDigits then (false, st)
  else tryInsert fuel (repunit st.n d) d (Expr.fromNumber (repunit st.n d)) st

/-- `is_single_digit` (`src/solver/unary_operation.rs` lines 11–19;
`to_int` on the `i64`-valued `Number` leaf is the identity). -/
def isSingleDigit : Expr → Bool
  | .number x => x < 10
  | .negate a => isSingleDigit a
  | .sqrt a _ => isSingleDigit a
  | .factorial a => isSingleDigit a
  | _ => false

/-- `division_diff_one` for `i64`
(`src/solver/unary_operation.rs` lines 119–146). -/
def ddoI (fuel : ℕ) (x : ℤ) (digits : ℕ) (num den : Expr) (st : IState) :
    Bool × IState :=
  let p1 :=
    if 1 < x then
      tryInsert fuel (x - 1) digits
        (Expr.fromDivide (Expr.fromSubtract num den) den) st
    else (false, st)
  let p2 :=
    tryInsert fuel (x + 1) digits
      (Expr.fromDivide (Expr.fromAdd num den) den) p1.2
  (p1.1 || p2.1, p2.2)

/-- The denominator walk of `unary_operation`
(`src/solver/unary_operation.rs` lines 35–59). -/
def ddoWalk (fuel : ℕ) (x : ℤ) (digits : ℕ) (num : Expr) :
    Expr → Option Expr → IState → Bool × IState
  | .multiply p q, rhs, st =>
    if isSingleDigit q then
      ddoI fuel x digits
        (Expr.fromDivide num
          (match rhs with
            | some r => Expr.fromMultiply p r
            | none => p))
        q st
    else
      ddoWalk fuel x digits num p
        (some (match rhs with
          | some r => Expr.fromMultiply q r
          | none => q)) st
  | _, _, st => (false, st)

/-- `unary_operation` for `i64` with its `need_unary_operation` guard
(`src/solver/unary_operation.rs` lines 22–61 and 104–107). -/
def unaryOpI (fuel : ℕ) (x : SR) (st : IState) : Bool × IState :=
  if ¬ (st.n ≠ 1 ∧ x.number ≠ 1) then (false, st)
  else
    match x.expression with
    | .divide num den =>
      if isSingleDigit den then ddoI fuel x.number x.digits num den st
      else ddoWalk fuel x.number x.digits num den none st
    | _ => (false, st)

/-- The binary operations for `i64`
(`src/solver/binary_operation.rs` lines 124–216). -/
def addOpI (fuel : ℕ) (x y : SR) (st : IState) : Bool × IState :=
  tryInsert fuel (x.number + y.number) (x.digits + y.digits)
    (Expr.fromAdd x.expression y.expression) st

def subOpI (fuel : ℕ) (x y : SR) (st : IState) : Bool × IState :=
  if x.number = y.number then (false, st)
  else
    tryInsert fuel (x.number - y.number) (x.digits + y.digits)
      (Expr.fromSubtract x.expression y.expression) st

def mulOpI (fuel : ℕ) (x y : SR) (st : IState) : Bool × IState :=
  if -(2 ^ 63) ≤ x.number * y.number ∧ x.number * y.number ≤ 2 ^ 63 - 1 then
    tryInsert fuel (x.number * y.number) (x.digits + y.digits)
      (Expr.fromMultiply x.expression y.expression) st
  else (false, st)

def divOpI (fuel : ℕ) (x y : SR) (st : IState) : Bool × IState :=
  if x.number = y.number then
    (if x.number = st.n then
      tryInsert fuel 1 2
        (Expr.fromDivide x.expression x.expression) st
    else (false, st))
  else if x.number.tmod y.number = 0 then
    tryInsert fuel (x.number.tdiv y.number) (x.digits + y.digits)
      (Expr.fromDivide x.expression y.expression) st
  else (false, st)

/-- The exponent-halving loop of `power`: while
`log₂x · e > max_digits` (i.e. `x^e > 2^md` for the stored `x ≥ 1`),
halve even exponents into the sqrt order, rejecting odd ones. -/
def powLoop (xv : ℤ) (md : ℕ) (e s : ℕ) : Option (ℕ × ℕ) :=
  if h : 2 ^ md < xv ^ e then
    if e % 2 = 0 then powLoop xv md (e / 2) (s + 1) else none
  else some (e, s)
termination_by e
decreasing_by
  have he : e ≠ 0 := by
    rintro rfl
    rw [pow_zero] at h
    have : (1 : ℤ) ≤ 2 ^ md := one_le_pow₀ (by norm_num)
    omega
  omega

def powOpI (fuel : ℕ) (x y : SR) (st : IState) : Bool × IState :=
  if x.number = 1 ∨ y.number = 1 then (false, st)
  else if 0x80000000 < y.number then (false, st)
  else
    match powLoop x.number st.limits.maxDigits y.number.toNat 0 with
    | none => (false, st)
    | some (e, s) =>
      tryInsert fuel (x.number ^ e) (x.digits + y.digits)
        (Expr.fromSqrt (Expr.fromPower x.expression y.expression) s) st

def factDivOpI (fuel : ℕ) (x y : SR) (st : IState) : Bool × IState :=
  if x.number = y.number then (false, st)
  else if x.number ≤ st.limits.maxFactorial ∨ y.number ≤ 2 ∨
      x.number - y.number = 1 ∨
      2 ^ (2 * st.limits.maxDigits) < (x.number * y.number) ^ (x.number - y.number).toNat
    then (false, st)
  else
    tryInsert fuel (factorial_divide x.number y.number) (x.digits + y.digits)
      (Expr.fromDivide (Expr.fromFactorial x.expression)
        (Expr.fromFactorial y.expression)) st

/-- `binary_operation` for `i64`
(`src/solver/binary_operation.rs` lines 86–122). -/
def binOpI (fuel : ℕ) (x y : SR) (st : IState) : Bool × IState :=
  let p1 := if x.number < y.number then divOpI fuel y x st else divOpI fuel x y st
  let p2 := mulOpI fuel x y p1.2
  let p3 := addOpI fuel x y p2.2
  let p4 :=
    if x.number < y.number then subOpI fuel y x p3.2 else subOpI fuel x y p3.2
  let p5 := powOpI fuel x y p4.2
  let p6 := powOpI fuel y x p5.2
  let p7 :=
    if x.number < y.number then factDivOpI fuel y x p6.2
    else factDivOpI fuel x y p6.2
  (p1.1 || p2.1 || p3.1 || p4.1 || p5.1 || p6.1 || p7.1, p7.2)

/-! The level search (`src/solver/searcher.rs`).  List lengths are
snapshotted at loop entry (as `l`/`l1`/`l2` in the source) and elements
read live by index; pushes during a level go to depth `d` only, so both
views agree. -/

/-- Extra-queue phase: drain `extra_states_by_depth[digits]`. -/
def extraPhase (fuel d : ℕ) (l i : ℕ) (st : IState) : Bool × IState :=
  if h : l ≤ i then (false, st)
  else
    let pair := (st.extraByDepth.getD d []).getD i (0, Expr.fromNumber 0)
    let p := tryInsert fuel pair.1 d pair.2 st
    if p.1 then (true, p.2) else extraPhase fuel d l (i + 1) p.2
termination_by l - i
decreasing_by omega

/-- Unary phase: `unary_operation` over `states_by_depth[d−1]`. -/
def unaryPhase (fuel d : ℕ) (l i : ℕ) (st : IState) : Bool × IState :=
  if h : l ≤ i then (false, st)
  else
    let v := (byDepthAt st (d - 1)).getD i 0
    let p :=
      match tlookup st.table v with
      | some (e, _) => unaryOpI fuel ⟨v, d, e⟩ st
      | none => (false, st)
    if p.1 then (true, p.2) else unaryPhase fuel d l (i + 1) p.2
termination_by l - i
decreasing_by omega

/-- Inner pair loop of the different-depth binary phase. -/
def diffJ (fuel d d1 : ℕ) (n1 : ℤ) (e1 : Expr) (l2 j : ℕ) (st : IState) :
    Bool × IState :=
  if h : l2 ≤ j then (false, st)
  else
    let n2 := (byDepthAt st (d - d1)).getD j 0
    let p :=
      match tlookup st.table n2 with
      | some (e2, _) => binOpI fuel ⟨n1, d1, e1⟩ ⟨n2, d - d1, e2⟩ st
      | none => (false, st)
    if p.1 then (true, p.2) else diffJ fuel d d1 n1 e1 l2 (j + 1) p.2
termination_by l2 - j
decreasing_by omega

def diffI (fuel d d1 : ℕ) (l1 l2 i : ℕ) (st : IState) : Bool × IState :=
  if h : l1 ≤ i then (false, st)
  else
    let n1 := (byDepthAt st d1).getD i 0
    let p :=
      match tlookup st.table n1 with
      | some (e1, _) => diffJ fuel d d1 n1 e1 l2 0 st
      | none => (false, st)
    if p.1 then (true, p.2) else diffI fuel d d1 l1 l2 (i + 1) p.2
termination_by l1 - i
decreasing_by omega

/-- `BinaryOperationOfDifferentDepth`: splits `d = d1 + d2` with
`1 ≤ d1 < ⌈d/2⌉`. -/
def diffD1 (fuel d d1 : ℕ) (st : IState) : Bool × IState :=
  if h : (d + 1) / 2 ≤ d1 then (false, st)
  else
    let l1 := (byDepthAt st d1).length
    let l2 := (byDepthAt st (d - d1)).length
    let p := diffI fuel d d1 l1 l2 0 st
    if p.1 then (true, p.2) else diffD1 fuel d (d1 + 1) p.2
termination_by (d + 1) / 2 - d1
decreasing_by omega

/-- Inner loop of the equal-depth phase (`j` from `i`). -/
def eqJ (fuel d : ℕ) (n1 : ℤ) (e1 : Expr) (l j : ℕ) (st : IState) :
    Bool × IState :=
  if h : l ≤ j then (false, st)
  else
    let n2 := (byDepthAt st (d / 2)).getD j 0
    let p :=
      match tlookup st.table n2 with
      | some (e2, _) => binOpI fuel ⟨n1, d / 2, e1⟩ ⟨n2, d / 2, e2⟩ st
      | none => (false, st)
    if p.1 then (true, p.2) else eqJ fuel d n1 e1 l (j + 1) p.2
termination_by l - j
decreasing_by omega

def eqI (fuel d : ℕ) (l i : ℕ) (st : IState) : Bool × IState :=
  if h : l ≤ i then (false, st)
  else
    let n1 := (byDepthAt st (d / 2)).getD i 0
    let p :=
      match tlookup st.table n1 with
      | some (e1, _) => eqJ fuel d n1 e1 l i st
      | none => (false, st)
    if p.1 then (true, p.2) else eqI fuel d l (i + 1) p.2
termination_by l - i
decreasing_by omega

/-- `sort_states` for `i64`: sort `states_by_depth[d]` (insertion sort
computes the same sorted list as the source's sort). -/
def sortStatesI (d : ℕ) (st : IState) : IState :=
  { st with byDepth := st.byDepth.set d (List.insertionSort (· ≤ ·) (byDepthAt st d)) }

/-- One full level of `Searcher::search` (`src/solver/searcher.rs`),
phases in source order: concat, extra queue, unary, binary of different
depths, binary of equal depths, then sort and advance
`depth_searched`. -/
def searchLevel (fuel d : ℕ) (st : IState) : Bool × IState :=
  let st := { st with byDepth := padTo st.byDepth (d + 1) }
  let p0 := concatI fuel d st
  if p0.1 then (true, p0.2)
  else
    let st := p0.2
    let p1 := extraPhase fuel d ((st.extraByDepth.getD d []).length) 0 st
    if p1.1 then (true, p1.2)
    else
      let st := p1.2
      let p2 := unaryPhase fuel d ((byDepthAt st (d - 1)).length) 0 st
      if p2.1 then (true, p2.2)
      else
        let st := p2.2
        let p3 := diffD1 fuel d 1 st
        if p3.1 then (true, p3.2)
        else
          let st := p3.2
          let p4 :=
            if d % 2 = 0 then eqI fuel d ((byDepthAt st (d / 2)).length) 0 st
            else (false, st)
          if p4.1 then (true, p4.2)
          else
            let st := sortStatesI d p4.2
            (false, { st with depthSearched := d })

/-- The loop of `Solver::solve` (`src/solver/solver.rs` lines 58–62). -/
def solveLoop (fuel : ℕ) (maxd : ℕ) : ℕ → IState → Option (Expr × ℕ) × IState
  | d, st =>
    if h : maxd < d then (none, st)
    else
      let p := searchLevel fuel d st
      if p.1 then (tlookup p.2.table p.2.target, p.2)
      else solveLoop fuel maxd (d + 1) p.2
termination_by d st => maxd + 1 - d
decreasing_by omega

/-- `Solver::solve` (`src/solver/solver.rs` lines 44–64).  `max_depth =
None` is `usize::MAX`. -/
def solveI (fuel : ℕ) (target : ℤ) (maxDepth : Option ℕ) (st : IState) :
    Option (Expr × ℕ) × IState :=
  let maxd := maxDepth.getD (2 ^ 64 - 1)
  let st := { st with target := target }
  match tlookup st.table target with
  | some (e, digits) => (if digits ≤ maxd then some (e, digits) else none, st)
  | none => solveLoop fuel maxd (st.depthSearched + 1) st

/-- `Solver::new` (`src/solver/solver.rs` lines 8–21). -/
def newSolver (n : ℤ) (limits : Limits) : IState :=
  { n := n, target := 0, table := [], byDepth := [], extraByDepth := [],
    depthSearched := 0, limits := limits, progressive := false,
    newNumbers := [] }

/-! Basic lemmas about the table and the depth lists. -/

lemma tlookup_ne_nil {t : List (ℤ × Expr × ℕ)} {v : ℤ} {p : Expr × ℕ}
    (h : tlookup t v = some p) : t ≠ [] := by
  intro hnil
  rw [hnil] at h
  exact absurd h (by simp [tlookup])

lemma tlookup_cons_fresh {t : List (ℤ × Expr × ℕ)} {k v : ℤ} {e : Expr} {d : ℕ}
    (hk : tlookup t k = none) {p : Expr × ℕ} (h : tlookup t v = some p) :
    tlookup ((k, e, d) :: t) v = some p := by
  have hkv : k ≠ v := by
    intro hkv
    rw [hkv] at hk
    rw [hk] at h
    exact absurd h (by simp)
  simpa [tlookup, hkv] using h

lemma tlookup_cons_self {t : List (ℤ × Expr × ℕ)} {k : ℤ} {e : Expr} {d : ℕ} :
    tlookup ((k, e, d) :: t) k = some (e, d) := by
  simp [tlookup]

lemma tlookup_cons_inv {t : List (ℤ × Expr × ℕ)} {k v : ℤ} {e : Expr} {d : ℕ}
    {p : Expr × ℕ} (h : tlookup ((k, e, d) :: t) v = some p) :
    (v = k ∧ p = (e, d)) ∨ (v ≠ k ∧ tlookup t v = some p) := by
  by_cases hkv : k = v
  · subst hkv
    rw [tlookup_cons_self] at h
    exact Or.inl ⟨rfl, (Option.some_inj.1 h).symm⟩
  · rw [show tlookup ((k, e, d) :: t) v = tlookup t v by simp [tlookup, hkv]] at h
    exact Or.inr ⟨fun hvk => hkv hvk.symm, h⟩

lemma getD_padTo {α : Type} (l : List (List α)) (n i : ℕ) :
    (padTo l n).getD i [] = l.getD i [] := by
  unfold padTo
  rcases lt_or_le i l.length with h | h
  · rw [List.getD_eq_getElem?_getD, List.getD_eq_getElem?_getD,
      List.getElem?_append_left h]
  · rw [List.getD_eq_getElem?_getD, List.getD_eq_getElem?_getD]
    rw [List.getElem?_append_right h]
    rcases lt_or_le (i - l.length) (n - l.length) with h2 | h2
    · rw [List.getElem?_replicate_of_lt h2]
      rw [List.getElem?_eq_none (by omega)]
      rfl
    · rw [List.getElem?_eq_none (by simpa using h2), List.getElem?_eq_none (by omega)]

lemma length_padTo {α : Type} (l : List (List α)) (n : ℕ) :
    (padTo l n).length = max l.length n := by
  unfold padTo
  rw [List.length_append, List.length_replicate]
  omega

lemma getD_pushAt_self (l : List (List ℤ)) (d : ℕ) (v : ℤ) :
    (pushAt l d v).getD d [] = l.getD d [] ++ [v] := by
  unfold pushAt
  have hd : d < (padTo l (d + 1)).length := by
    rw [length_padTo]; omega
  rw [List.getD_eq_getElem?_getD, List.getElem?_set_self hd]
  simp only [Option.getD_some]
  congr 1
  exact getD_padTo l (d + 1) d

lemma getD_pushAt_other (l : List (List ℤ)) (d : ℕ) (v : ℤ) (d' : ℕ)
    (hd : d' ≠ d) : (pushAt l d v).getD d' [] = l.getD d' [] := by
  unfold pushAt
  rw [List.getD_eq_getElem?_getD, List.getElem?_set_ne (fun h => hd h.symm)]
  rw [← List.getD_eq_getElem?_getD, getD_padTo]

lemma getD_mem {α : Type} [Inhabited α] {l : List α} {i : ℕ} (h : i < l.length)
    (dflt : α) : l.getD i dflt ∈ l := by
  rw [List.getD_eq_getElem?_getD, List.getElem?_eq_getElem h]
  exact List.getElem_mem h

/-- The bundled per-operation specification: the table only grows (with
fresh keys), the depth lists only grow at the tail, the solver
parameters are untouched, and the found flag fires exactly when the
operation freshly inserted the target. -/
def Step (st : IState) (p : Bool × IState) : Prop :=
  (∀ v q, tlookup st.table v = some q → tlookup p.2.table v = some q) ∧
  (∀ d i, i < (byDepthAt st d).length →
    i < (byDepthAt p.2 d).length ∧
      (byDepthAt p.2 d).getD i 0 = (byDepthAt st d).getD i 0) ∧
  p.2.target = st.target ∧ p.2.n = st.n ∧ p.2.limits = st.limits ∧
  p.2.depthSearched = st.depthSearched ∧ p.2.extraByDepth = st.extraByDepth ∧
  (p.1 = true ↔
    tlookup st.table st.target = none ∧
      (tlookup p.2.table st.target).isSome = true)

lemma Step.skip (st : IState) : Step st (false, st) := by
  refine ⟨fun v q h => h, fun d i h => ⟨h, rfl⟩, rfl, rfl, rfl, rfl, rfl, ?_⟩
  constructor
  · intro h; exact absurd h (by simp)
  · rintro ⟨h1, h2⟩
    rw [h1] at h2
    exact absurd h2 (by simp)

/-- Sequencing two `Step`s, combining the found flags with `||` (this is
also the early-exit pattern `if p.1 then (true, p.2) else …`, since in
the exit case the second step is `skip`). -/
lemma Step.seq {st : IState} {b1 b2 : Bool} {s1 s2 : IState}
    (h1 : Step st (b1, s1)) (h2 : Step s1 (b2, s2)) :
    Step st (b1 || b2, s2) := by
  obtain ⟨m1, bd1, t1, n1, l1, ds1, ex1, f1⟩ := h1
  obtain ⟨m2, bd2, t2, n2, l2, ds2, ex2, f2⟩ := h2
  refine ⟨fun v q h => m2 _ _ (m1 _ _ h), ?_, t2.trans t1, n2.trans n1,
    l2.trans l1, ds2.trans ds1, ex2.trans ex1, ?_⟩
  · intro d i h
    obtain ⟨hl, he⟩ := bd1 d i h
    obtain ⟨hl2, he2⟩ := bd2 d i hl
    exact ⟨hl2, he2.trans he⟩
  · rw [t1] at f2
    constructor
    · intro h
      rcases Bool.or_eq_true_iff.1 h with h | h
      · obtain ⟨ha, hb⟩ := f1.1 h
        refine ⟨ha, ?_⟩
        rcases Option.isSome_iff_exists.1 hb with ⟨q, hq⟩
        rw [m2 _ _ hq]
        rfl
      · obtain ⟨ha, hb⟩ := f2.1 h
        refine ⟨?_, hb⟩
        by_contra hco
        rcases Option.ne_none_iff_exists'.1 hco with ⟨q, hq⟩
        rw [m1 _ _ hq] at ha
        exact absurd ha (by simp)
    · rintro ⟨ha, hb⟩
      by_cases hm : (tlookup s1.table st.target).isSome = true
      · exact Bool.or_eq_true_iff.2 (Or.inl (f1.2 ⟨ha, hm⟩))
      · refine Bool.or_eq_true_iff.2 (Or.inr (f2.2 ⟨?_, hb⟩))
        rw [Option.not_isSome_iff_eq_none] at hm
        exact hm

lemma byDepthAt_insertI (x : ℤ) (d : ℕ) (e : Expr) (st : IState) (d' : ℕ) :
    byDepthAt (insertI x d e st).2 d' =
      if d' = d then byDepthAt st d' ++ [x] else byDepthAt st d' := by
  unfold insertI byDepthAt
  by_cases h : d' = d
  · subst h
    simpa using getD_pushAt_self st.byDepth d' x
  · simpa [h] using getD_pushAt_other st.byDepth d x d' h

lemma insertI_step {x : ℤ} {d : ℕ} {e : Expr} {st : IState}
    (hfresh : tlookup st.table x = none) : Step st (insertI x d e st) := by
  refine ⟨?_, ?_, rfl, rfl, rfl, rfl, rfl, ?_⟩
  · intro v q h
    exact tlookup_cons_fresh hfresh h
  · intro d' i h
    rw [byDepthAt_insertI]
    by_cases hd : d' = d
    · rw [if_pos hd]
      constructor
      · rw [List.length_append]; omega
      · rw [List.getD_append _ _ _ _ h]
    · rw [if_neg hd]
      exact ⟨h, rfl⟩
  · show (x == st.target) = true ↔ _
    constructor
    · intro h
      have hx : x = st.target := by simpa using h
      refine ⟨by rw [← hx]; exact hfresh, ?_⟩
      show (tlookup ((x, e, d) :: st.table) st.target).isSome = true
      rw [← hx, tlookup_cons_self]
      rfl
    · rintro ⟨h1, h2⟩
      by_cases hx : x = st.target
      · simpa using hx
      · exfalso
        show False
        have : tlookup ((x, e, d) :: st.table) st.target = tlookup st.table st.target := by
          simp [tlookup, hx]
        rw [show (insertI x d e st).2.table = (x, e, d) :: st.table from rfl] at h2
        rw [this, h1] at h2
        exact absurd h2 (by simp)

lemma tryInsert_step (fuel : ℕ) (x : ℤ) (d : ℕ) (e : Expr) (st : IState) :
    Step st (tryInsert fuel x d e st) := by
  induction fuel generalizing x d e st with
  | zero => exact Step.skip st
  | succ fuel ih =>
    rw [tryInsert]
    by_cases hg : ¬ rangeCheckI st x ∨ (tlookup st.table x).isSome
    · rw [if_pos hg]
      exact Step.skip st
    · rw [if_neg hg]
      push_neg at hg
      have hfresh : tlookup st.table x = none :=
        Option.not_isSome_iff_eq_none.1 (by simpa using hg.2)
      have h1 : Step st (insertI x d e st) := insertI_step hfresh
      set p1 := insertI x d e st with hp1
      have h2 : Step p1.2
          (match intSqrt? x with
            | some y => tryInsert fuel y d (Expr.fromSqrt e 1) p1.2
            | none => (false, p1.2)) := by
        cases hs : intSqrt? x with
        | some y => exact ih y d (Expr.fromSqrt e 1) p1.2
        | none => exact Step.skip p1.2
      set p2 := (match intSqrt? x with
        | some y => tryInsert fuel y d (Expr.fromSqrt e 1) p1.2
        | none => (false, p1.2)) with hp2
      have h3 : Step p2.2
          (if x < st.limits.maxFactorial then
            tryInsert fuel (factorial x) d (Expr.fromFactorial e) p2.2
          else (false, p2.2)) := by
        by_cases hf : x < st.limits.maxFactorial
        · rw [if_pos hf]
          exact ih (factorial x) d (Expr.fromFactorial e) p2.2
        · rw [if_neg hf]
          exact Step.skip p2.2
      set p3 := (if x < st.limits.maxFactorial then
        tryInsert fuel (factorial x) d (Expr.fromFactorial e) p2.2
        else (false, p2.2)) with hp3
      have := Step.seq (Step.seq h1 (show Step p1.2 (p2.1, p2.2) from h2))
        (show Step p2.2 (p3.1, p3.2) from h3)
      simpa [Bool.or_assoc] using this

/-- The early-exit pattern `if p.1 { return true } else { continue }` of
the search loops. -/
lemma Step.early {st : IState} {p : Bool × IState} (h : Step st p)
    (k : IState → Bool × IState) (hk : Step p.2 (k p.2)) :
    Step st (if p.1 = true then (true, p.2) else k p.2) := by
  by_cases hp : p.1 = true
  · rw [if_pos hp]
    have := Step.seq (show Step st (p.1, p.2) from h) (Step.skip p.2)
    rw [hp] at this
    simpa using this
  · rw [if_neg hp]
    have := Step.seq (show Step st (p.1, p.2) from h)
      (show Step p.2 ((k p.2).1, (k p.2).2) from hk)
    have hp' : p.1 = false := by simpa using hp
    rw [hp'] at this
    simpa using this

lemma concatI_step (fuel d : ℕ) (st : IState) : Step st (concatI fuel d st) := by
  simp only [concatI]
  by_cases hg : ¬ concatGate d st.limits.maxDigits
  · rw [if_pos hg]
    exact Step.skip st
  · rw [if_neg hg]
    exact tryInsert_step fuel _ d _ st

lemma ddoI_step (fuel : ℕ) (x : ℤ) (digits : ℕ) (num den : Expr) (st : IState) :
    Step st (ddoI fuel x digits num den st) := by
  have h1 : Step st (if 1 < x then
      tryInsert fuel (x - 1) digits
        (Expr.fromDivide (Expr.fromSubtract num den) den) st
    else (false, st)) := by
    by_cases h : 1 < x
    · rw [if_pos h]
      exact tryInsert_step fuel _ digits _ st
    · rw [if_neg h]
      exact Step.skip st
  exact Step.seq h1 (tryInsert_step fuel _ digits _ _)

lemma ddoWalk_step (fuel : ℕ) (x : ℤ) (digits : ℕ) (num : Expr) :
    ∀ (den : Expr) (rhs : Option Expr) (st : IState),
      Step st (ddoWalk fuel x digits num den rhs st) := by
  intro den
  induction den with
  | multiply p q ihp ihq =>
    intro rhs st
    simp only [ddoWalk]
    by_cases hq : isSingleDigit q = true
    · rw [if_pos hq]
      exact ddoI_step fuel x digits _ q st
    · rw [if_neg hq]
      exact ihp _ st
  | number v => intro rhs st; exact Step.skip st
  | negate a ih => intro rhs st; exact Step.skip st
  | add a b iha ihb => intro rhs st; exact Step.skip st
  | subtract a b iha ihb => intro rhs st; exact Step.skip st
  | divide a b iha ihb => intro rhs st; exact Step.skip st
  | power a b iha ihb => intro rhs st; exact Step.skip st
  | sqrt a o ih => intro rhs st; exact Step.skip st
  | factorial a ih => intro rhs st; exact Step.skip st

lemma unaryOpI_step (fuel : ℕ) (x : SR) (st : IState) :
    Step st (unaryOpI fuel x st) := by
  simp only [unaryOpI]
  by_cases hg : ¬ (st.n ≠ 1 ∧ x.number ≠ 1)
  · rw [if_pos hg]
    exact Step.skip st
  · rw [if_neg hg]
    cases hx : x.expression with
    | divide num den =>
      show Step st (if isSingleDigit den = true then
          ddoI fuel x.number x.digits num den st
        else ddoWalk fuel x.number x.digits num den none st)
      by_cases hs : isSingleDigit den = true
      · rw [if_pos hs]
        exact ddoI_step fuel x.number x.digits num den st
      · rw [if_neg hs]
        exact ddoWalk_step fuel x.number x.digits num den none st
    | number v => exact Step.skip st
    | negate a => exact Step.skip st
    | add a b => exact Step.skip st
    | subtract a b => exact Step.skip st
    | multiply a b => exact Step.skip st
    | power a b => exact Step.skip st
    | sqrt a o => exact Step.skip st
    | factorial a => exact Step.skip st

lemma addOpI_step (fuel : ℕ) (x y : SR) (st : IState) :
    Step st (addOpI fuel x y st) :=
  tryInsert_step fuel _ _ _ st

lemma subOpI_step (fuel : ℕ) (x y : SR) (st : IState) :
    Step st (subOpI fuel x y st) := by
  simp only [subOpI]
  by_cases h : x.number = y.number
  · rw [if_pos h]
    exact Step.skip st
  · rw [if_neg h]
    exact tryInsert_step fuel _ _ _ st

lemma mulOpI_step (fuel : ℕ) (x y : SR) (st : IState) :
    Step st (mulOpI fuel x y st) := by
  simp only [mulOpI]
  by_cases h : -(2 ^ 63) ≤ x.number * y.number ∧ x.number * y.number ≤ 2 ^ 63 - 1
  · rw [if_pos h]
    exact tryInsert_step fuel _ _ _ st
  · rw [if_neg h]
    exact Step.skip st

lemma divOpI_step (fuel : ℕ) (x y : SR) (st : IState) :
    Step st (divOpI fuel x y st) := by
  simp only [divOpI]
  by_cases h : x.number = y.number
  · rw [if_pos h]
    by_cases hn : x.number = st.n
    · rw [if_pos hn]
      exact tryInsert_step fuel _ _ _ st
    · rw [if_neg hn]
      exact Step.skip st
  · rw [if_neg h]
    by_cases hm : x.number.tmod y.number = 0
    · rw [if_pos hm]
      exact tryInsert_step fuel _ _ _ st
    · rw [if_neg hm]
      exact Step.skip st

lemma powOpI_step (fuel : ℕ) (x y : SR) (st : IState) :
    Step st (powOpI fuel x y st) := by
  simp only [powOpI]
  by_cases h1 : x.number = 1 ∨ y.number = 1
  · rw [if_pos h1]
    exact Step.skip st
  · rw [if_neg h1]
    by_cases h2 : 0x80000000 < y.number
    · rw [if_pos h2]
      exact Step.skip st
    · rw [if_neg h2]
      cases hp : powLoop x.number st.limits.maxDigits y.number.toNat 0 with
      | none => exact Step.skip st
      | some es => exact tryInsert_step fuel _ _ _ st

lemma factDivOpI_step (fuel : ℕ) (x y : SR) (st : IState) :
    Step st (factDivOpI fuel x y st) := by
  simp only [factDivOpI]
  by_cases h1 : x.number = y.number
  · rw [if_pos h1]
    exact Step.skip st
  · rw [if_neg h1]
    by_cases h2 : x.number ≤ st.limits.maxFactorial ∨ y.number ≤ 2 ∨
        x.number - y.number = 1 ∨
        2 ^ (2 * st.limits.maxDigits) <
          (x.number * y.number) ^ (x.number - y.number).toNat
    · rw [if_pos h2]
      exact Step.skip st
    · rw [if_neg h2]
      exact tryInsert_step fuel _ _ _ st

lemma binOpI_step (fuel : ℕ) (x y : SR) (st : IState) :
    Step st (binOpI fuel x y st) := by
  simp only [binOpI]
  have h1 : Step st (if x.number < y.number then divOpI fuel y x st
      else divOpI fuel x y st) := by
    by_cases h : x.number < y.number
    · rw [if_pos h]; exact divOpI_step fuel y x st
    · rw [if_neg h]; exact divOpI_step fuel x y st
  set p1 := (if x.number < y.number then divOpI fuel y x st
    else divOpI fuel x y st) with hp1
  have h2 := mulOpI_step fuel x y p1.2
  set p2 := mulOpI fuel x y p1.2 with hp2
  have h3 := addOpI_step fuel x y p2.2
  set p3 := addOpI fuel x y p2.2 with hp3
  have h4 : Step p3.2 (if x.number < y.number then subOpI fuel y x p3.2
      else subOpI fuel x y p3.2) := by
    by_cases h : x.number < y.number
    · rw [if_pos h]; exact subOpI_step fuel y x p3.2
    · rw [if_neg h]; exact subOpI_step fuel x y p3.2
  set p4 := (if x.number < y.number then subOpI fuel y x p3.2
    else subOpI fuel x y p3.2) with hp4
  have h5 := powOpI_step fuel x y p4.2
  set p5 := powOpI fuel x y p4.2 with hp5
  have h6 := powOpI_step fuel y x p5.2
  set p6 := powOpI fuel y x p5.2 with hp6
  have h7 : Step p6.2 (if x.number < y.number then factDivOpI fuel y x p6.2
      else factDivOpI fuel x y p6.2) := by
    by_cases h : x.number < y.number
    · rw [if_pos h]; exact factDivOpI_step fuel y x p6.2
    · rw [if_neg h]; exact factDivOpI_step fuel x y p6.2
  set p7 := (if x.number < y.number then factDivOpI fuel y x p6.2
    else factDivOpI fuel x y p6.2) with hp7
  have := Step.seq (Step.seq (Step.seq (Step.seq (Step.seq (Step.seq h1
    (show Step p1.2 (p2.1, p2.2) from h2)) (show Step p2.2 (p3.1, p3.2) from h3))
    (show Step p3.2 (p4.1, p4.2) from h4)) (show Step p4.2 (p5.1, p5.2) from h5))
    (show Step p5.2 (p6.1, p6.2) from h6)) (show Step p6.2 (p7.1, p7.2) from h7)
  simpa [Bool.or_assoc] using this

/-! The five phase loops are early-exit folds of the operation steps. -/

lemma extraPhase_step_aux (fuel d l : ℕ) :
    ∀ (k i : ℕ) (st : IState), l ≤ i + k → Step st (extraPhase fuel d l i st) := by
  intro k
  induction k with
  | zero =>
    intro i st hk
    rw [extraPhase, dif_pos (by omega)]
    exact Step.skip st
  | succ k ih =>
    intro i st hk
    by_cases h : l ≤ i
    · rw [extraPhase, dif_pos h]
      exact Step.skip st
    · rw [extraPhase, dif_neg h]
      exact Step.early (tryInsert_step fuel _ d _ st) (extraPhase fuel d l (i + 1))
        (ih (i + 1) _ (by omega))

lemma extraPhase_step (fuel d l i : ℕ) (st : IState) :
    Step st (extraPhase fuel d l i st) :=
  extraPhase_step_aux fuel d l l i st (by omega)

lemma unaryPhase_step_aux (fuel d l : ℕ) :
    ∀ (k i : ℕ) (st : IState), l ≤ i + k → Step st (unaryPhase fuel d l i st) := by
  intro k
  induction k with
  | zero =>
    intro i st hk
    rw [unaryPhase, dif_pos (by omega)]
    exact Step.skip st
  | succ k ih =>
    intro i st hk
    by_cases h : l ≤ i
    · rw [unaryPhase, dif_pos h]
      exact Step.skip st
    · rw [unaryPhase, dif_neg h]
      have hp : Step st (match tlookup st.table ((byDepthAt st (d - 1)).getD i 0) with
          | some (e, _) => unaryOpI fuel ⟨(byDepthAt st (d - 1)).getD i 0, d, e⟩ st
          | none => (false, st)) := by
        cases hl : tlookup st.table ((byDepthAt st (d - 1)).getD i 0) with
        | some p =>
          cases p with
          | mk e dg => exact unaryOpI_step fuel _ st
        | none => exact Step.skip st
      exact Step.early hp (unaryPhase fuel d l (i + 1)) (ih (i + 1) _ (by omega))

lemma unaryPhase_step (fuel d l i : ℕ) (st : IState) :
    Step st (unaryPhase fuel d l i st) :=
  unaryPhase_step_aux fuel d l l i st (by omega)

lemma diffJ_step_aux (fuel d d1 : ℕ) (n1 : ℤ) (e1 : Expr) (l2 : ℕ) :
    ∀ (k j : ℕ) (st : IState), l2 ≤ j + k →
      Step st (diffJ fuel d d1 n1 e1 l2 j st) := by
  intro k
  induction k with
  | zero =>
    intro j st hk
    rw [diffJ, dif_pos (by omega)]
    exact Step.skip st
  | succ k ih =>
    intro j st hk
    by_cases h : l2 ≤ j
    · rw [diffJ, dif_pos h]
      exact Step.skip st
    · rw [diffJ, dif_neg h]
      have hp : Step st (match tlookup st.table ((byDepthAt st (d - d1)).getD j 0) with
          | some (e2, _) =>
            binOpI fuel ⟨n1, d1, e1⟩ ⟨(byDepthAt st (d - d1)).getD j 0, d - d1, e2⟩ st
          | none => (false, st)) := by
        cases hl : tlookup st.table ((byDepthAt st (d - d1)).getD j 0) with
        | some p =>
          cases p with
          | mk e2 dg => exact binOpI_step fuel _ _ st
        | none => exact Step.skip st
      exact Step.early hp (diffJ fuel d d1 n1 e1 l2 (j + 1)) (ih (j + 1) _ (by omega))

lemma diffJ_step (fuel d d1 : ℕ) (n1 : ℤ) (e1 : Expr) (l2 j : ℕ) (st : IState) :
    Step st (diffJ fuel d d1 n1 e1 l2 j st) :=
  diffJ_step_aux fuel d d1 n1 e1 l2 l2 j st (by omega)

lemma diffI_step_aux (fuel d d1 l1 l2 : ℕ) :
    ∀ (k i : ℕ) (st : IState), l1 ≤ i + k →
      Step st (diffI fuel d d1 l1 l2 i st) := by
  intro k
  induction k with
  | zero =>
    intro i st hk
    rw [diffI, dif_pos (by omega)]
    exact Step.skip st
  | succ k ih =>
    intro i st hk
    by_cases h : l1 ≤ i
    · rw [diffI, dif_pos h]
      exact Step.skip st
    · rw [diffI, dif_neg h]
      have hp : Step st (match tlookup st.table ((byDepthAt st d1).getD i 0) with
          | some (e1, _) => diffJ fuel d d1 ((byDepthAt st d1).getD i 0) e1 l2 0 st
          | none => (false, st)) := by
        cases hl : tlookup st.table ((byDepthAt st d1).getD i 0) with
        | some p =>
          cases p with
          | mk e1 dg => exact diffJ_step fuel d d1 _ e1 l2 0 st
        | none => exact Step.skip st
      exact Step.early hp (diffI fuel d d1 l1 l2 (i + 1)) (ih (i + 1) _ (by omega))

lemma diffI_step (fuel d d1 l1 l2 i : ℕ) (st : IState) :
    Step st (diffI fuel d d1 l1 l2 i st) :=
  diffI_step_aux fuel d d1 l1 l2 l1 i st (by omega)

lemma diffD1_step_aux (fuel d : ℕ) :
    ∀ (k d1 : ℕ) (st : IState), (d + 1) / 2 ≤ d1 + k →
      Step st (diffD1 fuel d d1 st) := by
  intro k
  induction k with
  | zero =>
    intro d1 st hk
    rw [diffD1, dif_pos (by omega)]
    exact Step.skip st
  | succ k ih =>
    intro d1 st hk
    by_cases h : (d + 1) / 2 ≤ d1
    · rw [diffD1, dif_pos h]
      exact Step.skip st
    · rw [diffD1, dif_neg h]
      exact Step.early
        (diffI_step fuel d d1 (byDepthAt st d1).length
          (byDepthAt st (d - d1)).length 0 st)
        (diffD1 fuel d (d1 + 1)) (ih (d1 + 1) _ (by omega))

lemma diffD1_step (fuel d d1 : ℕ) (st : IState) :
    Step st (diffD1 fuel d d1 st) :=
  diffD1_step_aux fuel d ((d + 1) / 2) d1 st (by omega)

lemma eqJ_step_aux (fuel d : ℕ) (n1 : ℤ) (e1 : Expr) (l : ℕ) :
    ∀ (k j : ℕ) (st : IState), l ≤ j + k → Step st (eqJ fuel d n1 e1 l j st) := by
  intro k
  induction k with
  | zero =>
    intro j st hk
    rw [eqJ, dif_pos (by omega)]
    exact Step.skip st
  | succ k ih =>
    intro j st hk
    by_cases h : l ≤ j
    · rw [eqJ, dif_pos h]
      exact Step.skip st
    · rw [eqJ, dif_neg h]
      have hp : Step st (match tlookup st.table ((byDepthAt st (d / 2)).getD j 0) with
          | some (e2, _) =>
            binOpI fuel ⟨n1, d / 2, e1⟩ ⟨(byDepthAt st (d / 2)).getD j 0, d / 2, e2⟩ st
          | none => (false, st)) := by
        cases hl : tlookup st.table ((byDepthAt st (d / 2)).getD j 0) with
        | some p =>
          cases p with
          | mk e2 dg => exact binOpI_step fuel _ _ st
        | none => exact Step.skip st
      exact Step.early hp (eqJ fuel d n1 e1 l (j + 1)) (ih (j + 1) _ (by omega))

lemma eqJ_step (fuel d : ℕ) (n1 : ℤ) (e1 : Expr) (l j : ℕ) (st : IState) :
    Step st (eqJ fuel d n1 e1 l j st) :=
  eqJ_step_aux fuel d n1 e1 l l j st (by omega)

lemma eqI_step_aux (fuel d l : ℕ) :
    ∀ (k i : ℕ) (st : IState), l ≤ i + k → Step st (eqI fuel d l i st) := by
  intro k
  induction k with
  | zero =>
    intro i st hk
    rw [eqI, dif_pos (by omega)]
    exact Step.skip st
  | succ k ih =>
    intro i st hk
    by_cases h : l ≤ i
    · rw [eqI, dif_pos h]
      exact Step.skip st
    · rw [eqI, dif_neg h]
      have hp : Step st (match tlookup st.table ((byDepthAt st (d / 2)).getD i 0) with
          | some (e1, _) => eqJ fuel d ((byDepthAt st (d / 2)).getD i 0) e1 l i st
          | none => (false, st)) := by
        cases hl : tlookup st.table ((byDepthAt st (d / 2)).getD i 0) with
        | some p =>
          cases p with
          | mk e1 dg => exact eqJ_step fuel d _ e1 l i st
        | none => exact Step.skip st
      exact Step.early hp (eqI fuel d l (i + 1)) (ih (i + 1) _ (by omega))

lemma eqI_step (fuel d l i : ℕ) (st : IState) : Step st (eqI fuel d l i st) :=
  eqI_step_aux fuel d l l i st (by omega)

/-! A level of search additionally pads and sorts the depth lists and
advances `depth_searched`; those mutations leave the table, target and
parameters alone but break the depth-list prefix clause of `Step`, so
the level as a whole satisfies only the weaker `SStep`. -/

def SStep (st : IState) (p : Bool × IState) : Prop :=
  (∀ v q, tlookup st.table v = some q → tlookup p.2.table v = some q) ∧
  p.2.target = st.target ∧ p.2.n = st.n ∧ p.2.limits = st.limits ∧
  (p.1 = true ↔
    tlookup st.table st.target = none ∧
      (tlookup p.2.table st.target).isSome = true)

lemma Step.sstep {st : IState} {p : Bool × IState} (h : Step st p) :
    SStep st p :=
  ⟨h.1, h.2.2.1, h.2.2.2.1, h.2.2.2.2.1, h.2.2.2.2.2.2.2⟩

lemma SStep.sskip (st : IState) : SStep st (false, st) := by
  refine ⟨fun v q h => h, rfl, rfl, rfl, ?_⟩
  constructor
  · intro h; exact absurd h (by simp)
  · rintro ⟨h1, h2⟩
    rw [h1] at h2
    exact absurd h2 (by simp)

lemma SStep.tweak {st st' : IState} (ht : st'.table = st.table)
    (htg : st'.target = st.target) (hn : st'.n = st.n)
    (hl : st'.limits = st.limits) : SStep st (false, st') := by
  refine ⟨fun v q h => by rw [ht]; exact h, htg, hn, hl, ?_⟩
  constructor
  · intro h; exact absurd h (by simp)
  · rintro ⟨h1, h2⟩
    rw [ht, h1] at h2
    exact absurd h2 (by simp)

lemma SStep.pre {st st' : IState} (ht : st'.table = st.table)
    (htg : st'.target = st.target) (hn : st'.n = st.n)
    (hl : st'.limits = st.limits) {p : Bool × IState} (h : SStep st' p) :
    SStep st p := by
  obtain ⟨m, tg, n, l, f⟩ := h
  refine ⟨fun v q hq => m v q (by rw [ht]; exact hq), tg.trans htg,
    n.trans hn, l.trans hl, ?_⟩
  rw [ht, htg] at f
  exact f

lemma SStep.sseq {st : IState} {b1 b2 : Bool} {s1 s2 : IState}
    (h1 : SStep st (b1, s1)) (h2 : SStep s1 (b2, s2)) :
    SStep st (b1 || b2, s2) := by
  obtain ⟨m1, t1, n1, l1, f1⟩ := h1
  obtain ⟨m2, t2, n2, l2, f2⟩ := h2
  refine ⟨fun v q h => m2 _ _ (m1 _ _ h), t2.trans t1, n2.trans n1,
    l2.trans l1, ?_⟩
  rw [t1] at f2
  constructor
  · intro h
    rcases Bool.or_eq_true_iff.1 h with h | h
    · obtain ⟨ha, hb⟩ := f1.1 h
      refine ⟨ha, ?_⟩
      rcases Option.isSome_iff_exists.1 hb with ⟨q, hq⟩
      rw [m2 _ _ hq]
      rfl
    · obtain ⟨ha, hb⟩ := f2.1 h
      refine ⟨?_, hb⟩
      by_contra hco
      rcases Option.ne_none_iff_exists'.1 hco with ⟨q, hq⟩
      rw [m1 _ _ hq] at ha
      exact absurd ha (by simp)
  · rintro ⟨ha, hb⟩
    by_cases hm : (tlookup s1.table st.target).isSome = true
    · exact Bool.or_eq_true_iff.2 (Or.inl (f1.2 ⟨ha, hm⟩))
    · refine Bool.or_eq_true_iff.2 (Or.inr (f2.2 ⟨?_, hb⟩))
      rw [Option.not_isSome_iff_eq_none] at hm
      exact hm

lemma SStep.searly {st : IState} {p : Bool × IState} (h : SStep st p)
    (k : IState → Bool × IState) (hk : SStep p.2 (k p.2)) :
    SStep st (if p.1 = true then (true, p.2) else k p.2) := by
  by_cases hp : p.1 = true
  · rw [if_pos hp]
    have := SStep.sseq (show SStep st (p.1, p.2) from h) (SStep.sskip p.2)
    rw [hp] at this
    simpa using this
  · rw [if_neg hp]
    have := SStep.sseq (show SStep st (p.1, p.2) from h)
      (show SStep p.2 ((k p.2).1, (k p.2).2) from hk)
    have hp' : p.1 = false := by simpa using hp
    rw [hp'] at this
    simpa using this

/-! The trailing segments of a search level, from each phase on;
`searchLevel_eq` checks the decomposition against the definition. -/

def searchTail4 (fuel d : ℕ) (s : IState) : Bool × IState :=
  let p4 :=
    if d % 2 = 0 then eqI fuel d ((byDepthAt s (d / 2)).length) 0 s
    else (false, s)
  if p4.1 then (true, p4.2)
  else
    let s' := sortStatesI d p4.2
    (false, { s' with depthSearched := d })

def searchTail3 (fuel d : ℕ) (s : IState) : Bool × IState :=
  let p3 := diffD1 fuel d 1 s
  if p3.1 then (true, p3.2) else searchTail4 fuel d p3.2

def searchTail2 (fuel d : ℕ) (s : IState) : Bool × IState :=
  let p2 := unaryPhase fuel d ((byDepthAt s (d - 1)).length) 0 s
  if p2.1 then (true, p2.2) else searchTail3 fuel d p2.2

def searchTail1 (fuel d : ℕ) (s : IState) : Bool × IState :=
  let p1 := extraPhase fuel d ((s.extraByDepth.getD d []).length) 0 s
  if p1.1 then (true, p1.2) else searchTail2 fuel d p1.2

lemma searchLevel_eq (fuel d : ℕ) (st : IState) :
    searchLevel fuel d st =
      (let s := { st with byDepth := padTo st.byDepth (d + 1) }
       let p0 := concatI fuel d s
       if p0.1 then (true, p0.2) else searchTail1 fuel d p0.2) := rfl

lemma searchTail4_sstep (fuel d : ℕ) (s : IState) :
    SStep s (searchTail4 fuel d s) := by
  have hp : SStep s (if d % 2 = 0 then
      eqI fuel d ((byDepthAt s (d / 2)).length) 0 s else (false, s)) := by
    by_cases h : d % 2 = 0
    · rw [if_pos h]
      exact (eqI_step fuel d _ 0 s).sstep
    · rw [if_neg h]
      exact SStep.sskip s
  exact SStep.searly hp
    (fun s' => (false, { sortStatesI d s' with depthSearched := d }))
    (SStep.tweak rfl rfl rfl rfl)

lemma searchTail3_sstep (fuel d : ℕ) (s : IState) :
    SStep s (searchTail3 fuel d s) :=
  SStep.searly (diffD1_step fuel d 1 s).sstep (searchTail4 fuel d)
    (searchTail4_sstep fuel d _)

lemma searchTail2_sstep (fuel d : ℕ) (s : IState) :
    SStep s (searchTail2 fuel d s) :=
  SStep.searly (unaryPhase_step fuel d _ 0 s).sstep (searchTail3 fuel d)
    (searchTail3_sstep fuel d _)

lemma searchTail1_sstep (fuel d : ℕ) (s : IState) :
    SStep s (searchTail1 fuel d s) :=
  SStep.searly (extraPhase_step fuel d _ 0 s).sstep (searchTail2 fuel d)
    (searchTail2_sstep fuel d _)

/-- A whole level of search behaves as one gate step: the table only
grows with fresh keys, the target and parameters are untouched, and the
returned flag fires exactly when the level freshly inserted the
target. -/
lemma searchLevel_sstep (fuel d : ℕ) (st : IState) :
    SStep st (searchLevel fuel d st) := by
  rw [searchLevel_eq]
  have h : SStep { st with byDepth := padTo st.byDepth (d + 1) }
      (let p0 := concatI fuel d { st with byDepth := padTo st.byDepth (d + 1) }
       if p0.1 = true then (true, p0.2) else searchTail1 fuel d p0.2) :=
    SStep.searly (concatI_step fuel d _).sstep (searchTail1 fuel d)
      (searchTail1_sstep fuel d _)
  exact SStep.pre rfl rfl rfl rfl h

lemma solveLoop_eq (fuel maxd d : ℕ) (st : IState) :
    solveLoop fuel maxd d st =
      if maxd < d then (none, st)
      else if (searchLevel fuel d st).1 = true then
        (tlookup (searchLevel fuel d st).2.table
          (searchLevel fuel d st).2.target,
         (searchLevel fuel d st).2)
      else solveLoop fuel maxd (d + 1) (searchLevel fuel d st).2 := by
  rw [solveLoop]
  by_cases hd : maxd < d
  · rw [dif_pos hd, if_pos hd]
  · rw [dif_neg hd, if_neg hd]

lemma solveLoop_spec_aux (fuel maxd : ℕ) :
    ∀ (k d : ℕ) (st : IState), maxd + 1 ≤ d + k →
      tlookup st.table st.target = none →
      (solveLoop fuel maxd d st).2.target = st.target ∧
      (∀ q, (solveLoop fuel maxd d st).1 = some q →
        tlookup (solveLoop fuel maxd d st).2.table st.target = some q) ∧
      ((solveLoop fuel maxd d st).1 = none →
        tlookup (solveLoop fuel maxd d st).2.table st.target = none) := by
  intro k
  induction k with
  | zero =>
    intro d st hk hst
    rw [solveLoop, dif_pos (by omega)]
    exact ⟨rfl, fun q hq => absurd hq (by simp), fun _ => hst⟩
  | succ k ih =>
    intro d st hk hst
    by_cases hd : maxd < d
    · rw [solveLoop, dif_pos hd]
      exact ⟨rfl, fun q hq => absurd hq (by simp), fun _ => hst⟩
    · rw [solveLoop_eq, if_neg hd]
      obtain ⟨m, tg, n, l, f⟩ := searchLevel_sstep fuel d st
      by_cases hp : (searchLevel fuel d st).1 = true
      · rw [if_pos hp]
        refine ⟨tg, ?_, ?_⟩
        · intro q hq
          rw [tg] at hq
          exact hq
        · intro hq
          rw [tg] at hq
          exact hq
      · rw [if_neg hp]
        have habs : tlookup (searchLevel fuel d st).2.table st.target = none := by
          by_contra hc
          rcases Option.ne_none_iff_exists'.1 hc with ⟨q, hq⟩
          exact hp (f.2 ⟨hst, by rw [hq]; rfl⟩)
        have hnext : tlookup (searchLevel fuel d st).2.table
            (searchLevel fuel d st).2.target = none := by
          rw [tg]
          exact habs
        obtain ⟨tg', hsome', hnone'⟩ :=
          ih (d + 1) (searchLevel fuel d st).2 (by omega) hnext
        refine ⟨tg'.trans tg, ?_, ?_⟩
        · intro q hq
          have := hsome' q hq
          rw [tg] at this
          exact this
        · intro hq
          have := hnone' hq
          rw [tg] at this
          exact this

lemma solveLoop_spec (fuel maxd d : ℕ) (st : IState)
    (hst : tlookup st.table st.target = none) :
    (solveLoop fuel maxd d st).2.target = st.target ∧
    (∀ q, (solveLoop fuel maxd d st).1 = some q →
      tlookup (solveLoop fuel maxd d st).2.table st.target = some q) ∧
    ((solveLoop fuel maxd d st).1 = none →
      tlookup (solveLoop fuel maxd d st).2.table st.target = none) :=
  solveLoop_spec_aux fuel maxd (maxd + 1) d st (by omega) hst

/-- **C3**: `Solver::solve(target, max_depth)`
(`src/solver/solver.rs` lines 44–64).  If the table already holds the
target it returns the stored `(expression, digits)` pair when
`digits ≤ max_depth` and `None` otherwise, searching nothing.  On a
miss it runs `search(d)` for `d = depth_searched + 1, depth_searched +
2, …` in increasing order (the loop equation), stops at the first level
that reports the target found — returning precisely the target's table
entry — returns `None` as soon as `d` exceeds `max_depth`, and whenever
it returns `None` the target is absent from the final table. -/
theorem solveI_spec (fuel : ℕ) (target : ℤ) (maxDepth : Option ℕ) (st : IState) :
    (∀ e dg, tlookup st.table target = some (e, dg) →
      solveI fuel target maxDepth st =
        (if dg ≤ maxDepth.getD (2 ^ 64 - 1) then some (e, dg) else none,
         { st with target := target })) ∧
    (tlookup st.table target = none →
      solveI fuel target maxDepth st =
        solveLoop fuel (maxDepth.getD (2 ^ 64 - 1)) (st.depthSearched + 1)
          { st with target := target } ∧
      (∀ (d' : ℕ) (stx : IState),
        solveLoop fuel (maxDepth.getD (2 ^ 64 - 1)) d' stx =
          if maxDepth.getD (2 ^ 64 - 1) < d' then (none, stx)
          else if (searchLevel fuel d' stx).1 = true then
            (tlookup (searchLevel fuel d' stx).2.table
              (searchLevel fuel d' stx).2.target,
             (searchLevel fuel d' stx).2)
          else
            solveLoop fuel (maxDepth.getD (2 ^ 64 - 1)) (d' + 1)
              (searchLevel fuel d' stx).2) ∧
      (∀ q, (solveI fuel target maxDepth st).1 = some q →
        tlookup (solveI fuel target maxDepth st).2.table target = some q) ∧
      ((solveI fuel target maxDepth st).1 = none →
        tlookup (solveI fuel target maxDepth st).2.table target = none)) := by
  constructor
  · intro e dg h
    simp only [solveI]
    rw [h]
  · intro h
    have heq : solveI fuel target maxDepth st =
        solveLoop fuel (maxDepth.getD (2 ^ 64 - 1)) (st.depthSearched + 1)
          { st with target := target } := by
      simp only [solveI]
      rw [h]
    have hloop := solveLoop_spec fuel (maxDepth.getD (2 ^ 64 - 1))
      (st.depthSearched + 1) { st with target := target } h
    refine ⟨heq, ?_, ?_, ?_⟩
    · intro d' stx
      exact solveLoop_eq fuel (maxDepth.getD (2 ^ 64 - 1)) d' stx
    · intro q hq
      rw [heq] at hq ⊢
      exact hloop.2.1 q hq
    · intro hq
      rw [heq] at hq ⊢
      exact hloop.2.2 hq

/-- Closed instance of `solveI_spec`: a table that already holds the
target `7` at depth `1 ≤ 3` returns the stored pair without searching,
and a missed target enters the loop at `depth_searched + 1`. -/
theorem solveI_spec_witness :
    solveI 1 7 (some 3)
        { newSolver 7 ⟨48, 20, 2⟩ with table := [(7, Expr.number 7, 1)] } =
      (some (Expr.number 7, 1),
       { newSolver 7 ⟨48, 20, 2⟩ with
           table := [(7, Expr.number 7, 1)], target := 7 }) ∧
    solveI 1 1 (some 0) (newSolver 5 ⟨48, 20, 2⟩) =
      solveLoop 1 0 1 { newSolver 5 ⟨48, 20, 2⟩ with target := 1 } :=
  ⟨(solveI_spec 1 7 (some 3)
      { newSolver 7 ⟨48, 20, 2⟩ with table := [(7, Expr.number 7, 1)] }).1
      (Expr.number 7) 1 (by decide),
   ((solveI_spec 1 1 (some 0) (newSolver 5 ⟨48, 20, 2⟩)).2 rfl).1⟩

/-! ## The concat production and its two gates (C7) -/

/-- A fresh, in-range value passed to the gate is stored (and the entry
survives the chained `sqrt`/`factorial` calls). -/
lemma tryInsert_stores (fuel : ℕ) (x : ℤ) (d : ℕ) (e : Expr) (st : IState)
    (hr : rangeCheckI st x) (hf : tlookup st.table x = none) :
    tlookup (tryInsert (fuel + 1) x d e st).2.table x = some (e, d) := by
  simp only [tryInsert]
  have hng : ¬ (¬ rangeCheckI st x ∨ (tlookup st.table x).isSome = true) := by
    simp [hr, hf]
  rw [if_neg hng]
  have h1 : tlookup (insertI x d e st).2.table x = some (e, d) :=
    tlookup_cons_self
  have h2 : tlookup (match intSqrt? x with
      | some y => tryInsert fuel y d (Expr.fromSqrt e 1) (insertI x d e st).2
      | none => (false, (insertI x d e st).2)).2.table x = some (e, d) := by
    cases hs : intSqrt? x with
    | some y => exact (tryInsert_step fuel y d (Expr.fromSqrt e 1) _).1 _ _ h1
    | none => exact h1
  by_cases hfa : x < st.limits.maxFactorial
  · rw [if_pos hfa]
    exact (tryInsert_step fuel (factorial x) d (Expr.fromFactorial e) _).1 _ _ h2
  · rw [if_neg hfa]
    exact h2

/-- The spec's `k·log₂10 − log₂9 ≤ max_digits` admission condition is
exactly the integer inequality `10^k ≤ 9·2^max_digits` of
`concatGate`. -/
lemma concatGate_iff_logb (d md : ℕ) :
    ((d : ℝ) * Real.logb 2 10 - Real.logb 2 9 ≤ (md : ℝ)) ↔ concatGate d md := by
  have h10 : ((10 : ℝ) ^ d) > 0 := by positivity
  have hb : (1 : ℝ) < 2 := by norm_num
  constructor
  · intro h
    have hlog : Real.logb 2 ((10 : ℝ) ^ d / 9) ≤ (md : ℝ) := by
      rw [Real.logb_div (by positivity) (by norm_num), Real.logb_pow]
      exact h
    have := (Real.logb_le_iff_le_rpow hb (by positivity)).1 hlog
    rw [Real.rpow_natCast] at this
    rw [div_le_iff₀ (by norm_num : (0 : ℝ) < 9)] at this
    unfold concatGate
    have : (10 : ℝ) ^ d ≤ 9 * 2 ^ md := by linarith [this]
    exact_mod_cast this
  · intro h
    unfold concatGate at h
    have h' : (10 : ℝ) ^ d ≤ 9 * 2 ^ md := by exact_mod_cast h
    have hdiv : (10 : ℝ) ^ d / 9 ≤ 2 ^ md := by
      rw [div_le_iff₀ (by norm_num : (0 : ℝ) < 9)]
      linarith
    have hlog : Real.logb 2 ((10 : ℝ) ^ d / 9) ≤ (md : ℝ) := by
      rw [Real.logb_le_iff_le_rpow hb (by positivity), Real.rpow_natCast]
      exact hdiv
    rw [Real.logb_div (by positivity) (by norm_num), Real.logb_pow] at hlog
    exact hlog

/-- **C7** counterexample.  With `n = 9` and `max_digits = 48`, at level
`k = 15` the log condition `15·log₂10 − log₂9 ≤ 48` holds (equivalently
`10^15 ≤ 9·2^48`), yet `concat` inserts nothing: the repunit value
`(10^15−1)/9 · 9 = 999999999999999` exceeds `2^48`, so the gate's range
check rejects it and the solver state is returned unchanged. -/
theorem concat_log_gate_counterexample :
    concatGate 15 48 ∧
    repunit 9 15 = 999999999999999 ∧
    ¬ rangeCheckI (newSolver 9 ⟨48, 20, 2⟩) (repunit 9 15) ∧
    (∀ fuel, concatI fuel 15 (newSolver 9 ⟨48, 20, 2⟩) =
      (false, newSolver 9 ⟨48, 20, 2⟩)) := by
  refine ⟨by decide, by decide, by decide, ?_⟩
  intro fuel
  simp only [concatI]
  rw [if_neg (by simp [concatGate]; decide)]
  cases fuel with
  | zero => rfl
  | succ fuel =>
    rw [tryInsert]
    rw [if_pos (Or.inl (by decide))]

/-- **C7** (amended).  For a repunit value not already in the table,
`concat` at level `d` inserts it **iff** the log condition
`d·log₂10 − log₂9 ≤ max_digits` holds **and** the value passes the
range check `x ≤ 2^max_digits` — the log gate alone (the original
claim) is necessary but not sufficient, as `check`'s range predicate
also guards the insertion. -/
theorem concat_inserts_iff (fuel d : ℕ) (st : IState)
    (hfresh : tlookup st.table (repunit st.n d) = none) :
    (tlookup (concatI (fuel + 1) d st).2.table (repunit st.n d)).isSome = true ↔
      (((d : ℝ) * Real.logb 2 10 - Real.logb 2 9 ≤ (st.limits.maxDigits : ℝ)) ∧
        rangeCheckI st (repunit st.n d)) := by
  rw [concatGate_iff_logb]
  constructor
  · intro h
    by_cases hg : concatGate d st.limits.maxDigits
    · refine ⟨hg, ?_⟩
      by_contra hr
      rw [show concatI (fuel + 1) d st = (false, st) by
        simp only [concatI]
        rw [if_neg (by simpa using hg), tryInsert,
          if_pos (Or.inl (by simpa using hr))]] at h
      rw [hfresh] at h
      exact absurd h (by simp)
    · rw [show concatI (fuel + 1) d st = (false, st) by
        simp only [concatI]
        rw [if_pos (by simpa using hg)]] at h
      rw [hfresh] at h
      exact absurd h (by simp)
  · rintro ⟨hg, hr⟩
    have : concatI (fuel + 1) d st =
        tryInsert (fuel + 1) (repunit st.n d) d
          (Expr.fromNumber (repunit st.n d)) st := by
      simp only [concatI]
      rw [if_neg (by simpa using hg)]
    rw [this, tryInsert_stores fuel _ d _ st hr hfresh]
    rfl

/-- Closed instance of `concat_inserts_iff`: for `n = 5`,
`max_digits = 48`, level `1`, the single-digit repunit `5` is fresh in
the empty solver and both gates pass, so the equivalence specialises to
a true biconditional. -/
theorem concat_inserts_iff_witness :
    (tlookup (concatI 1 1 (newSolver 5 ⟨48, 20, 2⟩)).2.table
        (repunit (newSolver 5 ⟨48, 20, 2⟩).n 1)).isSome = true ↔
      (((1 : ℕ) : ℝ) * Real.logb 2 10 - Real.logb 2 9 ≤
          (((newSolver 5 ⟨48, 20, 2⟩).limits.maxDigits : ℕ) : ℝ)) ∧
        rangeCheckI (newSolver 5 ⟨48, 20, 2⟩)
          (repunit (newSolver 5 ⟨48, 20, 2⟩).n 1) :=
  concat_inserts_iff 0 1 (newSolver 5 ⟨48, 20, 2⟩) rfl

/-! ## The insertion gate, generically over a domain

`Solver<T>::try_insert` is the same code for every domain `T`; only the
range predicate, the `is_int` test and the guarded `sqrt`/`factorial`
productions differ.  The generic embedding below is used for the claims
about the gate itself and instantiated with each domain's range
predicate from `src/solver/range_check.rs`. -/

/-- The domain-specific parameters of the gate. -/
structure DomOps (T : Type) where
  range : T → Bool
  isInt : T → Bool
  sqrtOp : T → Option T
  factOp : T → Option T

/-- The solver fields touched by the gate, generically. -/
structure GState (T : Type) where
  target : T
  table : List (T × Expr × ℕ)
  byDepth : List (List T)
  newNumbers : List T
  progressive : Bool

def glookup {T : Type} [DecidableEq T] : List (T × Expr × ℕ) → T → Option (Expr × ℕ)
  | [], _ => none
  | (k, e, d) :: t, v => if k = v then some (e, d) else glookup t v

def gpushAt {T : Type} (l : List (List T)) (d : ℕ) (v : T) : List (List T) :=
  let l' := padTo l (d + 1)
  l'.set d (l'.getD d [] ++ [v])

/-- `Solver<T>::try_insert`, generic in the domain operations. -/
def gTryInsert {T : Type} [DecidableEq T] (D : DomOps T) :
    ℕ → T → ℕ → Expr → GState T → Bool × GState T
  | 0, _, _, _, st => (false, st)
  | fuel + 1, x, digits, e, st =>
    if ¬ D.range x ∨ (glookup st.table x).isSome then (false, st)
    else
      let st1 : GState T :=
        { st with
            table := (x, e, digits) :: st.table
            byDepth := gpushAt st.byDepth digits x
            newNumbers :=
              if st.progressive then st.newNumbers ++ [x] else st.newNumbers }
      let found0 := decide (x = st.target)
      let p2 :=
        match D.sqrtOp x with
        | some y => gTryInsert D fuel y digits (Expr.fromSqrt e 1) st1
        | none => (false, st1)
      let p3 :=
        if D.isInt x then
          match D.factOp x with
          | some w => gTryInsert D fuel w digits (Expr.fromFactorial e) p2.2
          | none => (false, p2.2)
        else (false, p2.2)
      (found0 || p2.1 || p3.1, p3.2)

/-- Any state obtained from an empty table by gate insertions alone —
every mutation of a solver table in the source goes through
`try_insert`. -/
inductive GateReach {T : Type} [DecidableEq T] (D : DomOps T) : GState T → Prop
  | init (target : T) (prog : Bool) :
      GateReach D ⟨target, [], [], [], prog⟩
  | step {st : GState T} (fuel : ℕ) (x : T) (d : ℕ) (e : Expr) :
      GateReach D st → GateReach D (gTryInsert D fuel x d e st).2

lemma glookup_cons_inv {T : Type} [DecidableEq T]
    {t : List (T × Expr × ℕ)} {k v : T} {e : Expr} {d : ℕ} {p : Expr × ℕ}
    (h : glookup ((k, e, d) :: t) v = some p) :
    (v = k ∧ p = (e, d)) ∨ glookup t v = some p := by
  by_cases hkv : k = v
  · subst hkv
    rw [show glookup ((k, e, d) :: t) k = some (e, d) by simp [glookup]] at h
    exact Or.inl ⟨rfl, (Option.some_inj.1 h).symm⟩
  · rw [show glookup ((k, e, d) :: t) v = glookup t v by simp [glookup, hkv]] at h
    exact Or.inr h

/-- Every entry of a gate-built table passed the domain's range
predicate. -/
lemma gTryInsert_range {T : Type} [DecidableEq T] (D : DomOps T)
    (fuel : ℕ) (x : T) (d : ℕ) (e : Expr) (st : GState T)
    (hst : ∀ v e' d', glookup st.table v = some (e', d') → D.range v = true) :
    ∀ v e' d', glookup (gTryInsert D fuel x d e st).2.table v = some (e', d') →
      D.range v = true := by
  induction fuel generalizing x d e st with
  | zero => exact hst
  | succ fuel ih =>
    simp only [gTryInsert]
    by_cases hg : ¬ D.range x ∨ (glookup st.table x).isSome
    · rw [if_pos hg]
      exact hst
    · rw [if_neg hg]
      push_neg at hg
      have hr : D.range x = true := by simpa using hg.1
      have h1 : ∀ v e' d',
          glookup ((x, e, d) :: st.table) v = some (e', d') → D.range v = true := by
        intro v e' d' h
        rcases glookup_cons_inv h with ⟨rfl, -⟩ | h
        · exact hr
        · exact hst _ _ _ h
      have h2 : ∀ v e' d',
          glookup (match D.sqrtOp x with
            | some y => gTryInsert D fuel y d (Expr.fromSqrt e 1)
                { st with
                    table := (x, e, d) :: st.table
                    byDepth := gpushAt st.byDepth d x
                    newNumbers :=
                      if st.progressive then st.newNumbers ++ [x] else st.newNumbers }
            | none => (false,
                { st with
                    table := (x, e, d) :: st.table
                    byDepth := gpushAt st.byDepth d x
                    newNumbers :=
                      if st.progressive then st.newNumbers ++ [x]
                      else st.newNumbers })).2.table v = some (e', d') →
            D.range v = true := by
        cases hs : D.sqrtOp x with
        | some y => exact ih y d (Expr.fromSqrt e 1) _ h1
        | none => exact h1
      by_cases hi : D.isInt x = true
      · rw [if_pos hi]
        cases hf : D.factOp x with
        | some w => exact ih w d (Expr.fromFactorial e) _ h2
        | none => exact h2
      · rw [if_neg hi]
        exact h2

/-- **C8**-supporting fact, all domains: a gate-reachable table contains
only range-passing values. -/
lemma gateReach_range {T : Type} [DecidableEq T] (D : DomOps T)
    {st : GState T} (h : GateReach D st) :
    ∀ v e d, glookup st.table v = some (e, d) → D.range v = true := by
  induction h with
  | init target prog =>
    intro v e d h
    exact absurd h (by simp [glookup])
  | step fuel x d e _ ih =>
    exact gTryInsert_range D fuel x d e _ ih

lemma glookup_cons_self {T : Type} [DecidableEq T]
    {t : List (T × Expr × ℕ)} {k : T} {e : Expr} {d : ℕ} :
    glookup ((k, e, d) :: t) k = some (e, d) := by
  simp [glookup]

lemma glookup_cons_fresh {T : Type} [DecidableEq T]
    {t : List (T × Expr × ℕ)} {k v : T} {e : Expr} {d : ℕ}
    (hk : glookup t k = none) {p : Expr × ℕ} (h : glookup t v = some p) :
    glookup ((k, e, d) :: t) v = some p := by
  have hkv : k ≠ v := by
    intro hkv
    rw [hkv] at hk
    rw [hk] at h
    exact absurd h (by simp)
  simpa [glookup, hkv] using h

/-- The generic analogue of `Step`: the table only grows with fresh
keys, the target is untouched, and the found flag fires exactly when the
operation freshly inserted the target. -/
def GStep {T : Type} [DecidableEq T] (st : GState T) (p : Bool × GState T) : Prop :=
  (∀ v q, glookup st.table v = some q → glookup p.2.table v = some q) ∧
  p.2.target = st.target ∧
  (p.1 = true ↔
    glookup st.table st.target = none ∧
      (glookup p.2.table st.target).isSome = true)

lemma GStep.gskip {T : Type} [DecidableEq T] (st : GState T) :
    GStep st (false, st) := by
  refine ⟨fun v q h => h, rfl, ?_⟩
  constructor
  · intro h; exact absurd h (by simp)
  · rintro ⟨h1, h2⟩
    rw [h1] at h2
    exact absurd h2 (by simp)

lemma GStep.gseq {T : Type} [DecidableEq T] {st : GState T} {b1 b2 : Bool}
    {s1 s2 : GState T} (h1 : GStep st (b1, s1)) (h2 : GStep s1 (b2, s2)) :
    GStep st (b1 || b2, s2) := by
  obtain ⟨m1, t1, f1⟩ := h1
  obtain ⟨m2, t2, f2⟩ := h2
  refine ⟨fun v q h => m2 _ _ (m1 _ _ h), t2.trans t1, ?_⟩
  rw [t1] at f2
  constructor
  · intro h
    rcases Bool.or_eq_true_iff.1 h with h | h
    · obtain ⟨ha, hb⟩ := f1.1 h
      refine ⟨ha, ?_⟩
      rcases Option.isSome_iff_exists.1 hb with ⟨q, hq⟩
      rw [m2 _ _ hq]
      rfl
    · obtain ⟨ha, hb⟩ := f2.1 h
      refine ⟨?_, hb⟩
      by_contra hco
      rcases Option.ne_none_iff_exists'.1 hco with ⟨q, hq⟩
      rw [m1 _ _ hq] at ha
      exact absurd ha (by simp)
  · rintro ⟨ha, hb⟩
    by_cases hm : (glookup s1.table st.target).isSome = true
    · exact Bool.or_eq_true_iff.2 (Or.inl (f1.2 ⟨ha, hm⟩))
    · refine Bool.or_eq_true_iff.2 (Or.inr (f2.2 ⟨?_, hb⟩))
      rw [Option.not_isSome_iff_eq_none] at hm
      exact hm

lemma gInsert_gstep {T : Type} [DecidableEq T] {D : DomOps T} {x : T} {d : ℕ}
    {e : Expr} {st : GState T} (hfresh : glookup st.table x = none) :
    GStep st (decide (x = st.target),
      { st with
          table := (x, e, d) :: st.table
          byDepth := gpushAt st.byDepth d x
          newNumbers :=
            if st.progressive then st.newNumbers ++ [x] else st.newNumbers }) := by
  refine ⟨fun v q h => glookup_cons_fresh hfresh h, rfl, ?_⟩
  constructor
  · intro h
    have hx : x = st.target := of_decide_eq_true h
    refine ⟨by rw [← hx]; exact hfresh, ?_⟩
    show (glookup ((x, e, d) :: st.table) st.target).isSome = true
    rw [← hx, glookup_cons_self]
    rfl
  · rintro ⟨h1, h2⟩
    by_cases hx : x = st.target
    · exact decide_eq_true hx
    · exfalso
      have : glookup ((x, e, d) :: st.table) st.target =
          glookup st.table st.target := by
        simp [glookup, hx]
      rw [show ({ st with
          table := (x, e, d) :: st.table
          byDepth := gpushAt st.byDepth d x
          newNumbers :=
            if st.progressive then st.newNumbers ++ [x]
            else st.newNumbers } : GState T).table = (x, e, d) :: st.table
        from rfl] at h2
      rw [this, h1] at h2
      exact absurd h2 (by simp)

lemma gTryInsert_gstep {T : Type} [DecidableEq T] (D : DomOps T) (fuel : ℕ)
    (x : T) (d : ℕ) (e : Expr) (st : GState T) :
    GStep st (gTryInsert D fuel x d e st) := by
  induction fuel generalizing x d e st with
  | zero => exact GStep.gskip st
  | succ fuel ih =>
    simp only [gTryInsert]
    by_cases hg : ¬ D.range x ∨ (glookup st.table x).isSome
    · rw [if_pos hg]
      exact GStep.gskip st
    · rw [if_neg hg]
      push_neg at hg
      have hfresh : glookup st.table x = none :=
        Option.not_isSome_iff_eq_none.1 (by simpa using hg.2)
      have h1 := gInsert_gstep (D := D) (d := d) (e := e) hfresh
      set st1 : GState T :=
        { st with
            table := (x, e, d) :: st.table
            byDepth := gpushAt st.byDepth d x
            newNumbers :=
              if st.progressive then st.newNumbers ++ [x]
              else st.newNumbers } with hst1
      have h2 : GStep st1
          (match D.sqrtOp x with
            | some y => gTryInsert D fuel y d (Expr.fromSqrt e 1) st1
            | none => (false, st1)) := by
        cases hs : D.sqrtOp x with
        | some y => exact ih y d (Expr.fromSqrt e 1) st1
        | none => exact GStep.gskip st1
      set p2 := (match D.sqrtOp x with
        | some y => gTryInsert D fuel y d (Expr.fromSqrt e 1) st1
        | none => (false, st1)) with hp2
      have h3 : GStep p2.2
          (if D.isInt x then
            match D.factOp x with
            | some w => gTryInsert D fuel w d (Expr.fromFactorial e) p2.2
            | none => (false, p2.2)
          else (false, p2.2)) := by
        by_cases hi : D.isInt x = true
        · rw [if_pos hi]
          cases hf : D.factOp x with
          | some w => exact ih w d (Expr.fromFactorial e) p2.2
          | none => exact GStep.gskip p2.2
        · rw [if_neg hi]
          exact GStep.gskip p2.2
      set p3 := (if D.isInt x then
        match D.factOp x with
        | some w => gTryInsert D fuel w d (Expr.fromFactorial e) p2.2
        | none => (false, p2.2)
        else (false, p2.2)) with hp3
      have := GStep.gseq (GStep.gseq h1 (show GStep st1 (p2.1, p2.2) from h2))
        (show GStep p2.2 (p3.1, p3.2) from h3)
      simpa [Bool.or_assoc] using this

/-- The `i64` instantiation of the gate's domain parameters:
`RangeCheck<i64>` is `x ≤ 1 << max_digits`, `to_int` always succeeds,
`sqrt` goes through `try_sqrt` and `factorial` is guarded by
`x < max_factorial`. -/
def domI64 (md : ℕ) (mf : ℤ) : DomOps ℤ where
  range x := decide (x ≤ 2 ^ md)
  isInt _ := true
  sqrtOp := intSqrt?
  factOp x := if x < mf then some (factorial x) else none

/-- **C4**: the gate `check`/`try_insert(v, d, e)`
(`src/solver/solver.rs` lines 71–97) returns `false` with the state
unchanged when `v` fails the domain's range predicate or is already in
the table; otherwise it stores `(v, (e, d))` — and the entry survives
the chained calls — while chaining `sqrt(v)` and, when `v` is a domain
integer, `factorial(v)` recursively through the same gate at the same
digit count, and it returns `true` iff the current target was freshly
inserted by the call, i.e. `v` or some chained value equals the
target. -/
theorem gTryInsert_spec {T : Type} [DecidableEq T] (D : DomOps T) (fuel : ℕ)
    (x : T) (d : ℕ) (e : Expr) (st : GState T) :
    (¬ D.range x = true ∨ (glookup st.table x).isSome = true →
      gTryInsert D (fuel + 1) x d e st = (false, st)) ∧
    (D.range x = true → glookup st.table x = none →
      glookup (gTryInsert D (fuel + 1) x d e st).2.table x = some (e, d) ∧
      gTryInsert D (fuel + 1) x d e st =
        (let st1 : GState T :=
          { st with
              table := (x, e, d) :: st.table
              byDepth := gpushAt st.byDepth d x
              newNumbers :=
                if st.progressive then st.newNumbers ++ [x] else st.newNumbers }
         let p2 :=
          match D.sqrtOp x with
          | some y => gTryInsert D fuel y d (Expr.fromSqrt e 1) st1
          | none => (false, st1)
         let p3 :=
          if D.isInt x then
            match D.factOp x with
            | some w => gTryInsert D fuel w d (Expr.fromFactorial e) p2.2
            | none => (false, p2.2)
          else (false, p2.2)
         (decide (x = st.target) || p2.1 || p3.1, p3.2))) ∧
    ((gTryInsert D (fuel + 1) x d e st).1 = true ↔
      glookup st.table st.target = none ∧
        (glookup (gTryInsert D (fuel + 1) x d e st).2.table st.target).isSome
          = true) := by
  refine ⟨?_, ?_, (gTryInsert_gstep D (fuel + 1) x d e st).2.2⟩
  · intro h
    simp only [gTryInsert]
    rw [if_pos h]
  · intro hr hf
    have hng : ¬ (¬ D.range x = true ∨ (glookup st.table x).isSome = true) := by
      simp [hr, hf]
    constructor
    · simp only [gTryInsert]
      rw [if_neg hng]
      have h1 : glookup ((x, e, d) :: st.table) x = some (e, d) :=
        glookup_cons_self
      have h2 : glookup (match D.sqrtOp x with
          | some y => gTryInsert D fuel y d (Expr.fromSqrt e 1)
              { st with
                  table := (x, e, d) :: st.table
                  byDepth := gpushAt st.byDepth d x
                  newNumbers :=
                    if st.progressive then st.newNumbers ++ [x]
                    else st.newNumbers }
          | none => (false,
              { st with
                  table := (x, e, d) :: st.table
                  byDepth := gpushAt st.byDepth d x
                  newNumbers :=
                    if st.progressive then st.newNumbers ++ [x]
                    else st.newNumbers })).2.table x = some (e, d) := by
        cases hs : D.sqrtOp x with
        | some y => exact (gTryInsert_gstep D fuel y d (Expr.fromSqrt e 1) _).1 _ _ h1
        | none => exact h1
      by_cases hi : D.isInt x = true
      · rw [if_pos hi]
        cases hfo : D.factOp x with
        | some w => exact (gTryInsert_gstep D fuel w d (Expr.fromFactorial e) _).1 _ _ h2
        | none => exact h2
      · rw [if_neg hi]
        exact h2
    · simp only [gTryInsert]
      rw [if_neg hng]

/-- Closed instance of `gTryInsert_spec` at the `i64` domain with
`max_digits = 48`, `max_factorial = 20`: `2^49` is rejected with the
state unchanged, and a fresh in-range `5` is stored at digit count
`1`. -/
theorem gTryInsert_spec_witness :
    gTryInsert (domI64 48 20) 1 (2 ^ 49) 1 (Expr.number 5)
        ⟨1, [], [], [], false⟩ = (false, ⟨1, [], [], [], false⟩) ∧
    glookup (gTryInsert (domI64 48 20) 1 5 1 (Expr.number 5)
        ⟨1, [], [], [], false⟩).2.table 5 = some (Expr.number 5, 1) :=
  ⟨(gTryInsert_spec (domI64 48 20) 0 (2 ^ 49) 1 (Expr.number 5)
      ⟨1, [], [], [], false⟩).1 (Or.inl (by decide)),
   ((gTryInsert_spec (domI64 48 20) 0 5 1 (Expr.number 5)
      ⟨1, [], [], [], false⟩).2.1 (by decide) rfl).1⟩

/-! ## The table invariant (C1, C8)

Auxiliary facts about digit lengths, repunits, factorials and the
power-halving loop, used to check every insertion site of the
searcher. -/

lemma digitLen_eq_of_bounds {x : ℤ} {d : ℕ} (h1 : (10 : ℤ) ^ d ≤ x)
    (h2 : x < 10 ^ (d + 1)) : Expr.digitLen x = d + 1 := by
  have hx1 : (1 : ℤ) ≤ x := le_trans (one_le_pow₀ (by norm_num)) h1
  have hxne : x.natAbs ≠ 0 := by
    simp only [ne_eq, Int.natAbs_eq_zero]
    omega
  unfold Expr.digitLen
  rw [Nat.digits_len 10 x.natAbs (by norm_num) hxne]
  have hna : (x.natAbs : ℤ) = x := Int.natAbs_of_nonneg (by omega)
  have hl : Nat.log 10 x.natAbs = d := by
    apply Nat.log_eq_of_pow_le_of_lt_pow
    · have : ((10 : ℕ) ^ d : ℤ) ≤ (x.natAbs : ℤ) := by
        rw [hna]
        push_cast
        exact h1
      exact_mod_cast this
    · have : ((x.natAbs : ℤ)) < ((10 : ℕ) ^ (d + 1) : ℤ) := by
        rw [hna]
        push_cast
        exact h2
      exact_mod_cast this
  omega

/-- The `d`-ones repunit `11…1`. -/
def repOnes : ℕ → ℤ
  | 0 => 0
  | d + 1 => 10 * repOnes d + 1

lemma nine_mul_repOnes (d : ℕ) : 9 * repOnes d = 10 ^ d - 1 := by
  induction d with
  | zero => rfl
  | succ d ih =>
    rw [repOnes, pow_succ]
    ring_nf
    ring_nf at ih
    omega

lemma repunit_eq (n : ℤ) (d : ℕ) : repunit n d = repOnes d * n := by
  unfold repunit
  rw [show (10 : ℤ) ^ d - 1 = 9 * repOnes d from (nine_mul_repOnes d).symm,
    Int.mul_ediv_cancel_left _ (by norm_num)]

lemma repOnes_lb {d : ℕ} (hd : 1 ≤ d) : 10 ^ (d - 1) ≤ repOnes d := by
  induction d with
  | zero => omega
  | succ d ih =>
    cases Nat.eq_zero_or_pos d with
    | inl h =>
      subst h
      norm_num [repOnes]
    | inr h =>
      have := ih h
      rw [repOnes]
      have hpow : (10 : ℤ) ^ (d + 1 - 1) = 10 ^ (d - 1) * 10 := by
        rw [show d + 1 - 1 = (d - 1) + 1 by omega, pow_succ]
      rw [hpow]
      nlinarith [this]

lemma repOnes_pos {d : ℕ} (hd : 1 ≤ d) : 1 ≤ repOnes d :=
  le_trans (one_le_pow₀ (by norm_num)) (repOnes_lb hd)

lemma digitLen_repunit {n : ℤ} {d : ℕ} (hd : 1 ≤ d) (h1 : 1 ≤ n) (h9 : n ≤ 9) :
    Expr.digitLen (repunit n d) = d := by
  obtain ⟨d0, rfl⟩ : ∃ d0, d = d0 + 1 := ⟨d - 1, by omega⟩
  rw [repunit_eq]
  apply digitLen_eq_of_bounds
  · have hlb := repOnes_lb (d := d0 + 1) (by omega)
    have : (10 : ℤ) ^ (d0 + 1 - 1) = 10 ^ d0 := by norm_num
    rw [this] at hlb
    nlinarith [pow_pos (show (0 : ℤ) < 10 by norm_num) d0]
  · have hub := nine_mul_repOnes (d0 + 1)
    nlinarith [repOnes_pos (d := d0 + 1) (by omega)]

lemma repunit_pos {n : ℤ} {d : ℕ} (hd : 1 ≤ d) (h1 : 1 ≤ n) :
    1 ≤ repunit n d := by
  rw [repunit_eq]
  nlinarith [repOnes_pos hd]

lemma repunit_one (n : ℤ) : repunit n 1 = n := by
  rw [repunit_eq]
  norm_num [repOnes]

lemma repunit_ne_n {n : ℤ} {d : ℕ} (hd : 2 ≤ d) (h1 : 1 ≤ n) :
    repunit n d ≠ n := by
  rw [repunit_eq]
  obtain ⟨d0, rfl⟩ : ∃ d0, d = d0 + 2 := ⟨d - 2, by omega⟩
  have hlb := repOnes_lb (d := d0 + 2) (by omega)
  have : (10 : ℤ) ^ (d0 + 2 - 1) = 10 ^ (d0 + 1) := by norm_num
  rw [this] at hlb
  have h10 : (10 : ℤ) ≤ 10 ^ (d0 + 1) := by
    calc (10 : ℤ) = 10 ^ 1 := by norm_num
    _ ≤ 10 ^ (d0 + 1) := pow_le_pow_right₀ (by norm_num) (by omega)
  nlinarith

lemma factorial_pos (x : ℤ) : 1 ≤ factorial x := by
  unfold factorial
  have : 0 < (Finset.Icc (2 : ℤ) x).prod id := by
    apply Finset.prod_pos
    intro i hi
    rw [Finset.mem_Icc] at hi
    simp only [id]
    omega
  linarith

lemma factorial_natCast (m : ℕ) : factorial (m : ℤ) = (Nat.factorial m : ℤ) := by
  induction m with
  | zero =>
    unfold factorial
    rw [show Finset.Icc (2 : ℤ) ((0 : ℕ) : ℤ) = ∅ by
      apply Finset.Icc_eq_empty
      norm_num]
    norm_num [Nat.factorial]
  | succ m ih =>
    cases Nat.eq_zero_or_pos m with
    | inl h =>
      subst h
      unfold factorial
      rw [show Finset.Icc (2 : ℤ) (((0 : ℕ) + 1 : ℕ) : ℤ) = ∅ by
        apply Finset.Icc_eq_empty
        norm_num]
      norm_num [Nat.factorial]
    | inr h =>
      unfold factorial at ih ⊢
      have hm : ((m : ℤ) + 1) ∉ Finset.Icc (2 : ℤ) m := by
        rw [Finset.mem_Icc]
        omega
      rw [show ((m + 1 : ℕ) : ℤ) = (m : ℤ) + 1 by push_cast; ring,
        show Finset.Icc (2 : ℤ) ((m : ℤ) + 1) =
          insert ((m : ℤ) + 1) (Finset.Icc (2 : ℤ) m) by
          ext z
          rw [Finset.mem_Icc, Finset.mem_insert, Finset.mem_Icc]
          omega,
        Finset.prod_insert hm, ih]
      rw [Nat.factorial_succ]
      simp only [id_eq]
      push_cast
      ring

lemma factorial_toNat {x : ℤ} (hx : 0 ≤ x) :
    factorial x = (Nat.factorial x.toNat : ℤ) := by
  have := factorial_natCast x.toNat
  rw [show ((x.toNat : ℕ) : ℤ) = x by omega] at this
  exact this

lemma factorial_mul_factorial_divide {x y : ℤ} (h2 : 2 ≤ y) (hxy : y ≤ x) :
    factorial y * factorial_divide x y = factorial x := by
  unfold factorial factorial_divide
  rw [← Finset.prod_union]
  · rw [show Finset.Icc (2 : ℤ) y ∪ Finset.Icc (y + 1) x = Finset.Icc 2 x by
      ext z
      rw [Finset.mem_union, Finset.mem_Icc, Finset.mem_Icc, Finset.mem_Icc]
      omega]
  · rw [Finset.disjoint_left]
    intro a ha hb
    rw [Finset.mem_Icc] at ha
    rw [Finset.mem_Icc] at hb
    omega

lemma factorial_divide_pos {x y : ℤ} (h0 : 0 ≤ y) : 1 ≤ factorial_divide x y := by
  unfold factorial_divide
  have : 0 < (Finset.Icc (y + 1) x).prod id := by
    apply Finset.prod_pos
    intro i hi
    rw [Finset.mem_Icc] at hi
    simp only [id]
    omega
  linarith

lemma powLoop_spec (xv : ℤ) (md : ℕ) :
    ∀ e s e' s', powLoop xv md e s = some (e', s') →
      s ≤ s' ∧ e = e' * 2 ^ (s' - s) ∧ xv ^ e' ≤ 2 ^ md := by
  intro e
  induction e using Nat.strong_induction_on with
  | _ e ih =>
    intro s e' s' h
    rw [powLoop] at h
    by_cases hg : 2 ^ md < xv ^ e
    · rw [dif_pos hg] at h
      by_cases he : e % 2 = 0
      · rw [if_pos he] at h
        have he0 : e ≠ 0 := by
          rintro rfl
          rw [pow_zero] at hg
          have : (1 : ℤ) ≤ 2 ^ md := one_le_pow₀ (by norm_num)
          omega
        obtain ⟨h1, h2, h3⟩ := ih (e / 2) (by omega) (s + 1) e' s' h
        refine ⟨by omega, ?_, h3⟩
        have hsplit : s' - s = (s' - (s + 1)) + 1 := by omega
        rw [show e = e / 2 * 2 by omega, h2, hsplit, pow_succ]
        ring
      · rw [if_neg he] at h
        exact absurd h (by simp)
    · rw [dif_neg hg] at h
      have hes : e = e' ∧ s = s' := by
        have := Option.some_inj.1 h
        exact ⟨congrArg Prod.fst this, congrArg Prod.snd this⟩
      obtain ⟨rfl, rfl⟩ := hes
      exact ⟨le_refl _, by simp, by omega⟩

lemma sqrtIter_eq_rpow {o : ℕ} {z : ℝ} (hz : 0 < z) :
    sqrtIter o z = z ^ (((2 : ℝ) ^ o)⁻¹) := by
  induction o with
  | zero => simp [sqrtIter]
  | succ o ih =>
    rw [sqrtIter_succ, ih, Real.sqrt_eq_rpow, ← Real.rpow_mul hz.le]
    congr 1
    rw [pow_succ]
    field_simp

lemma isSingleDigit_count : ∀ {e : Expr} {v : ℝ}, GoodN e v →
    isSingleDigit e = true → Expr.countDigits e = 1 := by
  intro e
  induction e with
  | number x =>
    intro v h hs
    cases h with
    | number _ hx =>
      have hlt : x < 10 := by simpa [isSingleDigit] using hs
      show Expr.digitLen x = 1
      exact digitLen_eq_of_bounds (d := 0) (by simpa using hx) (by simpa using hlt)
  | negate a ih =>
    intro v h hs
    cases h
  | add a b iha ihb =>
    intro v h hs
    exact absurd hs (by simp [isSingleDigit])
  | subtract a b iha ihb =>
    intro v h hs
    exact absurd hs (by simp [isSingleDigit])
  | multiply a b iha ihb =>
    intro v h hs
    exact absurd hs (by simp [isSingleDigit])
  | divide a b iha ihb =>
    intro v h hs
    exact absurd hs (by simp [isSingleDigit])
  | power a b iha ihb =>
    intro v h hs
    exact absurd hs (by simp [isSingleDigit])
  | sqrt a o ih =>
    intro v h hs
    cases h with
    | sqrt s ha =>
      show Expr.countDigits a = 1
      exact ih ha (by simpa [isSingleDigit] using hs)
  | factorial a ih =>
    intro v h hs
    cases h with
    | fact m ha =>
      show Expr.countDigits a = 1
      exact ih ha (by simpa [isSingleDigit] using hs)

/-- Well-formedness of one table entry: the value is positive and in
range, the expression evaluates to it, the recorded digits equal the
expression's digit count, and the base digit `n` itself is only ever
recorded with digit count `1`. -/
def EntryOK (n : ℤ) (md : ℕ) (v : ℤ) (e : Expr) (d : ℕ) : Prop :=
  1 ≤ v ∧ v ≤ 2 ^ md ∧ GoodN e (v : ℝ) ∧ Expr.countDigits e = d ∧ (v = n → d = 1)

/-- The solver invariant: parameters in range, every table entry
well-formed, the depth lists coherent with the table, the extra queues
empty (the `i64` solver never calls `insert_extra`), and — once
anything is inserted, or once level 1 has been searched with its gates
open — the digit `n` itself is in the table at digit count `1`. -/
def Inv (st : IState) : Prop :=
  1 ≤ st.n ∧ st.n ≤ 9 ∧
  (∀ v e d, tlookup st.table v = some (e, d) →
    EntryOK st.n st.limits.maxDigits v e d) ∧
  (∀ d v, v ∈ byDepthAt st d → ∃ e, tlookup st.table v = some (e, d)) ∧
  (∀ d, st.extraByDepth.getD d [] = []) ∧
  (1 ≤ st.depthSearched → concatGate 1 st.limits.maxDigits →
    st.n ≤ 2 ^ st.limits.maxDigits → ∃ e, tlookup st.table st.n = some (e, 1)) ∧
  (st.table ≠ [] → st.n ≤ 2 ^ st.limits.maxDigits →
    ∃ e, tlookup st.table st.n = some (e, 1))

lemma sqrtIter_one (z : ℝ) : sqrtIter 1 z = Real.sqrt z := by
  rw [show (1 : ℕ) = 0 + 1 from rfl, sqrtIter_succ]
  simp [sqrtIter]

/-- The site condition a caller must establish for `check(x, d, e)`:
the triple is coherent, and an insertion of the digit `n` itself is
either at digit count `1` or will be rejected because `n` is already
present. -/
def SiteOK (st : IState) (x : ℤ) (d : ℕ) (e : Expr) : Prop :=
  1 ≤ x ∧ GoodN e (x : ℝ) ∧ Expr.countDigits e = d ∧
  (x = st.n → d = 1 ∨ (st.n ≤ 2 ^ st.limits.maxDigits →
    ∃ e', tlookup st.table st.n = some (e', 1)))

lemma insertI_inv {x : ℤ} {d : ℕ} {e : Expr} {st : IState}
    (hInv : Inv st) (hsite : SiteOK st x d e)
    (hempty : st.table = [] → x = st.n ∨ ¬ (st.n ≤ 2 ^ st.limits.maxDigits))
    (hr : rangeCheckI st x) (hfresh : tlookup st.table x = none) :
    Inv (insertI x d e st).2 := by
  obtain ⟨hn1, hn9, hI2, hI3, hI4, hI5, hI6⟩ := hInv
  obtain ⟨hx1, hxg, hxc, hxn⟩ := hsite
  refine ⟨hn1, hn9, ?_, ?_, hI4, ?_, ?_⟩
  · intro v e' d' h
    rcases tlookup_cons_inv h with ⟨rfl, hp⟩ | ⟨hne, hold⟩
    · obtain ⟨rfl, rfl⟩ : e' = e ∧ d' = d := by
        constructor
        · exact congrArg Prod.fst hp
        · exact congrArg Prod.snd hp
      refine ⟨hx1, hr, hxg, hxc, ?_⟩
      intro hxn'
      have hxn2 : v = st.n := hxn'
      rcases hxn hxn2 with h1 | h2
      · exact h1
      · exfalso
        obtain ⟨e'', he''⟩ := h2 (by rw [← hxn2]; exact hr)
        rw [← hxn2, hfresh] at he''
        exact absurd he'' (by simp)
    · exact hI2 v e' d' hold
  · intro d' v hv
    have := byDepthAt_insertI x d e st d'
    rw [this] at hv
    by_cases hd : d' = d
    · rw [if_pos hd] at hv
      rcases List.mem_append.1 hv with hv | hv
      · obtain ⟨e0, he0⟩ := hI3 d' v hv
        exact ⟨e0, tlookup_cons_fresh hfresh he0⟩
      · have hvx : v = x := by simpa using hv
        subst hvx
        subst hd
        exact ⟨e, tlookup_cons_self⟩
    · rw [if_neg hd] at hv
      obtain ⟨e0, he0⟩ := hI3 d' v hv
      exact ⟨e0, tlookup_cons_fresh hfresh he0⟩
  · intro hds hg hrange
    obtain ⟨e0, he0⟩ := hI5 hds hg hrange
    exact ⟨e0, tlookup_cons_fresh hfresh he0⟩
  · intro _ hrange
    by_cases hxeq : x = st.n
    · have hd1 : d = 1 := by
        rcases hxn hxeq with h1 | h2
        · exact h1
        · exfalso
          obtain ⟨e'', he''⟩ := h2 (by rw [← hxeq]; exact hr)
          rw [← hxeq, hfresh] at he''
          exact absurd he'' (by simp)
      subst hd1
      refine ⟨e, ?_⟩
      show tlookup ((x, e, 1) :: st.table) st.n = some (e, 1)
      rw [← hxeq]
      exact tlookup_cons_self
    · by_cases htab : st.table = []
      · rcases hempty htab with h | h
        · exact absurd h hxeq
        · exact absurd hrange h
      · obtain ⟨e0, he0⟩ := hI6 htab hrange
        exact ⟨e0, tlookup_cons_fresh hfresh he0⟩

lemma tryInsert_inv : ∀ (fuel : ℕ) (x : ℤ) (d : ℕ) (e : Expr) (st : IState),
    Inv st → SiteOK st x d e →
    (st.table = [] → x = st.n ∨ ¬ (st.n ≤ 2 ^ st.limits.maxDigits)) →
    Inv (tryInsert fuel x d e st).2 := by
  intro fuel
  induction fuel with
  | zero =>
    intro x d e st hInv _ _
    exact hInv
  | succ fuel ih =>
    intro x d e st hInv hsite hempty
    simp only [tryInsert]
    by_cases hg : ¬ rangeCheckI st x ∨ (tlookup st.table x).isSome
    · rw [if_pos hg]
      exact hInv
    · rw [if_neg hg]
      push_neg at hg
      have hr : rangeCheckI st x := hg.1
      have hfresh : tlookup st.table x = none :=
        Option.not_isSome_iff_eq_none.1 (by simpa using hg.2)
      have hx1 : 1 ≤ x := hsite.1
      have hxg : GoodN e (x : ℝ) := hsite.2.1
      have hxc : Expr.countDigits e = d := hsite.2.2.1
      have hInv1 : Inv (insertI x d e st).2 :=
        insertI_inv hInv hsite hempty hr hfresh
      have hne1 : (insertI x d e st).2.table ≠ [] := by
        simp [insertI]
      have hfields1 : (insertI x d e st).2.n = st.n ∧
          (insertI x d e st).2.limits = st.limits := ⟨rfl, rfl⟩
      have hlook1 : tlookup (insertI x d e st).2.table x = some (e, d) :=
        tlookup_cons_self
      have hInv2 : Inv (match intSqrt? x with
          | some y => tryInsert fuel y d (Expr.fromSqrt e 1) (insertI x d e st).2
          | none => (false, (insertI x d e st).2)).2 := by
        cases hs : intSqrt? x with
        | some y =>
          have hy : 0 ≤ x ∧ Int.sqrt x * Int.sqrt x = x ∧ y = Int.sqrt x := by
            unfold intSqrt? at hs
            by_cases hcond : 0 ≤ x ∧ Int.sqrt x * Int.sqrt x = x
            · rw [if_pos hcond] at hs
              exact ⟨hcond.1, hcond.2, (Option.some_inj.1 hs).symm⟩
            · rw [if_neg hcond] at hs
              exact absurd hs (by simp)
          obtain ⟨hx0, hsq, rfl⟩ := hy
          have hy1 : 1 ≤ Int.sqrt x := by
            by_contra hcon
            push_neg at hcon
            have h0 : 0 ≤ Int.sqrt x := Int.sqrt_nonneg x
            have hz : Int.sqrt x = 0 := by omega
            rw [hz] at hsq
            omega
          have hyg : GoodN (Expr.fromSqrt e 1) ((Int.sqrt x : ℤ) : ℝ) := by
            have := good_fromSqrt 1 hxg
            rw [sqrtIter_one] at this
            have hcast : ((x : ℤ) : ℝ) =
                ((Int.sqrt x : ℤ) : ℝ) * ((Int.sqrt x : ℤ) : ℝ) := by
              exact_mod_cast hsq.symm
            have hy0 : (0 : ℝ) ≤ ((Int.sqrt x : ℤ) : ℝ) := by
              exact_mod_cast Int.sqrt_nonneg x
            rw [hcast, Real.sqrt_mul_self hy0] at this
            exact this
          apply ih
          · exact hInv1
          · refine ⟨hy1, hyg, ?_, ?_⟩
            · rw [Expr.count_fromSqrt]
              exact hxc
            · intro hyn
              exact Or.inr (fun hrange => hInv1.2.2.2.2.2.2 hne1 hrange)
          · intro habs
            exact absurd habs hne1
        | none => exact hInv1
      by_cases hfa : x < st.limits.maxFactorial
      · rw [if_pos hfa]
        set p2 := (match intSqrt? x with
          | some y => tryInsert fuel y d (Expr.fromSqrt e 1) (insertI x d e st).2
          | none => (false, (insertI x d e st).2)) with hp2
        have hstep2 : Step (insertI x d e st).2 p2 := by
          rw [hp2]
          cases hs : intSqrt? x with
          | some y => exact tryInsert_step fuel y d (Expr.fromSqrt e 1) _
          | none => exact Step.skip _
        have hne2 : p2.2.table ≠ [] :=
          tlookup_ne_nil (hstep2.1 x (e, d) hlook1)
        have hfields2 : p2.2.n = st.n ∧ p2.2.limits = st.limits :=
          ⟨hstep2.2.2.2.1, hstep2.2.2.2.2.1⟩
        apply ih
        · exact hInv2
        · refine ⟨factorial_pos x, ?_, ?_, ?_⟩
          · show GoodN (Expr.fromFactorial e) ((factorial x : ℤ) : ℝ)
            rw [factorial_toNat (by omega)]
            have hxg' : GoodN e ((x.toNat : ℕ) : ℝ) := by
              have htn : (x.toNat : ℤ) = x := Int.toNat_of_nonneg (by omega)
              have hc : ((x.toNat : ℕ) : ℝ) = ((x : ℤ) : ℝ) := by
                exact_mod_cast htn
              rw [hc]
              exact hxg
            have := GoodN.fact x.toNat hxg'
            push_cast at this ⊢
            exact this
          · show Expr.countDigits e = d
            exact hxc
          · intro hwn
            exact Or.inr (fun hrange => hInv2.2.2.2.2.2.2 hne2 hrange)
        · intro habs
          exact absurd habs hne2
      · rw [if_neg hfa]
        exact hInv2

lemma concatGate_mono {d md : ℕ} (h : concatGate d md) (hd : 1 ≤ d) :
    concatGate 1 md := by
  unfold concatGate at h ⊢
  have : (10 : ℤ) ^ 1 ≤ 10 ^ d := pow_le_pow_right₀ (by norm_num) hd
  omega

/-- The digit `n` is in the table at digit count `1` whenever the level-1
gates admit it. -/
def NPresent (s : IState) : Prop :=
  concatGate 1 s.limits.maxDigits → s.n ≤ 2 ^ s.limits.maxDigits →
    ∃ e, tlookup s.table s.n = some (e, 1)

lemma NPresent.mono {s : IState} {p : Bool × IState} (hs : Step s p)
    (h : NPresent s) : NPresent p.2 := by
  have hn : p.2.n = s.n := hs.2.2.2.1
  have hl : p.2.limits = s.limits := hs.2.2.2.2.1
  intro hg hr
  rw [hl] at hg
  rw [hn, hl] at hr
  obtain ⟨e0, he0⟩ := h hg hr
  rw [hn]
  exact ⟨e0, hs.1 _ _ he0⟩

lemma Inv.npresent_of_ne {st : IState} (hInv : Inv st) (hne : st.table ≠ []) :
    NPresent st :=
  fun _ hr => hInv.2.2.2.2.2.2 hne hr

/-- Reading a table entry through the invariant. -/
lemma Inv.entry {st : IState} (hInv : Inv st) {v : ℤ} {e : Expr} {d : ℕ}
    (h : tlookup st.table v = some (e, d)) :
    1 ≤ v ∧ v ≤ 2 ^ st.limits.maxDigits ∧ GoodN e (v : ℝ) ∧
      Expr.countDigits e = d ∧ (v = st.n → d = 1) :=
  hInv.2.2.1 v e d h

/-- An element read by index from a depth list is a table entry at that
depth (out-of-range reads return the default `0`, which the invariant
excludes from the table). -/
lemma Inv.read {st : IState} (hInv : Inv st) {d : ℕ} {i : ℕ} {e : Expr} {dd : ℕ}
    (h : tlookup st.table ((byDepthAt st d).getD i 0) = some (e, dd)) :
    dd = d := by
  set v := (byDepthAt st d).getD i 0 with hv
  have h1 : 1 ≤ v := (hInv.entry h).1
  have hmem : v ∈ byDepthAt st d := by
    by_cases hi : i < (byDepthAt st d).length
    · rw [hv]
      exact getD_mem hi 0
    · exfalso
      rw [hv] at h1
      rw [List.getD_eq_getElem?_getD, List.getElem?_eq_none (by omega)] at h1
      simp at h1
  obtain ⟨e0, he0⟩ := hInv.2.2.2.1 d v hmem
  rw [he0] at h
  exact (congrArg Prod.snd (Option.some_inj.1 h)).symm

lemma concatI_inv (fuel d : ℕ) (st : IState) (hInv : Inv st) (hd1 : 1 ≤ d)
    (hds : st.depthSearched + 1 = d) :
    Inv (concatI fuel d st).2 := by
  simp only [concatI]
  by_cases hgate : ¬ concatGate d st.limits.maxDigits
  · rw [if_pos hgate]
    exact hInv
  · rw [if_neg hgate]
    push_neg at hgate
    have hn1 : 1 ≤ st.n := hInv.1
    have hn9 : st.n ≤ 9 := hInv.2.1
    apply tryInsert_inv
    · exact hInv
    · refine ⟨repunit_pos hd1 hn1, ?_, ?_, ?_⟩
      · exact GoodN.number _ (repunit_pos hd1 hn1)
      · show Expr.digitLen (repunit st.n d) = d
        exact digitLen_repunit hd1 hn1 hn9
      · intro hrep
        rcases Nat.lt_or_ge d 2 with h2 | h2
        · exact Or.inl (by omega)
        · exact absurd hrep (repunit_ne_n h2 hn1)
    · intro htab
      rcases Nat.lt_or_ge d 2 with h2 | h2
      · left
        have hdd : d = 1 := by omega
        rw [hdd, repunit_one]
      · by_cases hrange : st.n ≤ 2 ^ st.limits.maxDigits
        · exfalso
          obtain ⟨e0, he0⟩ := hInv.2.2.2.2.2.1 (by omega)
            (concatGate_mono hgate hd1) hrange
          rw [htab] at he0
          exact absurd he0 (by simp [tlookup])
        · right
          exact hrange

lemma Inv.site_default {st : IState} (hInv : Inv st) (hne : st.table ≠ [])
    {x : ℤ} {d : ℕ} {e : Expr} (hx1 : 1 ≤ x) (hg : GoodN e (x : ℝ))
    (hc : Expr.countDigits e = d) : SiteOK st x d e :=
  ⟨hx1, hg, hc, fun _ => Or.inr (fun hr => hInv.2.2.2.2.2.2 hne hr)⟩

lemma addOpI_inv (fuel : ℕ) (x y : SR) (st : IState) (hInv : Inv st)
    (hx : tlookup st.table x.number = some (x.expression, x.digits))
    (hy : tlookup st.table y.number = some (y.expression, y.digits)) :
    Inv (addOpI fuel x y st).2 := by
  have hne : st.table ≠ [] := tlookup_ne_nil hx
  obtain ⟨hx1, hxr, hxg, hxc, hxn⟩ := hInv.entry hx
  obtain ⟨hy1, hyr, hyg, hyc, hyn⟩ := hInv.entry hy
  apply tryInsert_inv _ _ _ _ _ hInv _ (fun h => absurd h hne)
  refine hInv.site_default hne (by omega) ?_ ?_
  · have hgood := good_fromAdd hxg hyg
    have hc : ((x.number + y.number : ℤ) : ℝ) = (x.number : ℝ) + (y.number : ℝ) := by
      push_cast
      ring
    rw [hc]
    exact hgood
  · rw [Expr.count_fromAdd, hxc, hyc]

lemma subOpI_inv (fuel : ℕ) (x y : SR) (st : IState) (hInv : Inv st)
    (hx : tlookup st.table x.number = some (x.expression, x.digits))
    (hy : tlookup st.table y.number = some (y.expression, y.digits))
    (hle : y.number ≤ x.number) :
    Inv (subOpI fuel x y st).2 := by
  have hne : st.table ≠ [] := tlookup_ne_nil hx
  obtain ⟨hx1, hxr, hxg, hxc, hxn⟩ := hInv.entry hx
  obtain ⟨hy1, hyr, hyg, hyc, hyn⟩ := hInv.entry hy
  simp only [subOpI]
  by_cases heq : x.number = y.number
  · rw [if_pos heq]
    exact hInv
  · rw [if_neg heq]
    apply tryInsert_inv _ _ _ _ _ hInv _ (fun h => absurd h hne)
    refine hInv.site_default hne (by omega) ?_ ?_
    · have hgood := good_fromSubtract hxg hyg (by exact_mod_cast hle)
      have hc : ((x.number - y.number : ℤ) : ℝ) = (x.number : ℝ) - (y.number : ℝ) := by
        push_cast
        ring
      rw [hc]
      exact hgood
    · rw [Expr.count_fromSubtract, hxc, hyc]

lemma mulOpI_inv (fuel : ℕ) (x y : SR) (st : IState) (hInv : Inv st)
    (hx : tlookup st.table x.number = some (x.expression, x.digits))
    (hy : tlookup st.table y.number = some (y.expression, y.digits)) :
    Inv (mulOpI fuel x y st).2 := by
  have hne : st.table ≠ [] := tlookup_ne_nil hx
  obtain ⟨hx1, hxr, hxg, hxc, hxn⟩ := hInv.entry hx
  obtain ⟨hy1, hyr, hyg, hyc, hyn⟩ := hInv.entry hy
  simp only [mulOpI]
  by_cases hov : -(2 ^ 63) ≤ x.number * y.number ∧ x.number * y.number ≤ 2 ^ 63 - 1
  · rw [if_pos hov]
    apply tryInsert_inv _ _ _ _ _ hInv _ (fun h => absurd h hne)
    refine hInv.site_default hne (by nlinarith) ?_ ?_
    · have hgood := good_fromMultiply hxg hyg
      have hc : ((x.number * y.number : ℤ) : ℝ) = (x.number : ℝ) * (y.number : ℝ) := by
        push_cast
        ring
      rw [hc]
      exact hgood
    · rw [Expr.count_fromMultiply, hxc, hyc]
  · rw [if_neg hov]
    exact hInv

lemma divOpI_inv (fuel : ℕ) (x y : SR) (st : IState) (hInv : Inv st)
    (hx : tlookup st.table x.number = some (x.expression, x.digits))
    (hy : tlookup st.table y.number = some (y.expression, y.digits))
    (hle : y.number ≤ x.number) :
    Inv (divOpI fuel x y st).2 := by
  have hne : st.table ≠ [] := tlookup_ne_nil hx
  obtain ⟨hx1, hxr, hxg, hxc, hxn⟩ := hInv.entry hx
  obtain ⟨hy1, hyr, hyg, hyc, hyn⟩ := hInv.entry hy
  have hxpos : (0 : ℝ) < (x.number : ℝ) := by exact_mod_cast lt_of_lt_of_le one_pos hx1
  simp only [divOpI]
  by_cases heq : x.number = y.number
  · rw [if_pos heq]
    by_cases hn : x.number = st.n
    · rw [if_pos hn]
      apply tryInsert_inv _ _ _ _ _ hInv _ (fun h => absurd h hne)
      have hdx1 : x.digits = 1 := hxn hn
      refine ⟨by norm_num, ?_, ?_, ?_⟩
      · have hgood := good_fromDivide hxg hxg hxpos
        rw [div_self (ne_of_gt hxpos)] at hgood
        rw [show ((1 : ℤ) : ℝ) = (1 : ℝ) by norm_num]
        exact hgood
      · rw [Expr.count_fromDivide, hxc, hdx1]
      · intro _
        refine Or.inr (fun _ => ⟨x.expression, ?_⟩)
        rw [← hn]
        rw [hdx1] at hx
        exact hx
    · rw [if_neg hn]
      exact hInv
  · rw [if_neg heq]
    by_cases hmod : x.number.tmod y.number = 0
    · rw [if_pos hmod]
      apply tryInsert_inv _ _ _ _ _ hInv _ (fun h => absurd h hne)
      have hdiv : y.number * x.number.tdiv y.number = x.number := by
        have h0 := Int.tdiv_add_tmod' x.number y.number
        rw [hmod] at h0
        have hcomm : y.number * x.number.tdiv y.number =
            x.number.tdiv y.number * y.number := mul_comm _ _
        omega
      have hq1 : 1 ≤ x.number.tdiv y.number := by
        nlinarith [hdiv, hx1, hy1]
      refine hInv.site_default hne hq1 ?_ ?_
      · have hypos : (0 : ℝ) < (y.number : ℝ) := by
          exact_mod_cast lt_of_lt_of_le one_pos hy1
        have hgood := good_fromDivide hxg hyg hypos
        have hval : ((x.number.tdiv y.number : ℤ) : ℝ) =
            (x.number : ℝ) / (y.number : ℝ) := by
          rw [eq_div_iff (ne_of_gt hypos)]
          exact_mod_cast (mul_comm y.number (x.number.tdiv y.number) ▸ hdiv)
        rw [hval]
        exact hgood
      · rw [Expr.count_fromDivide, hxc, hyc]
    · rw [if_neg hmod]
      exact hInv

lemma powOpI_inv (fuel : ℕ) (x y : SR) (st : IState) (hInv : Inv st)
    (hx : tlookup st.table x.number = some (x.expression, x.digits))
    (hy : tlookup st.table y.number = some (y.expression, y.digits)) :
    Inv (powOpI fuel x y st).2 := by
  have hne : st.table ≠ [] := tlookup_ne_nil hx
  obtain ⟨hx1, hxr, hxg, hxc, hxn⟩ := hInv.entry hx
  obtain ⟨hy1, hyr, hyg, hyc, hyn⟩ := hInv.entry hy
  simp only [powOpI]
  by_cases h1 : x.number = 1 ∨ y.number = 1
  · rw [if_pos h1]
    exact hInv
  · rw [if_neg h1]
    by_cases h2 : 0x80000000 < y.number
    · rw [if_pos h2]
      exact hInv
    · rw [if_neg h2]
      cases hp : powLoop x.number st.limits.maxDigits y.number.toNat 0 with
      | none => exact hInv
      | some es =>
        obtain ⟨e', s'⟩ := es
        obtain ⟨-, he0, -⟩ :=
          powLoop_spec x.number st.limits.maxDigits y.number.toNat 0 e' s' hp
        apply tryInsert_inv _ _ _ _ _ hInv _ (fun h => absurd h hne)
        refine hInv.site_default hne (one_le_pow₀ hx1) ?_ ?_
        · have hxpos : (0 : ℝ) < (x.number : ℝ) := by
            exact_mod_cast lt_of_lt_of_le one_pos hx1
          have hgp := good_fromPower hxg hxpos (GoodX.lift hyg)
          have hgs := good_fromSqrt s' hgp
          have hppos : (0 : ℝ) < (x.number : ℝ) ^ ((y.number : ℤ) : ℝ) :=
            Real.rpow_pos_of_pos hxpos _
          rw [sqrtIter_eq_rpow hppos, ← Real.rpow_mul hxpos.le] at hgs
          have hvy : ((y.number : ℤ) : ℝ) = ((e' * 2 ^ s' : ℕ) : ℝ) := by
            have hy0 : (y.number.toNat : ℤ) = y.number := Int.toNat_of_nonneg (by omega)
            rw [Nat.sub_zero] at he0
            rw [← he0]
            exact_mod_cast hy0.symm
          have hexp : ((y.number : ℤ) : ℝ) * ((2 : ℝ) ^ s')⁻¹ = ((e' : ℕ) : ℝ) := by
            rw [hvy]
            push_cast
            field_simp
          rw [hexp, Real.rpow_natCast] at hgs
          have hcast : ((x.number ^ e' : ℤ) : ℝ) = (x.number : ℝ) ^ e' := by
            push_cast
            ring
          rw [hcast]
          exact hgs
        · rw [Expr.count_fromSqrt, Expr.count_fromPower, hxc, hyc]

lemma factDivOpI_inv (fuel : ℕ) (x y : SR) (st : IState) (hInv : Inv st)
    (hx : tlookup st.table x.number = some (x.expression, x.digits))
    (hy : tlookup st.table y.number = some (y.expression, y.digits))
    (hle : y.number ≤ x.number) :
    Inv (factDivOpI fuel x y st).2 := by
  have hne : st.table ≠ [] := tlookup_ne_nil hx
  obtain ⟨hx1, hxr, hxg, hxc, hxn⟩ := hInv.entry hx
  obtain ⟨hy1, hyr, hyg, hyc, hyn⟩ := hInv.entry hy
  simp only [factDivOpI]
  by_cases heq : x.number = y.number
  · rw [if_pos heq]
    exact hInv
  · rw [if_neg heq]
    by_cases h2 : x.number ≤ st.limits.maxFactorial ∨ y.number ≤ 2 ∨
        x.number - y.number = 1 ∨
        2 ^ (2 * st.limits.maxDigits) <
          (x.number * y.number) ^ (x.number - y.number).toNat
    · rw [if_pos h2]
      exact hInv
    · rw [if_neg h2]
      push_neg at h2
      obtain ⟨-, hy2, -, -⟩ := h2
      apply tryInsert_inv _ _ _ _ _ hInv _ (fun h => absurd h hne)
      refine hInv.site_default hne (factorial_divide_pos (by omega)) ?_ ?_
      · have hgfx : GoodN (Expr.fromFactorial x.expression)
            ((Nat.factorial x.number.toNat : ℕ) : ℝ) := by
          apply GoodN.fact
          have htn : (x.number.toNat : ℤ) = x.number := Int.toNat_of_nonneg (by omega)
          have hc : ((x.number.toNat : ℕ) : ℝ) = ((x.number : ℤ) : ℝ) := by
            exact_mod_cast htn
          rw [hc]
          exact hxg
        have hgfy : GoodN (Expr.fromFactorial y.expression)
            ((Nat.factorial y.number.toNat : ℕ) : ℝ) := by
          apply GoodN.fact
          have htn : (y.number.toNat : ℤ) = y.number := Int.toNat_of_nonneg (by omega)
          have hc : ((y.number.toNat : ℕ) : ℝ) = ((y.number : ℤ) : ℝ) := by
            exact_mod_cast htn
          rw [hc]
          exact hyg
        have hfypos : (0 : ℝ) < ((Nat.factorial y.number.toNat : ℕ) : ℝ) := by
          exact_mod_cast Nat.factorial_pos _
        have hgood := good_fromDivide hgfx hgfy hfypos
        have hsplit := factorial_mul_factorial_divide (x := x.number) (y := y.number)
          (by omega) hle
        have hval : ((factorial_divide x.number y.number : ℤ) : ℝ) =
            ((Nat.factorial x.number.toNat : ℕ) : ℝ) /
              ((Nat.factorial y.number.toNat : ℕ) : ℝ) := by
          rw [eq_div_iff (ne_of_gt hfypos)]
          have hx' : factorial x.number = (Nat.factorial x.number.toNat : ℤ) :=
            factorial_toNat (by omega)
          have hy' : factorial y.number = (Nat.factorial y.number.toNat : ℤ) :=
            factorial_toNat (by omega)
          rw [hx', hy'] at hsplit
          have := congrArg (fun z : ℤ => (z : ℝ)) hsplit
          push_cast at this ⊢
          linarith [this]
        rw [hval]
        exact hgood
      · rw [Expr.count_fromDivide]
        show Expr.countDigits x.expression + Expr.countDigits y.expression =
          x.digits + y.digits
        rw [hxc, hyc]

lemma binOpI_inv (fuel : ℕ) (x y : SR) (st : IState) (hInv : Inv st)
    (hx : tlookup st.table x.number = some (x.expression, x.digits))
    (hy : tlookup st.table y.number = some (y.expression, y.digits)) :
    Inv (binOpI fuel x y st).2 := by
  simp only [binOpI]
  have hInv1 : Inv (if x.number < y.number then divOpI fuel y x st
      else divOpI fuel x y st).2 := by
    by_cases h : x.number < y.number
    · rw [if_pos h]
      exact divOpI_inv fuel y x st hInv hy hx (le_of_lt h)
    · rw [if_neg h]
      exact divOpI_inv fuel x y st hInv hx hy (not_lt.1 h)
  have hstep1 : Step st (if x.number < y.number then divOpI fuel y x st
      else divOpI fuel x y st) := by
    by_cases h : x.number < y.number
    · rw [if_pos h]; exact divOpI_step fuel y x st
    · rw [if_neg h]; exact divOpI_step fuel x y st
  set p1 := (if x.number < y.number then divOpI fuel y x st
    else divOpI fuel x y st) with hp1
  have hx1 := hstep1.1 _ _ hx
  have hy1 := hstep1.1 _ _ hy
  have hInv2 : Inv (mulOpI fuel x y p1.2).2 := mulOpI_inv fuel x y p1.2 hInv1 hx1 hy1
  have hstep2 := mulOpI_step fuel x y p1.2
  set p2 := mulOpI fuel x y p1.2 with hp2
  have hx2 := hstep2.1 _ _ hx1
  have hy2 := hstep2.1 _ _ hy1
  have hInv3 : Inv (addOpI fuel x y p2.2).2 := addOpI_inv fuel x y p2.2 hInv2 hx2 hy2
  have hstep3 := addOpI_step fuel x y p2.2
  set p3 := addOpI fuel x y p2.2 with hp3
  have hx3 := hstep3.1 _ _ hx2
  have hy3 := hstep3.1 _ _ hy2
  have hInv4 : Inv (if x.number < y.number then subOpI fuel y x p3.2
      else subOpI fuel x y p3.2).2 := by
    by_cases h : x.number < y.number
    · rw [if_pos h]
      exact subOpI_inv fuel y x p3.2 hInv3 hy3 hx3 (le_of_lt h)
    · rw [if_neg h]
      exact subOpI_inv fuel x y p3.2 hInv3 hx3 hy3 (not_lt.1 h)
  have hstep4 : Step p3.2 (if x.number < y.number then subOpI fuel y x p3.2
      else subOpI fuel x y p3.2) := by
    by_cases h : x.number < y.number
    · rw [if_pos h]; exact subOpI_step fuel y x p3.2
    · rw [if_neg h]; exact subOpI_step fuel x y p3.2
  set p4 := (if x.number < y.number then subOpI fuel y x p3.2
    else subOpI fuel x y p3.2) with hp4
  have hx4 := hstep4.1 _ _ hx3
  have hy4 := hstep4.1 _ _ hy3
  have hInv5 : Inv (powOpI fuel x y p4.2).2 := powOpI_inv fuel x y p4.2 hInv4 hx4 hy4
  have hstep5 := powOpI_step fuel x y p4.2
  set p5 := powOpI fuel x y p4.2 with hp5
  have hx5 := hstep5.1 _ _ hx4
  have hy5 := hstep5.1 _ _ hy4
  have hInv6 : Inv (powOpI fuel y x p5.2).2 := powOpI_inv fuel y x p5.2 hInv5 hy5 hx5
  have hstep6 := powOpI_step fuel y x p5.2
  set p6 := powOpI fuel y x p5.2 with hp6
  have hx6 := hstep6.1 _ _ hx5
  have hy6 := hstep6.1 _ _ hy5
  have hInv7 : Inv (if x.number < y.number then factDivOpI fuel y x p6.2
      else factDivOpI fuel x y p6.2).2 := by
    by_cases h : x.number < y.number
    · rw [if_pos h]
      exact factDivOpI_inv fuel y x p6.2 hInv6 hy6 hx6 (le_of_lt h)
    · rw [if_neg h]
      exact factDivOpI_inv fuel x y p6.2 hInv6 hx6 hy6 (not_lt.1 h)
  exact hInv7

lemma table_ne_nil_mono {st : IState} {p : Bool × IState} (hs : Step st p)
    (hne : st.table ≠ []) : p.2.table ≠ [] := by
  rcases hlist : st.table with _ | ⟨⟨k, e0, d0⟩, t⟩
  · exact absurd hlist hne
  · have hk : tlookup st.table k = some (e0, d0) := by
      rw [hlist]
      exact tlookup_cons_self
    exact tlookup_ne_nil (hs.1 _ _ hk)

lemma ddoI_inv (fuel : ℕ) (x : ℤ) (digits : ℕ) (num den : Expr) (st : IState)
    (hInv : Inv st) (hne : st.table ≠ []) (hx1 : 1 ≤ x)
    {vn vd : ℝ} (hnum : GoodN num vn) (hden : GoodN den vd) (hvd : 0 < vd)
    (hval : (x : ℝ) * vd = vn)
    (hcount : Expr.countDigits num + 2 * Expr.countDigits den = digits) :
    Inv (ddoI fuel x digits num den st).2 := by
  have hx1r : (1 : ℝ) ≤ (x : ℝ) := by exact_mod_cast hx1
  have hle : vd ≤ vn := by nlinarith [hx1r, hvd, hval]
  have hgm : GoodN (Expr.fromDivide (Expr.fromSubtract num den) den)
      (((x - 1 : ℤ)) : ℝ) := by
    have hgood := good_fromDivide (good_fromSubtract hnum hden hle) hden hvd
    have heq : (vn - vd) / vd = ((x - 1 : ℤ) : ℝ) := by
      rw [← hval]
      push_cast
      field_simp
      ring
    rw [heq] at hgood
    exact hgood
  have hgp : GoodN (Expr.fromDivide (Expr.fromAdd num den) den)
      (((x + 1 : ℤ)) : ℝ) := by
    have hgood := good_fromDivide (good_fromAdd hnum hden) hden hvd
    have heq : (vn + vd) / vd = ((x + 1 : ℤ) : ℝ) := by
      rw [← hval]
      push_cast
      field_simp
      ring
    rw [heq] at hgood
    exact hgood
  have hcm : Expr.countDigits (Expr.fromDivide (Expr.fromSubtract num den) den)
      = digits := by
    rw [Expr.count_fromDivide, Expr.count_fromSubtract]
    omega
  have hcp : Expr.countDigits (Expr.fromDivide (Expr.fromAdd num den) den)
      = digits := by
    rw [Expr.count_fromDivide, Expr.count_fromAdd]
    omega
  simp only [ddoI]
  have hInv1 : Inv (if 1 < x then
      tryInsert fuel (x - 1) digits
        (Expr.fromDivide (Expr.fromSubtract num den) den) st
    else (false, st)).2 := by
    by_cases h : 1 < x
    · rw [if_pos h]
      apply tryInsert_inv _ _ _ _ _ hInv _ (fun h' => absurd h' hne)
      exact hInv.site_default hne (by omega) hgm hcm
    · rw [if_neg h]
      exact hInv
  have hstep1 : Step st (if 1 < x then
      tryInsert fuel (x - 1) digits
        (Expr.fromDivide (Expr.fromSubtract num den) den) st
    else (false, st)) := by
    by_cases h : 1 < x
    · rw [if_pos h]
      exact tryInsert_step fuel _ digits _ st
    · rw [if_neg h]
      exact Step.skip st
  set p1 := (if 1 < x then
    tryInsert fuel (x - 1) digits
      (Expr.fromDivide (Expr.fromSubtract num den) den) st
    else (false, st)) with hp1
  have hne1 : p1.2.table ≠ [] := table_ne_nil_mono hstep1 hne
  apply tryInsert_inv _ _ _ _ _ hInv1 _ (fun h' => absurd h' hne1)
  exact hInv1.site_default hne1 (by omega) hgp hcp

lemma ddoWalk_inv (fuel : ℕ) (x : ℤ) (digits : ℕ) (num : Expr) :
    ∀ (den : Expr) (rhs : Option Expr) (st : IState),
      Inv st → st.table ≠ [] → 1 ≤ x →
      ∀ (vn vd vr : ℝ) (cr : ℕ), GoodN num vn → GoodN den vd → 0 < vd →
        (match rhs with
          | none => vr = 1 ∧ cr = 0
          | some r => GoodN r vr ∧ Expr.countDigits r = cr) →
        0 < vr →
        (x : ℝ) * (vd * vr) = vn →
        Expr.countDigits num + Expr.countDigits den + cr + 1 = digits →
        Inv (ddoWalk fuel x digits num den rhs st).2 := by
  intro den
  induction den with
  | multiply p q ihp ihq =>
    intro rhs st hInv hne hx1 vn vd vr cr hnum hden hvd hrhs hvr hval hcount
    simp only [ddoWalk]
    cases hden with
    | mul hp hq =>
    rename_i vp vq
    have hvp : 0 < vp := by nlinarith [hp.nonneg, hq.nonneg, hvd]
    have hvq : 0 < vq := by nlinarith [hp.nonneg, hq.nonneg, hvd]
    have hcd : Expr.countDigits (Expr.multiply p q) =
        Expr.countDigits p + Expr.countDigits q := rfl
    by_cases hq1 : isSingleDigit q = true
    · rw [if_pos hq1]
      have hcq : Expr.countDigits q = 1 := isSingleDigit_count hq hq1
      cases rhs with
      | some r =>
        obtain ⟨hrg, hrc⟩ := hrhs
        have hnum' : GoodN (Expr.fromDivide num (Expr.fromMultiply p r))
            (vn / (vp * vr)) :=
          good_fromDivide hnum (good_fromMultiply hp hrg) (by positivity)
        apply ddoI_inv fuel x digits _ q st hInv hne hx1 hnum' hq hvq
        · rw [eq_div_iff (by positivity)]
          rw [← hval]
          ring
        · rw [Expr.count_fromDivide, Expr.count_fromMultiply]
          omega
      | none =>
        obtain ⟨hvr1, hcr0⟩ := hrhs
        have hnum' : GoodN (Expr.fromDivide num p) (vn / vp) :=
          good_fromDivide hnum hp hvp
        apply ddoI_inv fuel x digits _ q st hInv hne hx1 hnum' hq hvq
        · rw [eq_div_iff (by positivity)]
          rw [← hval, hvr1]
          ring
        · rw [Expr.count_fromDivide]
          omega
    · rw [if_neg hq1]
      cases rhs with
      | some r =>
        obtain ⟨hrg, hrc⟩ := hrhs
        apply ihp (some (Expr.fromMultiply q r)) st hInv hne hx1 vn vp (vq * vr)
          (Expr.countDigits q + cr) hnum hp hvp
        · exact ⟨good_fromMultiply hq hrg, by rw [Expr.count_fromMultiply, hrc]⟩
        · positivity
        · rw [← hval]
          ring
        · omega
      | none =>
        obtain ⟨hvr1, hcr0⟩ := hrhs
        apply ihp (some q) st hInv hne hx1 vn vp vq (Expr.countDigits q)
          hnum hp hvp
        · exact ⟨hq, rfl⟩
        · exact hvq
        · rw [← hval, hvr1]
          ring
        · omega
  | number v =>
    intro rhs st hInv hne hx1 vn vd vr cr hnum hden hvd hrhs hvr hval hcount
    exact hInv
  | negate a ih =>
    intro rhs st hInv hne hx1 vn vd vr cr hnum hden hvd hrhs hvr hval hcount
    exact hInv
  | add a b iha ihb =>
    intro rhs st hInv hne hx1 vn vd vr cr hnum hden hvd hrhs hvr hval hcount
    exact hInv
  | subtract a b iha ihb =>
    intro rhs st hInv hne hx1 vn vd vr cr hnum hden hvd hrhs hvr hval hcount
    exact hInv
  | divide a b iha ihb =>
    intro rhs st hInv hne hx1 vn vd vr cr hnum hden hvd hrhs hvr hval hcount
    exact hInv
  | power a b iha ihb =>
    intro rhs st hInv hne hx1 vn vd vr cr hnum hden hvd hrhs hvr hval hcount
    exact hInv
  | sqrt a o ih =>
    intro rhs st hInv hne hx1 vn vd vr cr hnum hden hvd hrhs hvr hval hcount
    exact hInv
  | factorial a ih =>
    intro rhs st hInv hne hx1 vn vd vr cr hnum hden hvd hrhs hvr hval hcount
    exact hInv

lemma GoodN.divide_elim {a b : Expr} {v : ℝ} (h : GoodN (.divide a b) v) :
    ∃ va vb, GoodN a va ∧ GoodN b vb ∧ 0 < vb ∧ v = va / vb := by
  cases h with
  | div ha hb hb0 => exact ⟨_, _, ha, hb, hb0, rfl⟩

lemma unaryOpI_inv (fuel : ℕ) (x : SR) (st : IState) (hInv : Inv st)
    (hx : tlookup st.table x.number = some (x.expression, x.digits - 1))
    (hd1 : 1 ≤ x.digits) :
    Inv (unaryOpI fuel x st).2 := by
  have hne : st.table ≠ [] := tlookup_ne_nil hx
  obtain ⟨hx1, hxr, hxg, hxc, hxn⟩ := hInv.entry hx
  simp only [unaryOpI]
  by_cases hguard : ¬ (st.n ≠ 1 ∧ x.number ≠ 1)
  · rw [if_pos hguard]
    exact hInv
  · rw [if_neg hguard]
    cases hxe : x.expression with
    | divide num den =>
      rw [hxe] at hxg hxc
      obtain ⟨vn, vd, hng, hdg, hdpos, hveq⟩ := hxg.divide_elim
      have hval : (x.number : ℝ) * vd = vn := by
        rw [hveq]
        field_simp
      have hcnd : Expr.countDigits num + Expr.countDigits den = x.digits - 1 := hxc
      show Inv (if isSingleDigit den = true then
          ddoI fuel x.number x.digits num den st
        else ddoWalk fuel x.number x.digits num den none st).2
      by_cases hs : isSingleDigit den = true
      · rw [if_pos hs]
        have hcd1 : Expr.countDigits den = 1 := isSingleDigit_count hdg hs
        exact ddoI_inv fuel x.number x.digits num den st hInv hne hx1 hng hdg
          hdpos hval (by omega)
      · rw [if_neg hs]
        exact ddoWalk_inv fuel x.number x.digits num den none st hInv hne hx1
          vn vd 1 0 hng hdg hdpos ⟨rfl, rfl⟩ one_pos (by rw [← hval]; ring)
          (by omega)
    | number v => exact hInv
    | negate a => exact hInv
    | add a b => exact hInv
    | subtract a b => exact hInv
    | multiply a b => exact hInv
    | power a b => exact hInv
    | sqrt a o => exact hInv
    | factorial a => exact hInv

lemma Inv.early_exit {p : Bool × IState} (hp : Inv p.2)
    (k : IState → Bool × IState) (hk : Inv (k p.2).2) :
    Inv (if p.1 = true then (true, p.2) else k p.2).2 := by
  by_cases h : p.1 = true
  · rw [if_pos h]
    exact hp
  · rw [if_neg h]
    exact hk

lemma unaryPhase_inv_aux (fuel d l : ℕ) (hd1 : 1 ≤ d) :
    ∀ (k i : ℕ) (st : IState), l ≤ i + k → Inv st →
      Inv (unaryPhase fuel d l i st).2 := by
  intro k
  induction k with
  | zero =>
    intro i st hk hInv
    rw [unaryPhase, dif_pos (by omega)]
    exact hInv
  | succ k ih =>
    intro i st hk hInv
    by_cases h : l ≤ i
    · rw [unaryPhase, dif_pos h]
      exact hInv
    · rw [unaryPhase, dif_neg h]
      have hInvP : Inv (match tlookup st.table ((byDepthAt st (d - 1)).getD i 0) with
          | some (e, _) => unaryOpI fuel ⟨(byDepthAt st (d - 1)).getD i 0, d, e⟩ st
          | none => (false, st)).2 := by
        cases hl : tlookup st.table ((byDepthAt st (d - 1)).getD i 0) with
        | some pr =>
          cases pr with
          | mk e0 dd =>
            have hdd : dd = d - 1 := hInv.read hl
            apply unaryOpI_inv fuel ⟨(byDepthAt st (d - 1)).getD i 0, d, e0⟩ st hInv
            · show tlookup st.table ((byDepthAt st (d - 1)).getD i 0) = some (e0, d - 1)
              rw [hdd] at hl
              exact hl
            · exact hd1
        | none => exact hInv
      exact Inv.early_exit hInvP (unaryPhase fuel d l (i + 1))
        (ih (i + 1) _ (by omega) hInvP)

lemma unaryPhase_inv (fuel d l i : ℕ) (st : IState) (hd1 : 1 ≤ d)
    (hInv : Inv st) : Inv (unaryPhase fuel d l i st).2 :=
  unaryPhase_inv_aux fuel d l hd1 l i st (by omega) hInv

lemma diffJ_inv_aux (fuel d d1 : ℕ) (n1 : ℤ) (e1 : Expr) (l2 : ℕ) :
    ∀ (k j : ℕ) (st : IState), l2 ≤ j + k → Inv st →
      tlookup st.table n1 = some (e1, d1) →
      Inv (diffJ fuel d d1 n1 e1 l2 j st).2 := by
  intro k
  induction k with
  | zero =>
    intro j st hk hInv hx
    rw [diffJ, dif_pos (by omega)]
    exact hInv
  | succ k ih =>
    intro j st hk hInv hx
    by_cases h : l2 ≤ j
    · rw [diffJ, dif_pos h]
      exact hInv
    · rw [diffJ, dif_neg h]
      have hstepP : Step st (match tlookup st.table ((byDepthAt st (d - d1)).getD j 0) with
          | some (e2, _) =>
            binOpI fuel ⟨n1, d1, e1⟩ ⟨(byDepthAt st (d - d1)).getD j 0, d - d1, e2⟩ st
          | none => (false, st)) := by
        cases hl : tlookup st.table ((byDepthAt st (d - d1)).getD j 0) with
        | some pr =>
          cases pr with
          | mk e2 dd => exact binOpI_step fuel _ _ st
        | none => exact Step.skip st
      have hInvP : Inv (match tlookup st.table ((byDepthAt st (d - d1)).getD j 0) with
          | some (e2, _) =>
            binOpI fuel ⟨n1, d1, e1⟩ ⟨(byDepthAt st (d - d1)).getD j 0, d - d1, e2⟩ st
          | none => (false, st)).2 := by
        cases hl : tlookup st.table ((byDepthAt st (d - d1)).getD j 0) with
        | some pr =>
          cases pr with
          | mk e2 dd =>
            have hdd : dd = d - d1 := hInv.read hl
            apply binOpI_inv fuel ⟨n1, d1, e1⟩ _ st hInv hx
            show tlookup st.table ((byDepthAt st (d - d1)).getD j 0) = some (e2, d - d1)
            rw [hdd] at hl
            exact hl
        | none => exact hInv
      exact Inv.early_exit hInvP (diffJ fuel d d1 n1 e1 l2 (j + 1))
        (ih (j + 1) _ (by omega) hInvP (hstepP.1 _ _ hx))

lemma diffI_inv_aux (fuel d d1 l1 l2 : ℕ) :
    ∀ (k i : ℕ) (st : IState), l1 ≤ i + k → Inv st →
      Inv (diffI fuel d d1 l1 l2 i st).2 := by
  intro k
  induction k with
  | zero =>
    intro i st hk hInv
    rw [diffI, dif_pos (by omega)]
    exact hInv
  | succ k ih =>
    intro i st hk hInv
    by_cases h : l1 ≤ i
    · rw [diffI, dif_pos h]
      exact hInv
    · rw [diffI, dif_neg h]
      have hInvP : Inv (match tlookup st.table ((byDepthAt st d1).getD i 0) with
          | some (e1, _) => diffJ fuel d d1 ((byDepthAt st d1).getD i 0) e1 l2 0 st
          | none => (false, st)).2 := by
        cases hl : tlookup st.table ((byDepthAt st d1).getD i 0) with
        | some pr =>
          cases pr with
          | mk e1 dd =>
            have hdd : dd = d1 := hInv.read hl
            apply diffJ_inv_aux fuel d d1 _ e1 l2 l2 0 st (by omega) hInv
            rw [hdd] at hl
            exact hl
        | none => exact hInv
      exact Inv.early_exit hInvP (diffI fuel d d1 l1 l2 (i + 1))
        (ih (i + 1) _ (by omega) hInvP)

lemma diffD1_inv_aux (fuel d : ℕ) :
    ∀ (k d1 : ℕ) (st : IState), (d + 1) / 2 ≤ d1 + k → Inv st →
      Inv (diffD1 fuel d d1 st).2 := by
  intro k
  induction k with
  | zero =>
    intro d1 st hk hInv
    rw [diffD1, dif_pos (by omega)]
    exact hInv
  | succ k ih =>
    intro d1 st hk hInv
    by_cases h : (d + 1) / 2 ≤ d1
    · rw [diffD1, dif_pos h]
      exact hInv
    · rw [diffD1, dif_neg h]
      have hInvP : Inv (diffI fuel d d1 (byDepthAt st d1).length
          (byDepthAt st (d - d1)).length 0 st).2 :=
        diffI_inv_aux fuel d d1 (byDepthAt st d1).length
          (byDepthAt st (d - d1)).length ((byDepthAt st d1).length) 0 st
          (by omega) hInv
      exact Inv.early_exit hInvP (diffD1 fuel d (d1 + 1))
        (ih (d1 + 1) _ (by omega) hInvP)

lemma eqJ_inv_aux (fuel d : ℕ) (n1 : ℤ) (e1 : Expr) (l : ℕ) :
    ∀ (k j : ℕ) (st : IState), l ≤ j + k → Inv st →
      tlookup st.table n1 = some (e1, d / 2) →
      Inv (eqJ fuel d n1 e1 l j st).2 := by
  intro k
  induction k with
  | zero =>
    intro j st hk hInv hx
    rw [eqJ, dif_pos (by omega)]
    exact hInv
  | succ k ih =>
    intro j st hk hInv hx
    by_cases h : l ≤ j
    · rw [eqJ, dif_pos h]
      exact hInv
    · rw [eqJ, dif_neg h]
      have hstepP : Step st (match tlookup st.table ((byDepthAt st (d / 2)).getD j 0) with
          | some (e2, _) =>
            binOpI fuel ⟨n1, d / 2, e1⟩ ⟨(byDepthAt st (d / 2)).getD j 0, d / 2, e2⟩ st
          | none => (false, st)) := by
        cases hl : tlookup st.table ((byDepthAt st (d / 2)).getD j 0) with
        | some pr =>
          cases pr with
          | mk e2 dd => exact binOpI_step fuel _ _ st
        | none => exact Step.skip st
      have hInvP : Inv (match tlookup st.table ((byDepthAt st (d / 2)).getD j 0) with
          | some (e2, _) =>
            binOpI fuel ⟨n1, d / 2, e1⟩ ⟨(byDepthAt st (d / 2)).getD j 0, d / 2, e2⟩ st
          | none => (false, st)).2 := by
        cases hl : tlookup st.table ((byDepthAt st (d / 2)).getD j 0) with
        | some pr =>
          cases pr with
          | mk e2 dd =>
            have hdd : dd = d / 2 := hInv.read hl
            apply binOpI_inv fuel ⟨n1, d / 2, e1⟩ _ st hInv hx
            show tlookup st.table ((byDepthAt st (d / 2)).getD j 0) = some (e2, d / 2)
            rw [hdd] at hl
            exact hl
        | none => exact hInv
      exact Inv.early_exit hInvP (eqJ fuel d n1 e1 l (j + 1))
        (ih (j + 1) _ (by omega) hInvP (hstepP.1 _ _ hx))

lemma eqI_inv_aux (fuel d l : ℕ) :
    ∀ (k i : ℕ) (st : IState), l ≤ i + k → Inv st →
      Inv (eqI fuel d l i st).2 := by
  intro k
  induction k with
  | zero =>
    intro i st hk hInv
    rw [eqI, dif_pos (by omega)]
    exact hInv
  | succ k ih =>
    intro i st hk hInv
    by_cases h : l ≤ i
    · rw [eqI, dif_pos h]
      exact hInv
    · rw [eqI, dif_neg h]
      have hInvP : Inv (match tlookup st.table ((byDepthAt st (d / 2)).getD i 0) with
          | some (e1, _) => eqJ fuel d ((byDepthAt st (d / 2)).getD i 0) e1 l i st
          | none => (false, st)).2 := by
        cases hl : tlookup st.table ((byDepthAt st (d / 2)).getD i 0) with
        | some pr =>
          cases pr with
          | mk e1 dd =>
            have hdd : dd = d / 2 := hInv.read hl
            apply eqJ_inv_aux fuel d _ e1 l l i st (by omega) hInv
            rw [hdd] at hl
            exact hl
        | none => exact hInv
      exact Inv.early_exit hInvP (eqI fuel d l (i + 1))
        (ih (i + 1) _ (by omega) hInvP)

/-! ## The invariant across a whole level, the solve loop, and the
reachable states of the `i64` solver. -/

lemma getD_set {α : Type} (l : List (List α)) (d i : ℕ) (x : List α) :
    (l.set d x).getD i [] = if d = i ∧ d < l.length then x else l.getD i [] := by
  by_cases h2 : d < l.length
  · by_cases h : d = i
    · subst h
      rw [List.getD_eq_getElem?_getD, List.getElem?_set_self (by omega),
        if_pos ⟨rfl, h2⟩]
      rfl
    · rw [List.getD_eq_getElem?_getD, List.getElem?_set_ne h, if_neg (by tauto),
        List.getD_eq_getElem?_getD]
  · rw [List.set_eq_of_length_le (by omega), if_neg (by tauto)]

lemma Inv_pad (st : IState) (k : ℕ) (hInv : Inv st) :
    Inv { st with byDepth := padTo st.byDepth k } := by
  obtain ⟨hn1, hn9, hI2, hI3, hI4, hI5, hI6⟩ := hInv
  refine ⟨hn1, hn9, hI2, ?_, hI4, hI5, hI6⟩
  intro d v hv
  have heq : byDepthAt { st with byDepth := padTo st.byDepth k } d =
      byDepthAt st d := by
    show (padTo st.byDepth k).getD d [] = st.byDepth.getD d []
    exact getD_padTo st.byDepth k d
  rw [heq] at hv
  exact hI3 d v hv

lemma Inv_target (st : IState) (t : ℤ) (hInv : Inv st) :
    Inv { st with target := t } := hInv

/-- After `concat` at level `d` (on a state searched up to `d − 1`),
the digit `n` is in the table whenever the level-1 gates admit it:
either it was already there, or `d = 1` and `concat` just inserted
it. -/
lemma concatI_npresent (fuel d : ℕ) (st : IState) (hInv : Inv st) (hd1 : 1 ≤ d)
    (hds : st.depthSearched + 1 = d) :
    NPresent (concatI (fuel + 1) d st).2 := by
  have hstep := concatI_step (fuel + 1) d st
  have hn : (concatI (fuel + 1) d st).2.n = st.n := hstep.2.2.2.1
  have hl : (concatI (fuel + 1) d st).2.limits = st.limits := hstep.2.2.2.2.1
  intro hg1 hrn
  rw [hl] at hg1
  rw [hn, hl] at hrn
  rw [hn]
  by_cases hd2 : d < 2
  · have hd : d = 1 := by omega
    subst hd
    cases hlk : tlookup st.table st.n with
    | some pr =>
      cases pr with
      | mk e0 dd =>
        have hdd : dd = 1 := (hInv.entry hlk).2.2.2.2 rfl
        subst hdd
        exact ⟨e0, hstep.1 _ _ hlk⟩
    | none =>
      have heq : concatI (fuel + 1) 1 st =
          tryInsert (fuel + 1) st.n 1 (Expr.fromNumber st.n) st := by
        simp only [concatI]
        rw [if_neg (not_not.mpr hg1), repunit_one]
      rw [heq]
      exact ⟨Expr.fromNumber st.n,
        tryInsert_stores fuel st.n 1 (Expr.fromNumber st.n) st hrn hlk⟩
  · obtain ⟨e0, he0⟩ := hInv.2.2.2.2.2.1 (by omega) hg1 hrn
    exact ⟨e0, hstep.1 _ _ he0⟩

/-- The invariant survives the closing step of a level: sorting
`states_by_depth[d]` and setting `depth_searched := d` (the digit `n`
being available at digit count `1` backs the advanced
`depth_searched`). -/
lemma Inv_finishLevel (d : ℕ) (st : IState) (hInv : Inv st) (hNP : NPresent st) :
    Inv { sortStatesI d st with depthSearched := d } := by
  obtain ⟨hn1, hn9, hI2, hI3, hI4, hI5, hI6⟩ := hInv
  refine ⟨hn1, hn9, hI2, ?_, hI4, ?_, hI6⟩
  · intro d' v hv
    have heq : byDepthAt { sortStatesI d st with depthSearched := d } d' =
        (st.byDepth.set d (List.insertionSort (· ≤ ·) (byDepthAt st d))).getD d' [] :=
      rfl
    rw [heq, getD_set] at hv
    by_cases hc : d = d' ∧ d < st.byDepth.length
    · rw [if_pos hc] at hv
      have hv2 : v ∈ byDepthAt st d := (List.perm_insertionSort _ _).mem_iff.1 hv
      obtain ⟨e0, he0⟩ := hI3 d v hv2
      rw [hc.1] at he0
      exact ⟨e0, he0⟩
    · rw [if_neg hc] at hv
      exact hI3 d' v hv
  · intro _ hg hr
    exact hNP hg hr

lemma searchTail4_inv (fuel d : ℕ) (s : IState) (hInv : Inv s)
    (hNP : NPresent s) : Inv (searchTail4 fuel d s).2 := by
  simp only [searchTail4]
  have hstep : Step s (if d % 2 = 0 then
      eqI fuel d ((byDepthAt s (d / 2)).length) 0 s else (false, s)) := by
    by_cases h : d % 2 = 0
    · rw [if_pos h]
      exact eqI_step fuel d _ 0 s
    · rw [if_neg h]
      exact Step.skip s
  have hInvP : Inv (if d % 2 = 0 then
      eqI fuel d ((byDepthAt s (d / 2)).length) 0 s else (false, s)).2 := by
    by_cases h : d % 2 = 0
    · rw [if_pos h]
      exact eqI_inv_aux fuel d ((byDepthAt s (d / 2)).length)
        ((byDepthAt s (d / 2)).length) 0 s (by omega) hInv
    · rw [if_neg h]
      exact hInv
  have hNPP : NPresent (if d % 2 = 0 then
      eqI fuel d ((byDepthAt s (d / 2)).length) 0 s else (false, s)).2 :=
    NPresent.mono hstep hNP
  exact Inv.early_exit hInvP
    (fun s' => (false, { sortStatesI d s' with depthSearched := d }))
    (Inv_finishLevel d _ hInvP hNPP)

lemma searchTail3_inv (fuel d : ℕ) (s : IState) (hInv : Inv s)
    (hNP : NPresent s) : Inv (searchTail3 fuel d s).2 := by
  simp only [searchTail3]
  have hInvP : Inv (diffD1 fuel d 1 s).2 :=
    diffD1_inv_aux fuel d ((d + 1) / 2) 1 s (by omega) hInv
  have hNPP : NPresent (diffD1 fuel d 1 s).2 :=
    NPresent.mono (diffD1_step fuel d 1 s) hNP
  exact Inv.early_exit hInvP (searchTail4 fuel d) (searchTail4_inv fuel d _ hInvP hNPP)

lemma searchTail2_inv (fuel d : ℕ) (s : IState) (hd1 : 1 ≤ d) (hInv : Inv s)
    (hNP : NPresent s) : Inv (searchTail2 fuel d s).2 := by
  simp only [searchTail2]
  have hInvP : Inv (unaryPhase fuel d ((byDepthAt s (d - 1)).length) 0 s).2 :=
    unaryPhase_inv fuel d _ 0 s hd1 hInv
  have hNPP : NPresent (unaryPhase fuel d ((byDepthAt s (d - 1)).length) 0 s).2 :=
    NPresent.mono (unaryPhase_step fuel d _ 0 s) hNP
  exact Inv.early_exit hInvP (searchTail3 fuel d) (searchTail3_inv fuel d _ hInvP hNPP)

lemma searchTail1_inv (fuel d : ℕ) (s : IState) (hd1 : 1 ≤ d) (hInv : Inv s)
    (hNP : NPresent s) : Inv (searchTail1 fuel d s).2 := by
  simp only [searchTail1]
  have hl : (s.extraByDepth.getD d []).length = 0 := by
    rw [hInv.2.2.2.2.1 d]
    rfl
  rw [hl]
  have hskip : extraPhase fuel d 0 0 s = (false, s) := by
    rw [extraPhase, dif_pos (le_refl 0)]
  rw [hskip, if_neg (by simp)]
  exact searchTail2_inv fuel d s hd1 hInv hNP

/-- The invariant is preserved by one whole level of `search`. -/
lemma searchLevel_inv (fuel d : ℕ) (st : IState) (hInv : Inv st) (hd1 : 1 ≤ d)
    (hds : st.depthSearched + 1 = d) :
    Inv (searchLevel (fuel + 1) d st).2 := by
  rw [searchLevel_eq]
  have hInv0 : Inv { st with byDepth := padTo st.byDepth (d + 1) } :=
    Inv_pad st (d + 1) hInv
  have hds0 :
      ({ st with byDepth := padTo st.byDepth (d + 1) } : IState).depthSearched
        + 1 = d := hds
  have hInvC :
      Inv (concatI (fuel + 1) d { st with byDepth := padTo st.byDepth (d + 1) }).2 :=
    concatI_inv (fuel + 1) d _ hInv0 hd1 hds0
  have hNPC :
      NPresent
        (concatI (fuel + 1) d { st with byDepth := padTo st.byDepth (d + 1) }).2 :=
    concatI_npresent fuel d _ hInv0 hd1 hds0
  exact Inv.early_exit hInvC (searchTail1 (fuel + 1) d)
    (searchTail1_inv (fuel + 1) d _ hd1 hInvC hNPC)

/-! When a level returns `false`, execution reached its last line, so
`depth_searched = d` on the resulting state. -/

lemma searchTail4_ds (fuel d : ℕ) (s : IState)
    (h : (searchTail4 fuel d s).1 = false) :
    (searchTail4 fuel d s).2.depthSearched = d := by
  simp only [searchTail4] at h ⊢
  by_cases hp : (if d % 2 = 0 then
      eqI fuel d ((byDepthAt s (d / 2)).length) 0 s else (false, s)).1 = true
  · rw [if_pos hp] at h
    simp at h
  · rw [if_neg hp]

lemma searchTail3_ds (fuel d : ℕ) (s : IState)
    (h : (searchTail3 fuel d s).1 = false) :
    (searchTail3 fuel d s).2.depthSearched = d := by
  simp only [searchTail3] at h ⊢
  by_cases hp : (diffD1 fuel d 1 s).1 = true
  · rw [if_pos hp] at h
    simp at h
  · rw [if_neg hp] at h ⊢
    exact searchTail4_ds fuel d _ h

lemma searchTail2_ds (fuel d : ℕ) (s : IState)
    (h : (searchTail2 fuel d s).1 = false) :
    (searchTail2 fuel d s).2.depthSearched = d := by
  simp only [searchTail2] at h ⊢
  by_cases hp : (unaryPhase fuel d ((byDepthAt s (d - 1)).length) 0 s).1 = true
  · rw [if_pos hp] at h
    simp at h
  · rw [if_neg hp] at h ⊢
    exact searchTail3_ds fuel d _ h

lemma searchTail1_ds (fuel d : ℕ) (s : IState)
    (h : (searchTail1 fuel d s).1 = false) :
    (searchTail1 fuel d s).2.depthSearched = d := by
  simp only [searchTail1] at h ⊢
  by_cases hp : (extraPhase fuel d ((s.extraByDepth.getD d []).length) 0 s).1 = true
  · rw [if_pos hp] at h
    simp at h
  · rw [if_neg hp] at h ⊢
    exact searchTail2_ds fuel d _ h

lemma searchLevel_ds (fuel d : ℕ) (st : IState)
    (h : (searchLevel fuel d st).1 = false) :
    (searchLevel fuel d st).2.depthSearched = d := by
  have h' : (if (concatI fuel d { st with byDepth := padTo st.byDepth (d + 1) }).1
        = true
      then (true, (concatI fuel d { st with byDepth := padTo st.byDepth (d + 1) }).2)
      else searchTail1 fuel d
        (concatI fuel d { st with byDepth := padTo st.byDepth (d + 1) }).2).1
      = false := h
  show (if (concatI fuel d { st with byDepth := padTo st.byDepth (d + 1) }).1 = true
      then (true, (concatI fuel d { st with byDepth := padTo st.byDepth (d + 1) }).2)
      else searchTail1 fuel d
        (concatI fuel d { st with byDepth := padTo st.byDepth (d + 1) }).2).2.depthSearched
      = d
  by_cases hp :
      (concatI fuel d { st with byDepth := padTo st.byDepth (d + 1) }).1 = true
  · rw [if_pos hp] at h'
    simp at h'
  · rw [if_neg hp] at h' ⊢
    exact searchTail1_ds fuel d _ h'

/-- The invariant is preserved by the whole `solve` loop. -/
lemma solveLoop_inv_aux (fuel maxd : ℕ) :
    ∀ (k d : ℕ) (st : IState), maxd + 1 ≤ d + k → 1 ≤ d →
      st.depthSearched + 1 = d → Inv st →
      Inv (solveLoop (fuel + 1) maxd d st).2 := by
  intro k
  induction k with
  | zero =>
    intro d st hk hd1 hds hInv
    rw [solveLoop_eq, if_pos (by omega)]
    exact hInv
  | succ k ih =>
    intro d st hk hd1 hds hInv
    rw [solveLoop_eq]
    by_cases hmd : maxd < d
    · rw [if_pos hmd]
      exact hInv
    · rw [if_neg hmd]
      have hInvP : Inv (searchLevel (fuel + 1) d st).2 :=
        searchLevel_inv fuel d st hInv hd1 hds
      by_cases hflag : (searchLevel (fuel + 1) d st).1 = true
      · rw [if_pos hflag]
        exact hInvP
      · rw [if_neg hflag]
        have hds' : (searchLevel (fuel + 1) d st).2.depthSearched + 1 = d + 1 := by
          rw [searchLevel_ds (fuel + 1) d st (by simpa using hflag)]
        exact ih (d + 1) _ (by omega) (by omega) hds' hInvP

/-- The invariant is preserved by `Solver::solve`. -/
lemma solveI_inv (fuel : ℕ) (target : ℤ) (maxDepth : Option ℕ) (st : IState)
    (hInv : Inv st) : Inv (solveI (fuel + 1) target maxDepth st).2 := by
  have hInv' : Inv ({ st with target := target } : IState) :=
    Inv_target st target hInv
  show Inv ((match tlookup st.table target with
    | some (e, digits) =>
        (if digits ≤ maxDepth.getD (2 ^ 64 - 1) then some (e, digits) else none,
          ({ st with target := target } : IState))
    | none => solveLoop (fuel + 1) (maxDepth.getD (2 ^ 64 - 1))
        (({ st with target := target } : IState).depthSearched + 1)
        { st with target := target }) : Option (Expr × ℕ) × IState).2
  cases hlk : tlookup st.table target with
  | some pr =>
    cases pr with
    | mk e dd => exact hInv'
  | none =>
    exact solveLoop_inv_aux fuel (maxDepth.getD (2 ^ 64 - 1))
      (maxDepth.getD (2 ^ 64 - 1) + 1) (st.depthSearched + 1)
      { st with target := target } (by omega) (by omega) rfl hInv'

/-- A fresh solver satisfies the invariant. -/
lemma newSolver_inv (n : ℤ) (L : Limits) (h1 : 1 ≤ n) (h9 : n ≤ 9) :
    Inv (newSolver n L) := by
  refine ⟨h1, h9, ?_, ?_, ?_, ?_, ?_⟩
  · intro v e d h
    exact absurd h (by simp [newSolver, tlookup])
  · intro d v hv
    exact absurd hv (by simp [newSolver, byDepthAt])
  · intro d
    simp [newSolver]
  · intro hds _ _
    exact absurd hds (by simp [newSolver])
  · intro htab _
    exact absurd rfl htab

/-- The reachable states of the `i64` solver: a fresh solver for a
source digit `1 ≤ n ≤ 9`, closed under calls of `Solver::solve` — the
only public mutating entry point. -/
inductive ReachI : IState → Prop
  | init (n : ℤ) (L : Limits) (h1 : 1 ≤ n) (h9 : n ≤ 9) : ReachI (newSolver n L)
  | solve (fuel : ℕ) (target : ℤ) (maxDepth : Option ℕ) {st : IState}
      (h : ReachI st) : ReachI (solveI (fuel + 1) target maxDepth st).2

/-- Every reachable solver state satisfies the table invariant. -/
lemma reachI_inv : ∀ {st : IState}, ReachI st → Inv st := by
  intro st h
  induction h with
  | init n L h1 h9 => exact newSolver_inv n L h1 h9
  | solve fuel target maxDepth h ih => exact solveI_inv fuel target maxDepth _ ih

/-- For every entry `(v, (e, d))` stored in the `i64` solver's table
in any reachable state, the expression `e` evaluates to `v` in the
domain (the exact real-valued semantics `GoodN` of the domain
operations), and `d` equals the digit count of `e`: occurrences of the
source digit, a `k`-digit repunit literal counting `k`. -/
theorem entries_wellformed (st : IState) (h : ReachI st) (v : ℤ) (e : Expr)
    (d : ℕ) (hl : tlookup st.table v = some (e, d)) :
    GoodN e (v : ℝ) ∧ Expr.countDigits e = d := by
  have hE := (reachI_inv h).entry hl
  exact ⟨hE.2.2.1, hE.2.2.2.1⟩

theorem entries_wellformed_witness :
    GoodN (Expr.number 1) ((1 : ℤ) : ℝ) ∧
      Expr.countDigits (Expr.number 1) = 1 :=
  entries_wellformed _
    (ReachI.solve 1 1 (some 1) (ReachI.init 1 ⟨4, 0, 2⟩ (by decide) (by decide)))
    1 (Expr.number 1) 1
    (by
      show tlookup (solveLoop (1 + 1) 1 1
          { newSolver 1 ⟨4, 0, 2⟩ with target := 1 }).2.table 1 =
        some (Expr.number 1, 1)
      rw [solveLoop_eq]
      decide)

/-! ## The progressive driver (`src/progressive_solver.rs`)

`ProgressiveSolver` owns four sub-solvers — the progressive integral,
rational and rational-quadratic solvers and a non-progressive
`full_integral_solver` — and `solve_next` iterates them.  Each
sub-solver's `solve` (`src/solver/solver.rs` lines 44–64) sets its
target, returns a table hit immediately (`None` when the hit is deeper
than the bound), and otherwise searches level by level from
`depth_searched + 1`.  One level of `Searcher::search`
(`src/solver/searcher.rs`) is — whatever the phase structure and the
resume position stored in `search_state` — a sequence of
`check`/`try_insert` calls whose digit counts lie in `[1, level]` (the
phases insert at the level itself; the `x/x` rule of the binary phase
inserts `1` at digit count `2 ≤ level`), interleaved with bookkeeping
that touches neither the table nor the target, and it reports `true`
exactly when a call found the target; a completed level records
`depth_searched := level`.  The level is embedded in exactly that
generality: a `pick` function — universally quantified in the final
theorem, so that the source's concat/extra/unary/binary phases at
every resume position are instances — chooses the next gate call or
stops the level, and may update the auxiliary state (depth lists,
extra queues, resume position) arbitrarily. -/

/-- A sub-solver: the gate-visible fields, `depth_searched`, and the
auxiliary bookkeeping state (depth lists, extra queues, resume
position), which the driver never reads. -/
structure PSub (T : Type) (A : Type) where
  gs : GState T
  ds : ℕ
  aux : A

/-- One decision of a search level: stop (the level is exhausted), or
run the next `check`/`try_insert` at digit count `max 1 (d - j)` — the
levels of the source only insert at digit counts in `[1, d]` — and
update the auxiliary state. -/
inductive PickRes (T : Type) (A : Type) where
  | stop (a : A)
  | site (v : T) (e : Expr) (j : ℕ) (a : A)

/-- One level of `Searcher::search` over an arbitrary site sequence:
each step feeds the chosen site through the `try_insert` gate and
exits early when the target was found; a finished level records
`depth_searched := d` and reports `false`. -/
def pickLevel {T A : Type} [DecidableEq T] (D : DomOps T)
    (pick : ℕ → ℕ → PSub T A → PickRes T A) (gfuel : ℕ) :
    ℕ → ℕ → PSub T A → Bool × PSub T A
  | 0, d, s => (false, { s with ds := d })
  | i + 1, d, s =>
    match pick i d s with
    | .stop a => (false, { s with aux := a, ds := d })
    | .site v e j a =>
      let p := gTryInsert D gfuel v (max 1 (d - j)) e s.gs
      if p.1 then (true, { s with gs := p.2, aux := a })
      else pickLevel D pick gfuel i d { s with gs := p.2, aux := a }

/-- The miss loop of `Solver::solve` (lines 58–62). -/
def psolveLoop {T A : Type} [DecidableEq T] (D : DomOps T)
    (pick : ℕ → ℕ → PSub T A → PickRes T A) (gfuel lfuel maxd : ℕ) :
    ℕ → PSub T A → Option (Expr × ℕ) × PSub T A
  | d, s =>
    if h : maxd < d then (none, s)
    else
      let p := pickLevel D pick gfuel lfuel d s
      if p.1 then (glookup p.2.gs.table p.2.gs.target, p.2)
      else psolveLoop D pick gfuel lfuel maxd (d + 1) p.2
termination_by d s => maxd + 1 - d
decreasing_by omega

/-- `Solver::solve` (`src/solver/solver.rs` lines 44–64). -/
def psolve {T A : Type} [DecidableEq T] (D : DomOps T)
    (pick : ℕ → ℕ → PSub T A → PickRes T A) (gfuel lfuel : ℕ) (target : T)
    (maxDepth : Option ℕ) (s : PSub T A) : Option (Expr × ℕ) × PSub T A :=
  let maxd := maxDepth.getD (2 ^ 64 - 1)
  let s : PSub T A := { s with gs := { s.gs with target := target } }
  match glookup s.gs.table target with
  | some (e, digits) => (if digits ≤ maxd then some (e, digits) else none, s)
  | none => psolveLoop D pick gfuel lfuel maxd (s.ds + 1) s

/-- Entries the gate adds carry exactly the digit count it was called
with: the chained `sqrt`/`factorial` calls recurse at the same
count. -/
lemma gTryInsert_newdepth {T : Type} [DecidableEq T] (D : DomOps T) :
    ∀ (fuel : ℕ) (x : T) (d : ℕ) (e : Expr) (st : GState T) (v : T)
      (q : Expr × ℕ),
      glookup (gTryInsert D fuel x d e st).2.table v = some q →
      glookup st.table v = some q ∨ q.2 = d := by
  intro fuel
  induction fuel with
  | zero => intro x d e st v q h; exact Or.inl h
  | succ fuel ih =>
    intro x d e st v q h
    simp only [gTryInsert] at h
    by_cases hg : ¬ D.range x ∨ (glookup st.table x).isSome
    · rw [if_pos hg] at h
      exact Or.inl h
    · rw [if_neg hg] at h
      set st1 : GState T :=
        { st with
            table := (x, e, d) :: st.table
            byDepth := gpushAt st.byDepth d x
            newNumbers :=
              if st.progressive then st.newNumbers ++ [x]
              else st.newNumbers } with hst1
      have hbase : ∀ q' : Expr × ℕ, glookup st1.table v = some q' →
          glookup st.table v = some q' ∨ q'.2 = d := by
        intro q' h'
        rcases glookup_cons_inv h' with ⟨hvx, hq⟩ | h2
        · right
          rw [hq]
        · left
          exact h2
      have h2 : ∀ q' : Expr × ℕ,
          glookup (match D.sqrtOp x with
            | some y => gTryInsert D fuel y d (Expr.fromSqrt e 1) st1
            | none => (false, st1)).2.table v = some q' →
          glookup st.table v = some q' ∨ q'.2 = d := by
        intro q' h'
        cases hs : D.sqrtOp x with
        | some y =>
          rw [hs] at h'
          rcases ih y d (Expr.fromSqrt e 1) st1 v q' h' with h'' | h''
          · exact hbase q' h''
          · exact Or.inr h''
        | none =>
          rw [hs] at h'
          exact hbase q' h'
      set p2 := (match D.sqrtOp x with
        | some y => gTryInsert D fuel y d (Expr.fromSqrt e 1) st1
        | none => (false, st1)) with hp2
      by_cases hi : D.isInt x = true
      · rw [if_pos hi] at h
        cases hf : D.factOp x with
        | some w =>
          rw [hf] at h
          rcases ih w d (Expr.fromFactorial e) p2.2 v q h with h'' | h''
          · exact h2 q h''
          · exact Or.inr h''
        | none =>
          rw [hf] at h
          exact h2 q h
      · rw [if_neg hi] at h
        exact h2 q h

lemma pickLevel_mono {T A : Type} [DecidableEq T] (D : DomOps T)
    (pick : ℕ → ℕ → PSub T A → PickRes T A) (gfuel : ℕ) :
    ∀ (lfuel d : ℕ) (s : PSub T A) (v : T) (q : Expr × ℕ),
      glookup s.gs.table v = some q →
      glookup (pickLevel D pick gfuel lfuel d s).2.gs.table v = some q := by
  intro lfuel
  induction lfuel with
  | zero => intro d s v q h; exact h
  | succ i ih =>
    intro d s v q h
    rw [pickLevel]
    cases hp : pick i d s with
    | stop a => exact h
    | site w e j a =>
      dsimp only
      have hm := (gTryInsert_gstep D gfuel w (max 1 (d - j)) e s.gs).1 v q h
      by_cases hfl : (gTryInsert D gfuel w (max 1 (d - j)) e s.gs).1 = true
      · rw [if_pos hfl]
        exact hm
      · rw [if_neg hfl]
        exact ih d _ v q hm

lemma pickLevel_target {T A : Type} [DecidableEq T] (D : DomOps T)
    (pick : ℕ → ℕ → PSub T A → PickRes T A) (gfuel : ℕ) :
    ∀ (lfuel d : ℕ) (s : PSub T A),
      (pickLevel D pick gfuel lfuel d s).2.gs.target = s.gs.target := by
  intro lfuel
  induction lfuel with
  | zero => intro d s; rfl
  | succ i ih =>
    intro d s
    rw [pickLevel]
    cases hp : pick i d s with
    | stop a => rfl
    | site w e j a =>
      dsimp only
      have ht := (gTryInsert_gstep D gfuel w (max 1 (d - j)) e s.gs).2.1
      by_cases hfl : (gTryInsert D gfuel w (max 1 (d - j)) e s.gs).1 = true
      · rw [if_pos hfl]
        exact ht
      · rw [if_neg hfl]
        rw [ih]
        exact ht

lemma pickLevel_newdepth {T A : Type} [DecidableEq T] (D : DomOps T)
    (pick : ℕ → ℕ → PSub T A → PickRes T A) (gfuel : ℕ) :
    ∀ (lfuel d : ℕ), 1 ≤ d → ∀ (s : PSub T A) (v : T) (q : Expr × ℕ),
      glookup (pickLevel D pick gfuel lfuel d s).2.gs.table v = some q →
      glookup s.gs.table v = some q ∨ (1 ≤ q.2 ∧ q.2 ≤ d) := by
  intro lfuel
  induction lfuel with
  | zero => intro d _ s v q h; exact Or.inl h
  | succ i ih =>
    intro d hd1 s v q h
    rw [pickLevel] at h
    cases hp : pick i d s with
    | stop a =>
      rw [hp] at h
      exact Or.inl h
    | site w e j a =>
      rw [hp] at h
      dsimp only at h
      have hdep : ∀ q' : Expr × ℕ,
          glookup (gTryInsert D gfuel w (max 1 (d - j)) e s.gs).2.table v =
            some q' →
          glookup s.gs.table v = some q' ∨ (1 ≤ q'.2 ∧ q'.2 ≤ d) := by
        intro q' h'
        rcases gTryInsert_newdepth D gfuel w (max 1 (d - j)) e s.gs v q' h' with
          h'' | h''
        · exact Or.inl h''
        · right
          rw [h'']
          omega
      by_cases hfl : (gTryInsert D gfuel w (max 1 (d - j)) e s.gs).1 = true
      · rw [if_pos hfl] at h
        exact hdep q h
      · rw [if_neg hfl] at h
        rcases ih d hd1 _ v q h with h' | h'
        · exact hdep q h'
        · exact Or.inr h'

lemma pickLevel_fire {T A : Type} [DecidableEq T] (D : DomOps T)
    (pick : ℕ → ℕ → PSub T A → PickRes T A) (gfuel : ℕ) :
    ∀ (lfuel d : ℕ) (s : PSub T A),
      (pickLevel D pick gfuel lfuel d s).1 = true →
      (glookup (pickLevel D pick gfuel lfuel d s).2.gs.table
        s.gs.target).isSome = true ∧
      (pickLevel D pick gfuel lfuel d s).2.ds = s.ds := by
  intro lfuel
  induction lfuel with
  | zero => intro d s h; exact absurd h (by simp [pickLevel])
  | succ i ih =>
    intro d s h
    rw [pickLevel] at h ⊢
    cases hp : pick i d s with
    | stop a =>
      rw [hp] at h
      exact absurd h (by simp)
    | site w e j a =>
      rw [hp] at h
      dsimp only at h ⊢
      by_cases hfl : (gTryInsert D gfuel w (max 1 (d - j)) e s.gs).1 = true
      · rw [if_pos hfl] at h ⊢
        obtain ⟨-, hsome⟩ :=
          ((gTryInsert_gstep D gfuel w (max 1 (d - j)) e s.gs).2.2).1 hfl
        exact ⟨hsome, rfl⟩
      · rw [if_neg hfl] at h ⊢
        obtain ⟨h1, h2⟩ := ih d _ h
        refine ⟨?_, h2⟩
        rw [show ({ s with
            gs := (gTryInsert D gfuel w (max 1 (d - j)) e s.gs).2,
            aux := a } : PSub T A).gs.target =
          s.gs.target from
            (gTryInsert_gstep D gfuel w (max 1 (d - j)) e s.gs).2.1] at h1
        exact h1

lemma pickLevel_false_ds {T A : Type} [DecidableEq T] (D : DomOps T)
    (pick : ℕ → ℕ → PSub T A → PickRes T A) (gfuel : ℕ) :
    ∀ (lfuel d : ℕ) (s : PSub T A),
      (pickLevel D pick gfuel lfuel d s).1 = false →
      (pickLevel D pick gfuel lfuel d s).2.ds = d := by
  intro lfuel
  induction lfuel with
  | zero => intro d s _; rfl
  | succ i ih =>
    intro d s h
    rw [pickLevel] at h ⊢
    cases hp : pick i d s with
    | stop a =>
      rfl
    | site w e j a =>
      rw [hp] at h
      dsimp only at h ⊢
      by_cases hfl : (gTryInsert D gfuel w (max 1 (d - j)) e s.gs).1 = true
      · rw [if_pos hfl] at h
        exact absurd h (by simp)
      · rw [if_neg hfl] at h ⊢
        exact ih d _ h

lemma pickLevel_nofire_none {T A : Type} [DecidableEq T] (D : DomOps T)
    (pick : ℕ → ℕ → PSub T A → PickRes T A) (gfuel : ℕ) :
    ∀ (lfuel d : ℕ) (s : PSub T A),
      (pickLevel D pick gfuel lfuel d s).1 = false →
      glookup s.gs.table s.gs.target = none →
      glookup (pickLevel D pick gfuel lfuel d s).2.gs.table s.gs.target =
        none := by
  intro lfuel
  induction lfuel with
  | zero => intro d s _ h0; exact h0
  | succ i ih =>
    intro d s h h0
    rw [pickLevel] at h ⊢
    cases hp : pick i d s with
    | stop a =>
      exact h0
    | site w e j a =>
      rw [hp] at h
      dsimp only at h ⊢
      by_cases hfl : (gTryInsert D gfuel w (max 1 (d - j)) e s.gs).1 = true
      · rw [if_pos hfl] at h
        exact absurd h (by simp)
      · rw [if_neg hfl] at h ⊢
        have hstep := gTryInsert_gstep D gfuel w (max 1 (d - j)) e s.gs
        have hmid : glookup (gTryInsert D gfuel w (max 1 (d - j)) e
            s.gs).2.table s.gs.target = none := by
          by_contra hco
          rcases Option.ne_none_iff_exists'.1 hco with ⟨q, hq⟩
          have : (gTryInsert D gfuel w (max 1 (d - j)) e s.gs).1 = true :=
            (hstep.2.2).2 ⟨h0, by rw [hq]; rfl⟩
          exact hfl this
        have := ih d { s with
            gs := (gTryInsert D gfuel w (max 1 (d - j)) e s.gs).2,
            aux := a } h ?_
        · rw [show ({ s with
              gs := (gTryInsert D gfuel w (max 1 (d - j)) e s.gs).2,
              aux := a } : PSub T A).gs.target = s.gs.target from
            hstep.2.1] at this
          exact this
        · rw [show ({ s with
              gs := (gTryInsert D gfuel w (max 1 (d - j)) e s.gs).2,
              aux := a } : PSub T A).gs.target = s.gs.target from
            hstep.2.1]
          exact hmid

lemma psolveLoop_eq {T A : Type} [DecidableEq T] (D : DomOps T)
    (pick : ℕ → ℕ → PSub T A → PickRes T A) (gfuel lfuel maxd d : ℕ)
    (s : PSub T A) :
    psolveLoop D pick gfuel lfuel maxd d s =
      if maxd < d then (none, s)
      else if (pickLevel D pick gfuel lfuel d s).1 = true then
        (glookup (pickLevel D pick gfuel lfuel d s).2.gs.table
          (pickLevel D pick gfuel lfuel d s).2.gs.target,
         (pickLevel D pick gfuel lfuel d s).2)
      else psolveLoop D pick gfuel lfuel maxd (d + 1)
        (pickLevel D pick gfuel lfuel d s).2 := by
  rw [psolveLoop]
  by_cases hd : maxd < d
  · rw [dif_pos hd, if_pos hd]
  · rw [dif_neg hd, if_neg hd]

lemma psolveLoop_mono {T A : Type} [DecidableEq T] (D : DomOps T)
    (pick : ℕ → ℕ → PSub T A → PickRes T A) (gfuel lfuel maxd : ℕ) :
    ∀ (k d : ℕ) (s : PSub T A), maxd + 1 ≤ d + k →
      ∀ (v : T) (q : Expr × ℕ), glookup s.gs.table v = some q →
      glookup (psolveLoop D pick gfuel lfuel maxd d s).2.gs.table v =
        some q := by
  intro k
  induction k with
  | zero =>
    intro d s hk v q h
    rw [psolveLoop_eq, if_pos (by omega)]
    exact h
  | succ k ih =>
    intro d s hk v q h
    rw [psolveLoop_eq]
    by_cases hd : maxd < d
    · rw [if_pos hd]
      exact h
    · rw [if_neg hd]
      have hm := pickLevel_mono D pick gfuel lfuel d s v q h
      by_cases hfl : (pickLevel D pick gfuel lfuel d s).1 = true
      · rw [if_pos hfl]
        exact hm
      · rw [if_neg hfl]
        exact ih (d + 1) _ (by omega) v q hm

lemma psolveLoop_newdepth {T A : Type} [DecidableEq T] (D : DomOps T)
    (pick : ℕ → ℕ → PSub T A → PickRes T A) (gfuel lfuel maxd : ℕ) :
    ∀ (k d : ℕ) (s : PSub T A), maxd + 1 ≤ d + k → 1 ≤ d →
      ∀ (v : T) (q : Expr × ℕ),
      glookup (psolveLoop D pick gfuel lfuel maxd d s).2.gs.table v = some q →
      glookup s.gs.table v = some q ∨ (1 ≤ q.2 ∧ q.2 ≤ maxd) := by
  intro k
  induction k with
  | zero =>
    intro d s hk hd1 v q h
    rw [psolveLoop_eq, if_pos (by omega)] at h
    exact Or.inl h
  | succ k ih =>
    intro d s hk hd1 v q h
    rw [psolveLoop_eq] at h
    by_cases hd : maxd < d
    · rw [if_pos hd] at h
      exact Or.inl h
    · rw [if_neg hd] at h
      have hdep : ∀ q' : Expr × ℕ,
          glookup (pickLevel D pick gfuel lfuel d s).2.gs.table v = some q' →
          glookup s.gs.table v = some q' ∨ (1 ≤ q'.2 ∧ q'.2 ≤ maxd) := by
        intro q' h'
        rcases pickLevel_newdepth D pick gfuel lfuel d hd1 s v q' h' with
          h'' | h''
        · exact Or.inl h''
        · right
          omega
      by_cases hfl : (pickLevel D pick gfuel lfuel d s).1 = true
      · rw [if_pos hfl] at h
        exact hdep q h
      · rw [if_neg hfl] at h
        rcases ih (d + 1) _ (by omega) (by omega) v q h with h' | h'
        · exact hdep q h'
        · exact Or.inr h'

lemma psolveLoop_some {T A : Type} [DecidableEq T] (D : DomOps T)
    (pick : ℕ → ℕ → PSub T A → PickRes T A) (gfuel lfuel maxd : ℕ) :
    ∀ (k d : ℕ) (s : PSub T A), maxd + 1 ≤ d + k → 1 ≤ d →
      glookup s.gs.table s.gs.target = none →
      ∀ (e : Expr) (dep : ℕ) (s' : PSub T A),
      psolveLoop D pick gfuel lfuel maxd d s = (some (e, dep), s') →
      glookup s'.gs.table s.gs.target = some (e, dep) ∧ 1 ≤ dep ∧
        dep ≤ maxd := by
  intro k
  induction k with
  | zero =>
    intro d s hk hd1 h0 e dep s' h
    rw [psolveLoop_eq, if_pos (by omega)] at h
    exact absurd h (by simp)
  | succ k ih =>
    intro d s hk hd1 h0 e dep s' h
    rw [psolveLoop_eq] at h
    by_cases hd : maxd < d
    · rw [if_pos hd] at h
      exact absurd h (by simp)
    · rw [if_neg hd] at h
      by_cases hfl : (pickLevel D pick gfuel lfuel d s).1 = true
      · rw [if_pos hfl] at h
        have hs' : s' = (pickLevel D pick gfuel lfuel d s).2 :=
          (congrArg Prod.snd h).symm
        have hres : glookup (pickLevel D pick gfuel lfuel d s).2.gs.table
            (pickLevel D pick gfuel lfuel d s).2.gs.target = some (e, dep) :=
          congrArg Prod.fst h
        rw [pickLevel_target D pick gfuel lfuel d s] at hres
        have hfresh : ¬ glookup s.gs.table s.gs.target = some (e, dep) := by
          rw [h0]
          simp
        rcases pickLevel_newdepth D pick gfuel lfuel d hd1 s s.gs.target
            (e, dep) hres with h' | h'
        · exact absurd h' hfresh
        · rw [hs']
          exact ⟨hres, h'.1, by omega⟩
      · rw [if_neg hfl] at h
        have h0' : glookup (pickLevel D pick gfuel lfuel d s).2.gs.table
            (pickLevel D pick gfuel lfuel d s).2.gs.target = none := by
          rw [pickLevel_target D pick gfuel lfuel d s]
          exact pickLevel_nofire_none D pick gfuel lfuel d s
            (Bool.not_eq_true _ ▸ hfl) h0
        obtain ⟨h1, h2, h3⟩ := ih (d + 1) _ (by omega) (by omega) h0' e dep
          s' h
        rw [pickLevel_target D pick gfuel lfuel d s] at h1
        exact ⟨h1, h2, h3⟩

lemma psolveLoop_none_keep {T A : Type} [DecidableEq T] (D : DomOps T)
    (pick : ℕ → ℕ → PSub T A → PickRes T A) (gfuel lfuel maxd : ℕ) :
    ∀ (k d : ℕ) (s : PSub T A), maxd + 1 ≤ d + k →
      glookup s.gs.table s.gs.target = none →
      ∀ s', psolveLoop D pick gfuel lfuel maxd d s = (none, s') →
      glookup s'.gs.table s.gs.target = none := by
  intro k
  induction k with
  | zero =>
    intro d s hk h0 s' h
    rw [psolveLoop_eq, if_pos (by omega)] at h
    cases h
    exact h0
  | succ k ih =>
    intro d s hk h0 s' h
    rw [psolveLoop_eq] at h
    by_cases hd : maxd < d
    · rw [if_pos hd] at h
      cases h
      exact h0
    · rw [if_neg hd] at h
      by_cases hfl : (pickLevel D pick gfuel lfuel d s).1 = true
      · rw [if_pos hfl] at h
        exfalso
        obtain ⟨hsome, -⟩ := pickLevel_fire D pick gfuel lfuel d s hfl
        have hres : glookup (pickLevel D pick gfuel lfuel d s).2.gs.table
            (pickLevel D pick gfuel lfuel d s).2.gs.target = none :=
          congrArg Prod.fst h
        rw [pickLevel_target D pick gfuel lfuel d s] at hres
        rw [hres] at hsome
        exact absurd hsome (by simp)
      · rw [if_neg hfl] at h
        have h0' : glookup (pickLevel D pick gfuel lfuel d s).2.gs.table
            (pickLevel D pick gfuel lfuel d s).2.gs.target = none := by
          rw [pickLevel_target D pick gfuel lfuel d s]
          exact pickLevel_nofire_none D pick gfuel lfuel d s
            (Bool.not_eq_true _ ▸ hfl) h0
        have := ih (d + 1) _ (by omega) h0' s' h
        rw [pickLevel_target D pick gfuel lfuel d s] at this
        exact this

lemma psolveLoop_gtarget {T A : Type} [DecidableEq T] (D : DomOps T)
    (pick : ℕ → ℕ → PSub T A → PickRes T A) (gfuel lfuel maxd : ℕ) :
    ∀ (k d : ℕ) (s : PSub T A), maxd + 1 ≤ d + k →
      (psolveLoop D pick gfuel lfuel maxd d s).2.gs.target = s.gs.target := by
  intro k
  induction k with
  | zero =>
    intro d s hk
    rw [psolveLoop_eq, if_pos (by omega)]
  | succ k ih =>
    intro d s hk
    rw [psolveLoop_eq]
    by_cases hd : maxd < d
    · rw [if_pos hd]
    · rw [if_neg hd]
      by_cases hfl : (pickLevel D pick gfuel lfuel d s).1 = true
      · rw [if_pos hfl]
        exact pickLevel_target D pick gfuel lfuel d s
      · rw [if_neg hfl]
        rw [ih (d + 1) _ (by omega)]
        exact pickLevel_target D pick gfuel lfuel d s

/-- Every entry of a table has digit count at least `1`. -/
def TDepth1 {T : Type} [DecidableEq T] (t : List (T × Expr × ℕ)) : Prop :=
  ∀ (v : T) (q : Expr × ℕ), glookup t v = some q → 1 ≤ q.2

/-- `t'` extends `t` by entries of digit count exactly `d`. -/
def TabRelD {T : Type} [DecidableEq T] (d : ℕ)
    (t t' : List (T × Expr × ℕ)) : Prop :=
  ∀ (v : T) (q : Expr × ℕ), glookup t' v = some q →
    glookup t v = some q ∨ q.2 = d

lemma tabRelD_refl {T : Type} [DecidableEq T] (d : ℕ)
    (t : List (T × Expr × ℕ)) : TabRelD d t t :=
  fun _ _ h => Or.inl h

lemma tabRelD_trans {T : Type} [DecidableEq T] {d : ℕ}
    {t1 t2 t3 : List (T × Expr × ℕ)} (h1 : TabRelD d t1 t2)
    (h2 : TabRelD d t2 t3) : TabRelD d t1 t3 := by
  intro v q h
  rcases h2 v q h with h' | h'
  · exact h1 v q h'
  · exact Or.inr h'

lemma tabRelD_gate {T : Type} [DecidableEq T] (D : DomOps T) (gfuel : ℕ)
    (x : T) (d : ℕ) (e : Expr) (st : GState T) :
    TabRelD d st.table (gTryInsert D gfuel x d e st).2.table :=
  fun v q h => gTryInsert_newdepth D gfuel x d e st v q h

lemma tdepth1_of_tabRelD {T : Type} [DecidableEq T] {d : ℕ}
    {t t' : List (T × Expr × ℕ)} (h1 : TDepth1 t) (hd : 1 ≤ d)
    (h2 : TabRelD d t t') : TDepth1 t' := by
  intro v q h
  rcases h2 v q h with h' | h'
  · exact h1 v q h'
  · omega

lemma targbound_of_tabRelD {T : Type} [DecidableEq T] {d b : ℕ}
    {t t' : List (T × Expr × ℕ)} {k : T}
    (h1 : ∀ q, glookup t k = some q → q.2 ≤ b) (hbd : b ≤ d)
    (h2 : TabRelD d t t') : ∀ q, glookup t' k = some q → q.2 ≤ d := by
  intro q h
  rcases h2 k q h with h' | h'
  · exact le_trans (h1 q h') hbd
  · omega

lemma psolve_mono {T A : Type} [DecidableEq T] (D : DomOps T)
    (pick : ℕ → ℕ → PSub T A → PickRes T A) (gfuel lfuel : ℕ) (t : T)
    (mD : Option ℕ) (s : PSub T A) (v : T) (q : Expr × ℕ)
    (h : glookup s.gs.table v = some q) :
    glookup (psolve D pick gfuel lfuel t mD s).2.gs.table v = some q := by
  show glookup ((match glookup s.gs.table t with
    | some (e, digits) =>
        (if digits ≤ mD.getD (2 ^ 64 - 1) then some (e, digits) else none,
          ({ s with gs := { s.gs with target := t } } : PSub T A))
    | none => psolveLoop D pick gfuel lfuel (mD.getD (2 ^ 64 - 1))
        (s.ds + 1) { s with gs := { s.gs with target := t } }) :
      Option (Expr × ℕ) × PSub T A).2.gs.table v = some q
  cases hlk : glookup s.gs.table t with
  | some pr =>
    cases pr with
    | mk e dd => exact h
  | none =>
    exact psolveLoop_mono D pick gfuel lfuel (mD.getD (2 ^ 64 - 1))
      (mD.getD (2 ^ 64 - 1) + 1) (s.ds + 1) _ (by omega) v q h

lemma psolve_newdepth {T A : Type} [DecidableEq T] (D : DomOps T)
    (pick : ℕ → ℕ → PSub T A → PickRes T A) (gfuel lfuel : ℕ) (t : T)
    (mD : Option ℕ) (s : PSub T A) :
    ∀ (v : T) (q : Expr × ℕ),
      glookup (psolve D pick gfuel lfuel t mD s).2.gs.table v = some q →
      glookup s.gs.table v = some q ∨
        (1 ≤ q.2 ∧ q.2 ≤ mD.getD (2 ^ 64 - 1)) := by
  show ∀ (v : T) (q : Expr × ℕ),
      glookup ((match glookup s.gs.table t with
        | some (e, digits) =>
            (if digits ≤ mD.getD (2 ^ 64 - 1) then some (e, digits) else none,
              ({ s with gs := { s.gs with target := t } } : PSub T A))
        | none => psolveLoop D pick gfuel lfuel (mD.getD (2 ^ 64 - 1))
            (s.ds + 1) { s with gs := { s.gs with target := t } }) :
          Option (Expr × ℕ) × PSub T A).2.gs.table v = some q →
      glookup s.gs.table v = some q ∨
        (1 ≤ q.2 ∧ q.2 ≤ mD.getD (2 ^ 64 - 1))
  intro v q
  cases hlk : glookup s.gs.table t with
  | some pr =>
    cases pr with
    | mk e dd => exact fun h => Or.inl h
  | none =>
    intro h
    exact psolveLoop_newdepth D pick gfuel lfuel (mD.getD (2 ^ 64 - 1))
      (mD.getD (2 ^ 64 - 1) + 1) (s.ds + 1)
      { s with gs := { s.gs with target := t } } (by omega) (by omega) v q h

lemma psolve_some {T A : Type} [DecidableEq T] (D : DomOps T)
    (pick : ℕ → ℕ → PSub T A → PickRes T A) (gfuel lfuel : ℕ) (t : T)
    (mD : Option ℕ) (s : PSub T A) (hdep : TDepth1 s.gs.table)
    (e : Expr) (dep : ℕ) (s' : PSub T A)
    (h : psolve D pick gfuel lfuel t mD s = (some (e, dep), s')) :
    glookup s'.gs.table t = some (e, dep) ∧ 1 ≤ dep ∧
      dep ≤ mD.getD (2 ^ 64 - 1) := by
  have h' : (match glookup s.gs.table t with
    | some (e, digits) =>
        (if digits ≤ mD.getD (2 ^ 64 - 1) then some (e, digits) else none,
          ({ s with gs := { s.gs with target := t } } : PSub T A))
    | none => psolveLoop D pick gfuel lfuel (mD.getD (2 ^ 64 - 1))
        (s.ds + 1) { s with gs := { s.gs with target := t } }) =
      (some (e, dep), s') := h
  cases hlk : glookup s.gs.table t with
  | some pr =>
    cases pr with
    | mk e0 dd =>
      rw [hlk] at h'
      dsimp only at h'
      by_cases hle : dd ≤ mD.getD (2 ^ 64 - 1)
      · rw [if_pos hle] at h'
        have he : some (e0, dd) = some (e, dep) := congrArg Prod.fst h'
        have hs : s' = { s with gs := { s.gs with target := t } } :=
          (congrArg Prod.snd h').symm
        have hpq : (e0, dd) = (e, dep) := Option.some_inj.1 he
        cases hpq
        rw [hs]
        exact ⟨hlk, hdep t (e, dep) hlk, hle⟩
      · rw [if_neg hle] at h'
        exact absurd (congrArg Prod.fst h') (by simp)
  | none =>
    rw [hlk] at h'
    have := psolveLoop_some D pick gfuel lfuel (mD.getD (2 ^ 64 - 1))
      (mD.getD (2 ^ 64 - 1) + 1) (s.ds + 1)
      { s with gs := { s.gs with target := t } } (by omega) (by omega) hlk
      e dep s' h'
    exact this

lemma psolve_none_keep {T A : Type} [DecidableEq T] (D : DomOps T)
    (pick : ℕ → ℕ → PSub T A → PickRes T A) (gfuel lfuel : ℕ) (t : T)
    (mD : Option ℕ) (s : PSub T A) (h0 : glookup s.gs.table t = none)
    (s' : PSub T A) (h : psolve D pick gfuel lfuel t mD s = (none, s')) :
    glookup s'.gs.table t = none := by
  have h' : (match glookup s.gs.table t with
    | some (e, digits) =>
        (if digits ≤ mD.getD (2 ^ 64 - 1) then some (e, digits) else none,
          ({ s with gs := { s.gs with target := t } } : PSub T A))
    | none => psolveLoop D pick gfuel lfuel (mD.getD (2 ^ 64 - 1))
        (s.ds + 1) { s with gs := { s.gs with target := t } }) =
      (none, s') := h
  rw [h0] at h'
  exact psolveLoop_none_keep D pick gfuel lfuel (mD.getD (2 ^ 64 - 1))
    (mD.getD (2 ^ 64 - 1) + 1) (s.ds + 1) _ (by omega) h0 s' h'

/-! The four concrete value domains of the driver.  The rational
solver's numbers are `num::rational::Rational64`, reduced rationals
with positive denominator, modelled exactly by `ℚ`; `RationalQuadratic`
(`src/quadratic/mod.rs`) adds quadratic-part exponents for the primes
2, 3, 5, 7 and a quadratic power. -/

/-- Value view of `RationalQuadratic`. -/
structure RQVal where
  rationalPart : ℚ
  quadraticPart : Fin 4 → ℕ
  quadraticPower : ℕ
  deriving DecidableEq

/-- `Rational64::from_integer`. -/
def ratFromInt (x : ℤ) : ℚ := x

/-- `Number::to_int` for `Rational64` (`src/number.rs` lines 30–38). -/
def ratToInt (q : ℚ) : Option ℤ := if q.den = 1 then some q.num else none

/-- `RationalQuadratic::from_int`. -/
def rqFromInt (x : ℤ) : RQVal := ⟨(x : ℚ), fun _ => 0, 0⟩

/-- `RationalQuadratic::from_rational`. -/
def rqFromRational (q : ℚ) : RQVal := ⟨q, fun _ => 0, 0⟩

/-- `Number::to_int` for `RationalQuadratic`
(`src/quadratic/rational.rs` lines 75–82). -/
def rqToInt (x : RQVal) : Option ℤ :=
  if x.quadraticPower = 0 ∧ x.rationalPart.den = 1 then
    some x.rationalPart.num
  else none

/-- `Number::is_rational` for `RationalQuadratic` (lines 89–92). -/
def rqIsRational (x : RQVal) : Bool := x.quadraticPower == 0

/-- `RationalQuadratic::rational_part`. -/
def rqRationalPart (x : RQVal) : ℚ := x.rationalPart

/-- `ProgressiveSearchState` (`src/progressive_solver.rs` lines
6–13). -/
inductive PSrchState where
  | none
  | integral
  | fullIntegral
  | rational
  | rationalQuadratic
  | finished
  deriving DecidableEq

/-- The domain operations and search-site families of the four
sub-solvers; the final theorem is universally quantified over this
structure, so the source's phase code is an instance. -/
structure PDrv (A1 A3 A4 : Type) where
  DI : DomOps ℤ
  DQ : DomOps ℚ
  DR : DomOps RQVal
  pickI : ℕ → ℕ → PSub ℤ A1 → PickRes ℤ A1
  pickF : ℕ → ℕ → PSub ℤ A1 → PickRes ℤ A1
  pickQ : ℕ → ℕ → PSub ℚ A3 → PickRes ℚ A3
  pickR : ℕ → ℕ → PSub RQVal A4 → PickRes RQVal A4
  gfuel : ℕ
  lfuel : ℕ

/-- `ProgressiveSolver` (`src/progressive_solver.rs` lines 15–25). -/
structure PDState (A1 A3 A4 : Type) where
  target : ℤ
  maxDepth : Option ℕ
  intS : PSub ℤ A1
  fullS : PSub ℤ A1
  ratS : PSub ℚ A3
  rqS : PSub RQVal A4
  depthSearched : ℕ
  searchState : PSrchState

/-- `ProgressiveSolver::new` (lines 27–50): fresh progressive integral,
rational and rational-quadratic solvers, a fresh non-progressive full
integral solver. -/
def pNew {A1 A3 A4 : Type} (target : ℤ) (maxDepth : Option ℕ)
    (a1 a2 : A1) (a3 : A3) (a4 : A4) : PDState A1 A3 A4 :=
  { target := target, maxDepth := maxDepth,
    intS := ⟨⟨0, [], [], [], true⟩, 0, a1⟩,
    fullS := ⟨⟨0, [], [], [], false⟩, 0, a2⟩,
    ratS := ⟨⟨0, [], [], [], true⟩, 0, a3⟩,
    rqS := ⟨⟨rqFromInt 0, [], [], [], true⟩, 0, a4⟩,
    depthSearched := 0, searchState := .none }

/-- The propagation loop `for (x, expression, _) in
integral_solver.new_numbers()` (lines 101–109): each new number is
offered to the rational and rational-quadratic solvers at the current
digit count (the `new_numbers` iterator joins the table and stops at a
missing value). -/
def crossFromInt {A1 A3 A4 : Type} (E : PDrv A1 A3 A4) (digits : ℕ)
    (tbl : List (ℤ × Expr × ℕ)) :
    List ℤ → PDState A1 A3 A4 → PDState A1 A3 A4
  | [], P => P
  | x :: rest, P =>
    match glookup tbl x with
    | Option.none => P
    | some (e, _) =>
      let P1 := { P with
        ratS := { P.ratS with
          gs := (gTryInsert E.DQ E.gfuel (ratFromInt x) digits e
            P.ratS.gs).2 } }
      let P2 := { P1 with
        rqS := { P1.rqS with
          gs := (gTryInsert E.DR E.gfuel (rqFromInt x) digits e
            P1.rqS.gs).2 } }
      crossFromInt E digits tbl rest P2

/-- The propagation loop of the rational stage (lines 142–152):
integer-valued new rationals go to the integral solver, all of them to
the rational-quadratic solver. -/
def crossFromRat {A1 A3 A4 : Type} (E : PDrv A1 A3 A4) (digits : ℕ)
    (tbl : List (ℚ × Expr × ℕ)) :
    List ℚ → PDState A1 A3 A4 → PDState A1 A3 A4
  | [], P => P
  | x :: rest, P =>
    match glookup tbl x with
    | Option.none => P
    | some (e, _) =>
      let P1 :=
        match ratToInt x with
        | some xi => { P with
            intS := { P.intS with
              gs := (gTryInsert E.DI E.gfuel xi digits e P.intS.gs).2 } }
        | Option.none => P
      let P2 := { P1 with
        rqS := { P1.rqS with
          gs := (gTryInsert E.DR E.gfuel (rqFromRational x) digits e
            P1.rqS.gs).2 } }
      crossFromRat E digits tbl rest P2

/-- The propagation loop of the rational-quadratic stage (lines
167–176): integer-valued new numbers go to the integral solver,
rational-valued ones to the rational solver. -/
def crossFromRQ {A1 A3 A4 : Type} (E : PDrv A1 A3 A4) (digits : ℕ)
    (tbl : List (RQVal × Expr × ℕ)) :
    List RQVal → PDState A1 A3 A4 → PDState A1 A3 A4
  | [], P => P
  | x :: rest, P =>
    match glookup tbl x with
    | Option.none => P
    | some (e, _) =>
      let P1 :=
        match rqToInt x with
        | some xi => { P with
            intS := { P.intS with
              gs := (gTryInsert E.DI E.gfuel xi digits e P.intS.gs).2 } }
        | Option.none => P
      let P2 :=
        if rqIsRational x then
          { P1 with
            ratS := { P1.ratS with
              gs := (gTryInsert E.DQ E.gfuel (rqRationalPart x) digits e
                P1.ratS.gs).2 } }
        else P1
      crossFromRQ E digits tbl rest P2

/-- `clear_new_numbers` on the three progressive solvers (lines
190–194). -/
def clearNN {A1 A3 A4 : Type} (P : PDState A1 A3 A4) : PDState A1 A3 A4 :=
  { P with
    intS := { P.intS with gs := { P.intS.gs with newNumbers := [] } },
    ratS := { P.ratS with gs := { P.ratS.gs with newNumbers := [] } },
    rqS := { P.rqS with gs := { P.rqS.gs with newNumbers := [] } } }

/-- The rational-quadratic stage of `search` (lines 158–181). -/
def pStage4 {A1 A3 A4 : Type} (E : PDrv A1 A3 A4) (digits : ℕ)
    (P : PDState A1 A3 A4) : Bool × PDState A1 A3 A4 :=
  if P.searchState = .rationalQuadratic then
    let r := psolve E.DR E.pickR E.gfuel E.lfuel (rqFromInt P.target)
      (some digits) P.rqS
    if r.1.isSome then (true, { P with rqS := r.2 })
    else
      let P1 := { P with rqS := r.2 }
      let P2 := crossFromRQ E digits r.2.gs.table r.2.gs.newNumbers P1
      (false, { clearNN P2 with searchState := .finished })
  else (false, P)

/-- The rational stage of `search` (lines 133–157). -/
def pStage3 {A1 A3 A4 : Type} (E : PDrv A1 A3 A4) (digits : ℕ)
    (P : PDState A1 A3 A4) : Bool × PDState A1 A3 A4 :=
  if P.searchState = .rational then
    let r := psolve E.DQ E.pickQ E.gfuel E.lfuel (ratFromInt P.target)
      (some digits) P.ratS
    if r.1.isSome then (true, { P with ratS := r.2 })
    else
      let P1 := { P with ratS := r.2 }
      let P2 := crossFromRat E digits r.2.gs.table r.2.gs.newNumbers P1
      pStage4 E digits { clearNN P2 with searchState := .rationalQuadratic }
  else pStage4 E digits P

/-- The full-integral stage of `search` (lines 115–132): when `3 ≤
digits < max_depth`, the full solver is overwritten with a
non-progressive clone of the integral solver
(`clone_non_progressive_from`) and solved against the driver's
`max_depth`. -/
def pStage2 {A1 A3 A4 : Type} (E : PDrv A1 A3 A4) (digits : ℕ)
    (P : PDState A1 A3 A4) : Bool × PDState A1 A3 A4 :=
  if P.searchState = .fullIntegral then
    if 3 ≤ digits ∧ digits < P.maxDepth.getD (2 ^ 64 - 1) then
      let fs : PSub ℤ A1 :=
        ⟨{ P.intS.gs with progressive := false }, P.intS.ds, P.intS.aux⟩
      let r := psolve E.DI E.pickF E.gfuel E.lfuel P.target P.maxDepth fs
      let P1 := { P with fullS := r.2, searchState := .rational }
      if r.1.isSome then (true, P1) else pStage3 E digits P1
    else pStage3 E digits { P with searchState := .rational }
  else pStage3 E digits P

/-- The integral stage of `search` (lines 86–114). -/
def pStage1 {A1 A3 A4 : Type} (E : PDrv A1 A3 A4) (digits : ℕ)
    (P : PDState A1 A3 A4) : Bool × PDState A1 A3 A4 :=
  let st0 := if P.searchState = .none then PSrchState.integral
    else P.searchState
  let P := { P with searchState := st0 }
  if st0 = .integral then
    let r := psolve E.DI E.pickI E.gfuel E.lfuel P.target (some digits) P.intS
    if r.1.isSome then (true, { P with intS := r.2 })
    else
      let P1 := { P with intS := r.2 }
      let P2 := crossFromInt E digits r.2.gs.table r.2.gs.newNumbers P1
      pStage2 E digits { clearNN P2 with searchState := .fullIntegral }
  else pStage2 E digits P

/-- `ProgressiveSolver::search` (lines 85–188): the four stages with
their resume state machine; a full pass records `depth_searched :=
digits` and resets the state machine. -/
def pSearch {A1 A3 A4 : Type} (E : PDrv A1 A3 A4) (digits : ℕ)
    (P : PDState A1 A3 A4) : Bool × PDState A1 A3 A4 :=
  let p := pStage1 E digits P
  if p.1 then p
  else (false, { p.2 with depthSearched := digits, searchState := .none })

/-- `ProgressiveSolver::get_solution` (lines 60–72): scan the integral,
rational, rational-quadratic and full-integral tables in that order. -/
def pGetSolution {A1 A3 A4 : Type} (P : PDState A1 A3 A4) :
    Option (Expr × ℕ) :=
  match glookup P.intS.gs.table P.target with
  | some q => some q
  | Option.none =>
    match glookup P.ratS.gs.table (ratFromInt P.target) with
    | some q => some q
    | Option.none =>
      match glookup P.rqS.gs.table (rqFromInt P.target) with
      | some q => some q
      | Option.none => glookup P.fullS.gs.table P.target

/-- The loop of `ProgressiveSolver::solve_next` (lines 74–83). -/
def pSolveNextLoop {A1 A3 A4 : Type} (E : PDrv A1 A3 A4) (maxd : ℕ) :
    ℕ → PDState A1 A3 A4 → Option (Expr × ℕ) × PDState A1 A3 A4
  | digits, P =>
    if h : maxd < digits then (none, P)
    else
      let p := pSearch E digits P
      if p.1 then
        match pGetSolution p.2 with
        | some sol => (some sol, { p.2 with maxDepth := some (sol.2 - 1) })
        | Option.none => (none, p.2)
      else pSolveNextLoop E maxd (digits + 1) p.2
termination_by digits P => maxd + 1 - digits
decreasing_by omega

/-- `ProgressiveSolver::solve_next`. -/
def pSolveNext {A1 A3 A4 : Type} (E : PDrv A1 A3 A4)
    (P : PDState A1 A3 A4) : Option (Expr × ℕ) × PDState A1 A3 A4 :=
  pSolveNextLoop E (P.maxDepth.getD (2 ^ 64 - 1)) (P.depthSearched + 1) P

/-- The driver states reachable from `ProgressiveSolver::new` under
`solve_next`, the only public mutating entry point of the driver. -/
inductive PReach {A1 A3 A4 : Type} (E : PDrv A1 A3 A4) :
    PDState A1 A3 A4 → Prop
  | init (target : ℤ) (maxDepth : Option ℕ) (a1 a2 : A1) (a3 : A3) (a4 : A4) :
      PReach E (pNew target maxDepth a1 a2 a3 a4)
  | step (P : PDState A1 A3 A4) (h : PReach E P) :
      PReach E (pSolveNext E P).2

/-- Target-keyed entries of the three progressive tables have digit
count at most `b`. -/
def TargBd3 {A1 A3 A4 : Type} (P : PDState A1 A3 A4) (b : ℕ) : Prop :=
  (∀ q : Expr × ℕ, glookup P.intS.gs.table P.target = some q → q.2 ≤ b) ∧
  (∀ q : Expr × ℕ,
    glookup P.ratS.gs.table (ratFromInt P.target) = some q → q.2 ≤ b) ∧
  (∀ q : Expr × ℕ,
    glookup P.rqS.gs.table (rqFromInt P.target) = some q → q.2 ≤ b)

/-- All three progressive tables have entries of positive digit count. -/
def PD1 {A1 A3 A4 : Type} (P : PDState A1 A3 A4) : Prop :=
  TDepth1 P.intS.gs.table ∧ TDepth1 P.ratS.gs.table ∧ TDepth1 P.rqS.gs.table

/-- The target is absent from the three progressive tables. -/
def Free3 {A1 A3 A4 : Type} (P : PDState A1 A3 A4) : Prop :=
  glookup P.intS.gs.table P.target = none ∧
  glookup P.ratS.gs.table (ratFromInt P.target) = none ∧
  glookup P.rqS.gs.table (rqFromInt P.target) = none

lemma targBd3_mono {A1 A3 A4 : Type} {P : PDState A1 A3 A4} {b b' : ℕ}
    (h : TargBd3 P b) (hb : b ≤ b') : TargBd3 P b' :=
  ⟨fun q hq => le_trans (h.1 q hq) hb, fun q hq => le_trans (h.2.1 q hq) hb,
   fun q hq => le_trans (h.2.2 q hq) hb⟩

lemma targBd3_of_free3 {A1 A3 A4 : Type} {P : PDState A1 A3 A4} {b : ℕ}
    (h : Free3 P) : TargBd3 P b :=
  ⟨fun q hq => absurd (h.1.symm.trans hq) (by simp),
   fun q hq => absurd (h.2.1.symm.trans hq) (by simp),
   fun q hq => absurd (h.2.2.symm.trans hq) (by simp)⟩

/-- A firing round leaves a scan result of positive depth: within the
level unless the three progressive tables are target-free and the
result, found by the full solver, is within the driver bound. -/
def StageFire {A1 A3 A4 : Type} (digits maxd : ℕ)
    (P' : PDState A1 A3 A4) : Prop :=
  ∃ (e : Expr) (k : ℕ), pGetSolution P' = some (e, k) ∧ 1 ≤ k ∧
    (k ≤ digits ∨ (k ≤ maxd ∧ Free3 P'))

/-- What one stage of `search` guarantees at level `digits`. -/
def StageOut {A1 A3 A4 : Type} (digits : ℕ) (Q : PDState A1 A3 A4)
    (p : Bool × PDState A1 A3 A4) : Prop :=
  p.2.target = Q.target ∧ p.2.maxDepth = Q.maxDepth ∧
  p.2.depthSearched = Q.depthSearched ∧ PD1 p.2 ∧
  (p.1 = true → StageFire digits (Q.maxDepth.getD (2 ^ 64 - 1)) p.2) ∧
  (p.1 = false → TargBd3 p.2 digits)

lemma stageOut_comp {A1 A3 A4 : Type} {digits : ℕ}
    {Q Q2 : PDState A1 A3 A4} {p : Bool × PDState A1 A3 A4}
    (ht : Q2.target = Q.target) (hm : Q2.maxDepth = Q.maxDepth)
    (hs : Q2.depthSearched = Q.depthSearched)
    (h : StageOut digits Q2 p) : StageOut digits Q p := by
  obtain ⟨h1, h2, h3, h4, h5, h6⟩ := h
  refine ⟨h1.trans ht, h2.trans hm, h3.trans hs, h4, fun hf => ?_, h6⟩
  have := h5 hf
  rwa [hm] at this

lemma psolve_hit {T A : Type} [DecidableEq T] (D : DomOps T)
    (pick : ℕ → ℕ → PSub T A → PickRes T A) (gfuel lfuel : ℕ) (t : T)
    (mD : Option ℕ) (s : PSub T A) (e0 : Expr) (k0 : ℕ)
    (hlk : glookup s.gs.table t = some (e0, k0)) :
    (psolve D pick gfuel lfuel t mD s).1 =
      if k0 ≤ mD.getD (2 ^ 64 - 1) then some (e0, k0) else none := by
  show ((match glookup s.gs.table t with
    | some (e, digits) =>
        (if digits ≤ mD.getD (2 ^ 64 - 1) then some (e, digits) else none,
          ({ s with gs := { s.gs with target := t } } : PSub T A))
    | none => psolveLoop D pick gfuel lfuel (mD.getD (2 ^ 64 - 1))
        (s.ds + 1) { s with gs := { s.gs with target := t } }) :
      Option (Expr × ℕ) × PSub T A).1 =
      if k0 ≤ mD.getD (2 ^ 64 - 1) then some (e0, k0) else none
  rw [hlk]

lemma tdepth1_psolve {T A : Type} [DecidableEq T] (D : DomOps T)
    (pick : ℕ → ℕ → PSub T A → PickRes T A) (gfuel lfuel : ℕ) (t : T)
    (mD : Option ℕ) (s : PSub T A) (h1 : TDepth1 s.gs.table) :
    TDepth1 (psolve D pick gfuel lfuel t mD s).2.gs.table := by
  intro v q h
  rcases psolve_newdepth D pick gfuel lfuel t mD s v q h with h' | h'
  · exact h1 v q h'
  · exact h'.1

lemma pGetSolution_prog {A1 A3 A4 : Type} {P' : PDState A1 A3 A4} {b : ℕ}
    (h1 : PD1 P')
    (hi : ∀ q : Expr × ℕ,
      glookup P'.intS.gs.table P'.target = some q → q.2 ≤ b)
    (hr : ∀ q : Expr × ℕ,
      glookup P'.ratS.gs.table (ratFromInt P'.target) = some q → q.2 ≤ b)
    (hq : ∀ q : Expr × ℕ,
      glookup P'.rqS.gs.table (rqFromInt P'.target) = some q → q.2 ≤ b)
    (hx : ¬ Free3 P') :
    ∃ (e : Expr) (k : ℕ), pGetSolution P' = some (e, k) ∧ 1 ≤ k ∧ k ≤ b := by
  cases hI : glookup P'.intS.gs.table P'.target with
  | some q =>
    refine ⟨q.1, q.2, ?_, h1.1 P'.target q hI, hi q hI⟩
    unfold pGetSolution
    rw [hI]
  | none =>
    cases hR : glookup P'.ratS.gs.table (ratFromInt P'.target) with
    | some q =>
      refine ⟨q.1, q.2, ?_, h1.2.1 _ q hR, hr q hR⟩
      unfold pGetSolution
      rw [hI, hR]
    | none =>
      cases hQ : glookup P'.rqS.gs.table (rqFromInt P'.target) with
      | some q =>
        refine ⟨q.1, q.2, ?_, h1.2.2 _ q hQ, hq q hQ⟩
        unfold pGetSolution
        rw [hI, hR, hQ]
      | none => exact absurd ⟨hI, hR, hQ⟩ hx

lemma pGetSolution_full {A1 A3 A4 : Type} {P' : PDState A1 A3 A4} {b d : ℕ}
    (h1 : PD1 P')
    (hi : ∀ q : Expr × ℕ,
      glookup P'.intS.gs.table P'.target = some q → q.2 ≤ d)
    (hr : ∀ q : Expr × ℕ,
      glookup P'.ratS.gs.table (ratFromInt P'.target) = some q → q.2 ≤ d)
    (hq : ∀ q : Expr × ℕ,
      glookup P'.rqS.gs.table (rqFromInt P'.target) = some q → q.2 ≤ d)
    (e0 : Expr) (k0 : ℕ)
    (hf : glookup P'.fullS.gs.table P'.target = some (e0, k0))
    (hk0 : 1 ≤ k0) (hkb : k0 ≤ b) :
    ∃ (e : Expr) (k : ℕ), pGetSolution P' = some (e, k) ∧ 1 ≤ k ∧
      (k ≤ d ∨ (k ≤ b ∧ Free3 P')) := by
  cases hI : glookup P'.intS.gs.table P'.target with
  | some q =>
    refine ⟨q.1, q.2, ?_, h1.1 P'.target q hI, Or.inl (hi q hI)⟩
    unfold pGetSolution
    rw [hI]
  | none =>
    cases hR : glookup P'.ratS.gs.table (ratFromInt P'.target) with
    | some q =>
      refine ⟨q.1, q.2, ?_, h1.2.1 _ q hR, Or.inl (hr q hR)⟩
      unfold pGetSolution
      rw [hI, hR]
    | none =>
      cases hQ : glookup P'.rqS.gs.table (rqFromInt P'.target) with
      | some q =>
        refine ⟨q.1, q.2, ?_, h1.2.2 _ q hQ, Or.inl (hq q hQ)⟩
        unfold pGetSolution
        rw [hI, hR, hQ]
      | none =>
        refine ⟨e0, k0, ?_, hk0, Or.inr ⟨hkb, hI, hR, hQ⟩⟩
        unfold pGetSolution
        rw [hI, hR, hQ]
        exact hf

lemma crossFromInt_out {A1 A3 A4 : Type} (E : PDrv A1 A3 A4) (digits : ℕ)
    (tbl : List (ℤ × Expr × ℕ)) :
    ∀ (xs : List ℤ) (P : PDState A1 A3 A4),
      (crossFromInt E digits tbl xs P).target = P.target ∧
      (crossFromInt E digits tbl xs P).maxDepth = P.maxDepth ∧
      (crossFromInt E digits tbl xs P).depthSearched = P.depthSearched ∧
      (crossFromInt E digits tbl xs P).intS = P.intS ∧
      (crossFromInt E digits tbl xs P).fullS = P.fullS ∧
      TabRelD digits P.ratS.gs.table
        (crossFromInt E digits tbl xs P).ratS.gs.table ∧
      TabRelD digits P.rqS.gs.table
        (crossFromInt E digits tbl xs P).rqS.gs.table := by
  intro xs
  induction xs with
  | nil =>
    intro P
    exact ⟨rfl, rfl, rfl, rfl, rfl, tabRelD_refl _ _, tabRelD_refl _ _⟩
  | cons x rest ih =>
    intro P
    simp only [crossFromInt]
    cases hlk : glookup tbl x with
    | none =>
      exact ⟨rfl, rfl, rfl, rfl, rfl, tabRelD_refl _ _, tabRelD_refl _ _⟩
    | some pr =>
      cases pr with
      | mk e dd =>
        dsimp only
        obtain ⟨h1, h2, h3, h4, h5, h6, h7⟩ := ih ({ P with
          ratS := { P.ratS with gs := (gTryInsert E.DQ E.gfuel (ratFromInt x)
            digits e P.ratS.gs).2 },
          rqS := { P.rqS with gs := (gTryInsert E.DR E.gfuel (rqFromInt x)
            digits e P.rqS.gs).2 } })
        exact ⟨h1, h2, h3, h4, h5,
          tabRelD_trans (tabRelD_gate E.DQ E.gfuel (ratFromInt x) digits e
            P.ratS.gs) h6,
          tabRelD_trans (tabRelD_gate E.DR E.gfuel (rqFromInt x) digits e
            P.rqS.gs) h7⟩

lemma crossFromRat_out {A1 A3 A4 : Type} (E : PDrv A1 A3 A4) (digits : ℕ)
    (tbl : List (ℚ × Expr × ℕ)) :
    ∀ (xs : List ℚ) (P : PDState A1 A3 A4),
      (crossFromRat E digits tbl xs P).target = P.target ∧
      (crossFromRat E digits tbl xs P).maxDepth = P.maxDepth ∧
      (crossFromRat E digits tbl xs P).depthSearched = P.depthSearched ∧
      (crossFromRat E digits tbl xs P).ratS = P.ratS ∧
      (crossFromRat E digits tbl xs P).fullS = P.fullS ∧
      TabRelD digits P.intS.gs.table
        (crossFromRat E digits tbl xs P).intS.gs.table ∧
      TabRelD digits P.rqS.gs.table
        (crossFromRat E digits tbl xs P).rqS.gs.table := by
  intro xs
  induction xs with
  | nil =>
    intro P
    exact ⟨rfl, rfl, rfl, rfl, rfl, tabRelD_refl _ _, tabRelD_refl _ _⟩
  | cons x rest ih =>
    intro P
    simp only [crossFromRat]
    cases hlk : glookup tbl x with
    | none =>
      exact ⟨rfl, rfl, rfl, rfl, rfl, tabRelD_refl _ _, tabRelD_refl _ _⟩
    | some pr =>
      cases pr with
      | mk e dd =>
        dsimp only
        cases hti : ratToInt x with
        | some xi =>
          dsimp only
          obtain ⟨h1, h2, h3, h4, h5, h6, h7⟩ := ih ({ P with
            intS := { P.intS with gs := (gTryInsert E.DI E.gfuel xi
              digits e P.intS.gs).2 },
            rqS := { P.rqS with gs := (gTryInsert E.DR E.gfuel
              (rqFromRational x) digits e P.rqS.gs).2 } })
          exact ⟨h1, h2, h3, h4, h5,
            tabRelD_trans (tabRelD_gate E.DI E.gfuel xi digits e
              P.intS.gs) h6,
            tabRelD_trans (tabRelD_gate E.DR E.gfuel (rqFromRational x)
              digits e P.rqS.gs) h7⟩
        | none =>
          dsimp only
          obtain ⟨h1, h2, h3, h4, h5, h6, h7⟩ := ih ({ P with
            rqS := { P.rqS with gs := (gTryInsert E.DR E.gfuel
              (rqFromRational x) digits e P.rqS.gs).2 } })
          exact ⟨h1, h2, h3, h4, h5, h6,
            tabRelD_trans (tabRelD_gate E.DR E.gfuel (rqFromRational x)
              digits e P.rqS.gs) h7⟩

lemma crossFromRQ_out {A1 A3 A4 : Type} (E : PDrv A1 A3 A4) (digits : ℕ)
    (tbl : List (RQVal × Expr × ℕ)) :
    ∀ (xs : List RQVal) (P : PDState A1 A3 A4),
      (crossFromRQ E digits tbl xs P).target = P.target ∧
      (crossFromRQ E digits tbl xs P).maxDepth = P.maxDepth ∧
      (crossFromRQ E digits tbl xs P).depthSearched = P.depthSearched ∧
      (crossFromRQ E digits tbl xs P).rqS = P.rqS ∧
      (crossFromRQ E digits tbl xs P).fullS = P.fullS ∧
      TabRelD digits P.intS.gs.table
        (crossFromRQ E digits tbl xs P).intS.gs.table ∧
      TabRelD digits P.ratS.gs.table
        (crossFromRQ E digits tbl xs P).ratS.gs.table := by
  intro xs
  induction xs with
  | nil =>
    intro P
    exact ⟨rfl, rfl, rfl, rfl, rfl, tabRelD_refl _ _, tabRelD_refl _ _⟩
  | cons x rest ih =>
    intro P
    simp only [crossFromRQ]
    cases hlk : glookup tbl x with
    | none =>
      exact ⟨rfl, rfl, rfl, rfl, rfl, tabRelD_refl _ _, tabRelD_refl _ _⟩
    | some pr =>
      cases pr with
      | mk e dd =>
        dsimp only
        cases hti : rqToInt x with
        | some xi =>
          dsimp only
          by_cases hrat : rqIsRational x = true
          · rw [if_pos hrat]
            obtain ⟨h1, h2, h3, h4, h5, h6, h7⟩ := ih ({ P with
              intS := { P.intS with gs := (gTryInsert E.DI E.gfuel xi
                digits e P.intS.gs).2 },
              ratS := { P.ratS with gs := (gTryInsert E.DQ E.gfuel
                (rqRationalPart x) digits e P.ratS.gs).2 } })
            exact ⟨h1, h2, h3, h4, h5,
              tabRelD_trans (tabRelD_gate E.DI E.gfuel xi digits e
                P.intS.gs) h6,
              tabRelD_trans (tabRelD_gate E.DQ E.gfuel (rqRationalPart x)
                digits e P.ratS.gs) h7⟩
          · rw [if_neg hrat]
            obtain ⟨h1, h2, h3, h4, h5, h6, h7⟩ := ih ({ P with
              intS := { P.intS with gs := (gTryInsert E.DI E.gfuel xi
                digits e P.intS.gs).2 } })
            exact ⟨h1, h2, h3, h4, h5,
              tabRelD_trans (tabRelD_gate E.DI E.gfuel xi digits e
                P.intS.gs) h6, h7⟩
        | none =>
          dsimp only
          by_cases hrat : rqIsRational x = true
          · rw [if_pos hrat]
            obtain ⟨h1, h2, h3, h4, h5, h6, h7⟩ := ih ({ P with
              ratS := { P.ratS with gs := (gTryInsert E.DQ E.gfuel
                (rqRationalPart x) digits e P.ratS.gs).2 } })
            exact ⟨h1, h2, h3, h4, h5, h6,
              tabRelD_trans (tabRelD_gate E.DQ E.gfuel (rqRationalPart x)
                digits e P.ratS.gs) h7⟩
          · rw [if_neg hrat]
            exact ih P

lemma pStage4_out {A1 A3 A4 : Type} (E : PDrv A1 A3 A4) (digits : ℕ)
    (Q : PDState A1 A3 A4) (hd : 1 ≤ digits) (h1 : PD1 Q)
    (hb : TargBd3 Q digits) : StageOut digits Q (pStage4 E digits Q) := by
  unfold pStage4
  by_cases hs : Q.searchState = PSrchState.rationalQuadratic
  · rw [if_pos hs]
    dsimp only
    have hq' : ∀ q : Expr × ℕ,
        glookup (psolve E.DR E.pickR E.gfuel E.lfuel (rqFromInt Q.target)
          (some digits) Q.rqS).2.gs.table (rqFromInt Q.target) = some q →
        q.2 ≤ digits := by
      intro q hq
      rcases psolve_newdepth E.DR E.pickR E.gfuel E.lfuel (rqFromInt Q.target)
          (some digits) Q.rqS (rqFromInt Q.target) q hq with h' | h'
      · exact hb.2.2 q h'
      · exact h'.2
    have hpd : PD1 ({ Q with rqS := (psolve E.DR E.pickR E.gfuel E.lfuel
        (rqFromInt Q.target) (some digits) Q.rqS).2 } : PDState A1 A3 A4) :=
      ⟨h1.1, h1.2.1, tdepth1_psolve E.DR E.pickR E.gfuel E.lfuel
        (rqFromInt Q.target) (some digits) Q.rqS h1.2.2⟩
    by_cases hfire : (psolve E.DR E.pickR E.gfuel E.lfuel (rqFromInt Q.target)
        (some digits) Q.rqS).1.isSome = true
    · rw [if_pos hfire]
      obtain ⟨⟨e, k⟩, hr⟩ := Option.isSome_iff_exists.mp hfire
      have hsplit : psolve E.DR E.pickR E.gfuel E.lfuel (rqFromInt Q.target)
          (some digits) Q.rqS = (some (e, k),
            (psolve E.DR E.pickR E.gfuel E.lfuel (rqFromInt Q.target)
              (some digits) Q.rqS).2) := by
        rw [← hr]
      obtain ⟨hent, hk1, hkd⟩ := psolve_some E.DR E.pickR E.gfuel E.lfuel
        (rqFromInt Q.target) (some digits) Q.rqS h1.2.2 e k _ hsplit
      refine ⟨rfl, rfl, rfl, hpd, fun _ => ?_, fun hc => nomatch hc⟩
      obtain ⟨e', k', hres, hk1', hkd'⟩ := pGetSolution_prog hpd hb.1 hb.2.1
        hq' (fun hfree => Option.noConfusion (hfree.2.2.symm.trans hent))
      exact ⟨e', k', hres, hk1', Or.inl hkd'⟩
    · rw [if_neg hfire]
      obtain ⟨hg1, hg2, hg3, hg4, hg5, hg6, hg7⟩ := crossFromRQ_out E digits
        (psolve E.DR E.pickR E.gfuel E.lfuel (rqFromInt Q.target)
          (some digits) Q.rqS).2.gs.table
        (psolve E.DR E.pickR E.gfuel E.lfuel (rqFromInt Q.target)
          (some digits) Q.rqS).2.gs.newNumbers
        ({ Q with rqS := (psolve E.DR E.pickR E.gfuel E.lfuel
          (rqFromInt Q.target) (some digits) Q.rqS).2 } : PDState A1 A3 A4)
      unfold StageOut
      dsimp only [clearNN]
      refine ⟨hg1, hg2, hg3, ⟨tdepth1_of_tabRelD h1.1 hd hg6,
        tdepth1_of_tabRelD h1.2.1 hd hg7, ?_⟩,
        fun hc => Bool.noConfusion hc, fun _ => ?_⟩
      · rw [hg4]
        exact tdepth1_psolve E.DR E.pickR E.gfuel E.lfuel
          (rqFromInt Q.target) (some digits) Q.rqS h1.2.2
      · unfold TargBd3
        rw [hg1, hg4]
        dsimp only
        exact ⟨fun q hq => targbound_of_tabRelD hb.1 (le_refl digits) hg6 q hq,
          fun q hq => targbound_of_tabRelD hb.2.1 (le_refl digits) hg7 q hq,
          fun q hq => hq' q hq⟩
  · rw [if_neg hs]
    exact ⟨rfl, rfl, rfl, h1, fun hc => Bool.noConfusion hc, fun _ => hb⟩

lemma pStage3_out {A1 A3 A4 : Type} (E : PDrv A1 A3 A4) (digits : ℕ)
    (Q : PDState A1 A3 A4) (hd : 1 ≤ digits) (h1 : PD1 Q)
    (hb : TargBd3 Q digits) : StageOut digits Q (pStage3 E digits Q) := by
  unfold pStage3
  by_cases hs : Q.searchState = PSrchState.rational
  · rw [if_pos hs]
    dsimp only
    have hq' : ∀ q : Expr × ℕ,
        glookup (psolve E.DQ E.pickQ E.gfuel E.lfuel (ratFromInt Q.target)
          (some digits) Q.ratS).2.gs.table (ratFromInt Q.target) = some q →
        q.2 ≤ digits := by
      intro q hq
      rcases psolve_newdepth E.DQ E.pickQ E.gfuel E.lfuel (ratFromInt Q.target)
          (some digits) Q.ratS (ratFromInt Q.target) q hq with h' | h'
      · exact hb.2.1 q h'
      · exact h'.2
    by_cases hfire : (psolve E.DQ E.pickQ E.gfuel E.lfuel (ratFromInt Q.target)
        (some digits) Q.ratS).1.isSome = true
    · rw [if_pos hfire]
      have hpd : PD1 ({ Q with ratS := (psolve E.DQ E.pickQ E.gfuel E.lfuel
          (ratFromInt Q.target) (some digits) Q.ratS).2 } :
            PDState A1 A3 A4) :=
        ⟨h1.1, tdepth1_psolve E.DQ E.pickQ E.gfuel E.lfuel
          (ratFromInt Q.target) (some digits) Q.ratS h1.2.1, h1.2.2⟩
      obtain ⟨⟨e, k⟩, hr⟩ := Option.isSome_iff_exists.mp hfire
      have hsplit : psolve E.DQ E.pickQ E.gfuel E.lfuel (ratFromInt Q.target)
          (some digits) Q.ratS = (some (e, k),
            (psolve E.DQ E.pickQ E.gfuel E.lfuel (ratFromInt Q.target)
              (some digits) Q.ratS).2) := by
        rw [← hr]
      obtain ⟨hent, hk1, hkd⟩ := psolve_some E.DQ E.pickQ E.gfuel E.lfuel
        (ratFromInt Q.target) (some digits) Q.ratS h1.2.1 e k _ hsplit
      refine ⟨rfl, rfl, rfl, hpd, fun _ => ?_, fun hc => Bool.noConfusion hc⟩
      obtain ⟨e', k', hres, hk1', hkd'⟩ := pGetSolution_prog hpd hb.1 hq'
        hb.2.2 (fun hfree => Option.noConfusion (hfree.2.1.symm.trans hent))
      exact ⟨e', k', hres, hk1', Or.inl hkd'⟩
    · rw [if_neg hfire]
      obtain ⟨hg1, hg2, hg3, hg4, hg5, hg6, hg7⟩ := crossFromRat_out E digits
        (psolve E.DQ E.pickQ E.gfuel E.lfuel (ratFromInt Q.target)
          (some digits) Q.ratS).2.gs.table
        (psolve E.DQ E.pickQ E.gfuel E.lfuel (ratFromInt Q.target)
          (some digits) Q.ratS).2.gs.newNumbers
        ({ Q with ratS := (psolve E.DQ E.pickQ E.gfuel E.lfuel
          (ratFromInt Q.target) (some digits) Q.ratS).2 } : PDState A1 A3 A4)
      refine stageOut_comp hg1 hg2 hg3 (pStage4_out E digits _ hd ?_ ?_)
      · unfold PD1
        dsimp only [clearNN]
        refine ⟨tdepth1_of_tabRelD h1.1 hd hg6, ?_,
          tdepth1_of_tabRelD h1.2.2 hd hg7⟩
        rw [hg4]
        exact tdepth1_psolve E.DQ E.pickQ E.gfuel E.lfuel
          (ratFromInt Q.target) (some digits) Q.ratS h1.2.1
      · unfold TargBd3
        dsimp only [clearNN]
        rw [hg1, hg4]
        dsimp only
        exact ⟨fun q hq => targbound_of_tabRelD hb.1 (le_refl digits) hg6 q hq,
          fun q hq => hq' q hq,
          fun q hq => targbound_of_tabRelD hb.2.2 (le_refl digits) hg7 q hq⟩
  · rw [if_neg hs]
    exact pStage4_out E digits Q hd h1 hb

lemma pStage2_out {A1 A3 A4 : Type} (E : PDrv A1 A3 A4) (digits : ℕ)
    (Q : PDState A1 A3 A4) (hd : 1 ≤ digits) (h1 : PD1 Q)
    (hb : TargBd3 Q digits) : StageOut digits Q (pStage2 E digits Q) := by
  unfold pStage2
  by_cases hs : Q.searchState = PSrchState.fullIntegral
  · rw [if_pos hs]
    dsimp only
    by_cases hg : 3 ≤ digits ∧ digits < Q.maxDepth.getD (2 ^ 64 - 1)
    · rw [if_pos hg]
      by_cases hfire : (psolve E.DI E.pickF E.gfuel E.lfuel Q.target
          Q.maxDepth (⟨{ Q.intS.gs with progressive := false }, Q.intS.ds,
            Q.intS.aux⟩ : PSub ℤ A1)).1.isSome = true
      · rw [if_pos hfire]
        obtain ⟨⟨e, k⟩, hr⟩ := Option.isSome_iff_exists.mp hfire
        have hsplit : psolve E.DI E.pickF E.gfuel E.lfuel Q.target Q.maxDepth
            (⟨{ Q.intS.gs with progressive := false }, Q.intS.ds,
              Q.intS.aux⟩ : PSub ℤ A1) = (some (e, k),
              (psolve E.DI E.pickF E.gfuel E.lfuel Q.target Q.maxDepth
                (⟨{ Q.intS.gs with progressive := false }, Q.intS.ds,
                  Q.intS.aux⟩ : PSub ℤ A1)).2) := by
          rw [← hr]
        obtain ⟨hent, hk1, hkd⟩ := psolve_some E.DI E.pickF E.gfuel E.lfuel
          Q.target Q.maxDepth (⟨{ Q.intS.gs with progressive := false },
            Q.intS.ds, Q.intS.aux⟩ : PSub ℤ A1) h1.1 e k _ hsplit
        refine ⟨rfl, rfl, rfl, h1, fun _ => ?_,
          fun hc => Bool.noConfusion hc⟩
        exact pGetSolution_full h1 hb.1 hb.2.1 hb.2.2 e k hent hk1 hkd
      · rw [if_neg hfire]
        exact stageOut_comp rfl rfl rfl (pStage3_out E digits _ hd h1 hb)
    · rw [if_neg hg]
      exact stageOut_comp rfl rfl rfl (pStage3_out E digits _ hd h1 hb)
  · rw [if_neg hs]
    exact pStage3_out E digits Q hd h1 hb

lemma pStage1_body {A1 A3 A4 : Type} (E : PDrv A1 A3 A4) (digits : ℕ)
    (Q : PDState A1 A3 A4) (hd : 1 ≤ digits) (h1 : PD1 Q)
    (hb : TargBd3 Q (digits - 1)) :
    StageOut digits Q
      (if (psolve E.DI E.pickI E.gfuel E.lfuel Q.target (some digits)
          Q.intS).1.isSome = true then
        (true, { Q with intS := (psolve E.DI E.pickI E.gfuel E.lfuel Q.target
          (some digits) Q.intS).2 })
      else
        pStage2 E digits
          { clearNN (crossFromInt E digits
              (psolve E.DI E.pickI E.gfuel E.lfuel Q.target (some digits)
                Q.intS).2.gs.table
              (psolve E.DI E.pickI E.gfuel E.lfuel Q.target (some digits)
                Q.intS).2.gs.newNumbers
              { Q with intS := (psolve E.DI E.pickI E.gfuel E.lfuel Q.target
                (some digits) Q.intS).2 }) with
            searchState := PSrchState.fullIntegral }) := by
  have hbw : TargBd3 Q digits := targBd3_mono hb (by omega)
  have hq' : ∀ q : Expr × ℕ,
      glookup (psolve E.DI E.pickI E.gfuel E.lfuel Q.target
        (some digits) Q.intS).2.gs.table Q.target = some q →
      q.2 ≤ digits := by
    intro q hq
    rcases psolve_newdepth E.DI E.pickI E.gfuel E.lfuel Q.target
        (some digits) Q.intS Q.target q hq with h' | h'
    · exact hbw.1 q h'
    · exact h'.2
  by_cases hfire : (psolve E.DI E.pickI E.gfuel E.lfuel Q.target
      (some digits) Q.intS).1.isSome = true
  · rw [if_pos hfire]
    have hpd : PD1 ({ Q with intS := (psolve E.DI E.pickI E.gfuel E.lfuel
        Q.target (some digits) Q.intS).2 } : PDState A1 A3 A4) :=
      ⟨tdepth1_psolve E.DI E.pickI E.gfuel E.lfuel Q.target (some digits)
        Q.intS h1.1, h1.2.1, h1.2.2⟩
    obtain ⟨⟨e, k⟩, hr⟩ := Option.isSome_iff_exists.mp hfire
    have hsplit : psolve E.DI E.pickI E.gfuel E.lfuel Q.target (some digits)
        Q.intS = (some (e, k), (psolve E.DI E.pickI E.gfuel E.lfuel Q.target
          (some digits) Q.intS).2) := by
      rw [← hr]
    obtain ⟨hent, hk1, hkd⟩ := psolve_some E.DI E.pickI E.gfuel E.lfuel
      Q.target (some digits) Q.intS h1.1 e k _ hsplit
    refine ⟨rfl, rfl, rfl, hpd, fun _ => ?_, fun hc => Bool.noConfusion hc⟩
    obtain ⟨e', k', hres, hk1', hkd'⟩ := pGetSolution_prog hpd hq' hbw.2.1
      hbw.2.2 (fun hfree => Option.noConfusion (hfree.1.symm.trans hent))
    exact ⟨e', k', hres, hk1', Or.inl hkd'⟩
  · rw [if_neg hfire]
    obtain ⟨hg1, hg2, hg3, hg4, hg5, hg6, hg7⟩ := crossFromInt_out E digits
      (psolve E.DI E.pickI E.gfuel E.lfuel Q.target
        (some digits) Q.intS).2.gs.table
      (psolve E.DI E.pickI E.gfuel E.lfuel Q.target
        (some digits) Q.intS).2.gs.newNumbers
      ({ Q with intS := (psolve E.DI E.pickI E.gfuel E.lfuel Q.target
        (some digits) Q.intS).2 } : PDState A1 A3 A4)
    refine stageOut_comp hg1 hg2 hg3 (pStage2_out E digits _ hd ?_ ?_)
    · unfold PD1
      dsimp only [clearNN]
      refine ⟨?_, tdepth1_of_tabRelD h1.2.1 hd hg6,
        tdepth1_of_tabRelD h1.2.2 hd hg7⟩
      rw [hg4]
      exact tdepth1_psolve E.DI E.pickI E.gfuel E.lfuel Q.target
        (some digits) Q.intS h1.1
    · unfold TargBd3
      dsimp only [clearNN]
      rw [hg1, hg4]
      dsimp only
      exact ⟨fun q hq => hq' q hq,
        fun q hq => targbound_of_tabRelD hbw.2.1 (le_refl digits) hg6 q hq,
        fun q hq => targbound_of_tabRelD hbw.2.2 (le_refl digits) hg7 q hq⟩

lemma pStage1_out {A1 A3 A4 : Type} (E : PDrv A1 A3 A4) (digits : ℕ)
    (Q : PDState A1 A3 A4) (hd : 1 ≤ digits) (h1 : PD1 Q)
    (hb : TargBd3 Q (digits - 1)) : StageOut digits Q (pStage1 E digits Q) := by
  unfold pStage1
  dsimp only
  by_cases hn : Q.searchState = PSrchState.none
  · rw [if_pos hn, if_pos rfl]
    exact stageOut_comp rfl rfl rfl
      (pStage1_body E digits ({ Q with searchState := PSrchState.integral })
        hd h1 hb)
  · rw [if_neg hn]
    by_cases hi : Q.searchState = PSrchState.integral
    · rw [if_pos hi]
      exact pStage1_body E digits Q hd h1 hb
    · rw [if_neg hi]
      exact pStage2_out E digits Q hd h1 (targBd3_mono hb (by omega))

lemma pSearch_out {A1 A3 A4 : Type} (E : PDrv A1 A3 A4) (digits : ℕ)
    (Q : PDState A1 A3 A4) (hd : 1 ≤ digits) (h1 : PD1 Q)
    (hb : TargBd3 Q (digits - 1)) :
    (pSearch E digits Q).2.target = Q.target ∧
    (pSearch E digits Q).2.maxDepth = Q.maxDepth ∧
    PD1 (pSearch E digits Q).2 ∧
    ((pSearch E digits Q).1 = true →
      (pSearch E digits Q).2.depthSearched = Q.depthSearched ∧
      StageFire digits (Q.maxDepth.getD (2 ^ 64 - 1)) (pSearch E digits Q).2) ∧
    ((pSearch E digits Q).1 = false →
      (pSearch E digits Q).2.depthSearched = digits ∧
      TargBd3 (pSearch E digits Q).2 digits) := by
  obtain ⟨h1', h2', h3', h4', h5', h6'⟩ := pStage1_out E digits Q hd h1 hb
  unfold pSearch
  dsimp only
  by_cases hf : (pStage1 E digits Q).1 = true
  · rw [if_pos hf]
    exact ⟨h1', h2', h4', fun _ => ⟨h3', h5' hf⟩,
      fun hc => absurd (hf.symm.trans hc) (by simp)⟩
  · rw [if_neg hf]
    have hff : (pStage1 E digits Q).1 = false := by
      cases hq : (pStage1 E digits Q).1
      · rfl
      · exact absurd hq hf
    exact ⟨h1', h2', h4', fun hc => Bool.noConfusion hc,
      fun _ => ⟨rfl, h6' hff⟩⟩

lemma pSolveNextLoop_eq {A1 A3 A4 : Type} (E : PDrv A1 A3 A4)
    (maxd digits : ℕ) (P : PDState A1 A3 A4) :
    pSolveNextLoop E maxd digits P =
      if maxd < digits then (none, P)
      else if (pSearch E digits P).1 = true then
        match pGetSolution (pSearch E digits P).2 with
        | some sol => (some sol,
            { (pSearch E digits P).2 with maxDepth := some (sol.2 - 1) })
        | Option.none => (none, (pSearch E digits P).2)
      else pSolveNextLoop E maxd (digits + 1) (pSearch E digits P).2 := by
  rw [pSolveNextLoop]
  by_cases hd : maxd < digits
  · rw [dif_pos hd, if_pos hd]
  · rw [dif_neg hd, if_neg hd]

/-- The driver invariant: positive digit counts everywhere, and either
the loop range is already empty or every target-keyed entry of the
progressive tables lies within the searched depth. -/
def PInv {A1 A3 A4 : Type} (P : PDState A1 A3 A4) : Prop :=
  PD1 P ∧ (P.maxDepth.getD (2 ^ 64 - 1) < P.depthSearched + 1 ∨
    TargBd3 P P.depthSearched)

lemma pSolveNextLoop_some_spec {A1 A3 A4 : Type} (E : PDrv A1 A3 A4)
    (maxd : ℕ) :
    ∀ (k digits : ℕ) (P : PDState A1 A3 A4),
      maxd + 1 ≤ digits + k → 1 ≤ digits →
      P.depthSearched = digits - 1 →
      P.maxDepth.getD (2 ^ 64 - 1) = maxd →
      PD1 P → TargBd3 P (digits - 1) →
      ∀ (e1 : Expr) (k1 : ℕ) (P1 : PDState A1 A3 A4),
      pSolveNextLoop E maxd digits P = (some (e1, k1), P1) →
      1 ≤ k1 ∧ k1 ≤ maxd ∧ P1.maxDepth = some (k1 - 1) ∧
      P1.target = P.target ∧ PD1 P1 ∧
      (k1 - 1 < P1.depthSearched + 1 ∨ TargBd3 P1 P1.depthSearched) := by
  intro k
  induction k with
  | zero =>
    intro digits P hk hd hds hmd h1 hb e1 k1 P1 h
    rw [pSolveNextLoop_eq, if_pos (show maxd < digits by omega)] at h
    exact absurd (congrArg Prod.fst h) (by simp)
  | succ k ih =>
    intro digits P hk hd hds hmd h1 hb e1 k1 P1 h
    by_cases hlt : maxd < digits
    · rw [pSolveNextLoop_eq, if_pos hlt] at h
      exact absurd (congrArg Prod.fst h) (by simp)
    · rw [pSolveNextLoop_eq, if_neg hlt] at h
      obtain ⟨ht, hm, hp1, hfire, hnof⟩ := pSearch_out E digits P hd h1 hb
      by_cases hf : (pSearch E digits P).1 = true
      · rw [if_pos hf] at h
        obtain ⟨hdsp, hsf⟩ := hfire hf
        unfold StageFire at hsf
        obtain ⟨e, kk, hsol, hk1, hdis⟩ := hsf
        rw [hsol] at h
        dsimp only at h
        have hfst : some (e, kk) = some (e1, k1) := congrArg Prod.fst h
        have hpq : (e, kk) = (e1, k1) := Option.some_inj.mp hfst
        cases hpq
        have hsnd : ({ (pSearch E digits P).2 with
            maxDepth := some (k1 - 1) } : PDState A1 A3 A4) = P1 :=
          congrArg Prod.snd h
        cases hsnd
        have hdd : ({ (pSearch E digits P).2 with
            maxDepth := some (k1 - 1) } : PDState A1 A3 A4).depthSearched =
            digits - 1 := hdsp.trans hds
        refine ⟨hk1, ?_, rfl, ht, hp1, ?_⟩
        · rcases hdis with hdig | ⟨hmx, _⟩
          · omega
          · rw [hmd] at hmx
            exact hmx
        · rcases hdis with hdig | ⟨_, hfree⟩
          · left
            omega
          · right
            exact targBd3_of_free3 hfree
      · rw [if_neg hf] at h
        have hff : (pSearch E digits P).1 = false := by
          cases hq : (pSearch E digits P).1
          · rfl
          · exact absurd hq hf
        obtain ⟨hds2, hb2⟩ := hnof hff
        obtain ⟨c1, c2, c3, c4, c5, c6⟩ := ih (digits + 1)
          (pSearch E digits P).2 (by omega) (by omega) hds2
          (by rw [hm]; exact hmd) hp1 hb2 e1 k1 P1 h
        exact ⟨c1, c2, c3, c4.trans ht, c5, c6⟩

lemma pSolveNextLoop_none_spec {A1 A3 A4 : Type} (E : PDrv A1 A3 A4)
    (maxd : ℕ) :
    ∀ (k digits : ℕ) (P : PDState A1 A3 A4),
      maxd + 1 ≤ digits + k → 1 ≤ digits →
      P.depthSearched = digits - 1 →
      P.maxDepth.getD (2 ^ 64 - 1) = maxd →
      PD1 P → TargBd3 P (digits - 1) →
      ∀ P1 : PDState A1 A3 A4,
      pSolveNextLoop E maxd digits P = (none, P1) →
      P1.maxDepth = P.maxDepth ∧ PD1 P1 ∧
      (maxd < P1.depthSearched + 1 ∨ TargBd3 P1 P1.depthSearched) := by
  intro k
  induction k with
  | zero =>
    intro digits P hk hd hds hmd h1 hb P1 h
    rw [pSolveNextLoop_eq, if_pos (show maxd < digits by omega)] at h
    have hsnd : P = P1 := congrArg Prod.snd h
    cases hsnd
    refine ⟨rfl, h1, Or.inl ?_⟩
    omega
  | succ k ih =>
    intro digits P hk hd hds hmd h1 hb P1 h
    by_cases hlt : maxd < digits
    · rw [pSolveNextLoop_eq, if_pos hlt] at h
      have hsnd : P = P1 := congrArg Prod.snd h
      cases hsnd
      refine ⟨rfl, h1, Or.inl ?_⟩
      omega
    · rw [pSolveNextLoop_eq, if_neg hlt] at h
      obtain ⟨ht, hm, hp1, hfire, hnof⟩ := pSearch_out E digits P hd h1 hb
      by_cases hf : (pSearch E digits P).1 = true
      · rw [if_pos hf] at h
        obtain ⟨hdsp, hsf⟩ := hfire hf
        unfold StageFire at hsf
        obtain ⟨e, kk, hsol, hk1, hdis⟩ := hsf
        rw [hsol] at h
        dsimp only at h
        exact absurd (congrArg Prod.fst h) (by simp)
      · rw [if_neg hf] at h
        have hff : (pSearch E digits P).1 = false := by
          cases hq : (pSearch E digits P).1
          · rfl
          · exact absurd hq hf
        obtain ⟨hds2, hb2⟩ := hnof hff
        obtain ⟨hmd1, hp11, hdis1⟩ := ih (digits + 1) (pSearch E digits P).2
          (by omega) (by omega) hds2 (by rw [hm]; exact hmd) hp1 hb2 P1 h
        exact ⟨hmd1.trans hm, hp11, hdis1⟩

lemma preach_pinv {A1 A3 A4 : Type} (E : PDrv A1 A3 A4)
    (P : PDState A1 A3 A4) (h : PReach E P) : PInv P := by
  induction h with
  | init target maxDepth a1 a2 a3 a4 =>
    constructor
    · exact ⟨fun v q hq => by simp [pNew, glookup] at hq,
        fun v q hq => by simp [pNew, glookup] at hq,
        fun v q hq => by simp [pNew, glookup] at hq⟩
    · exact Or.inr ⟨fun q hq => by simp [pNew, glookup] at hq,
        fun q hq => by simp [pNew, glookup] at hq,
        fun q hq => by simp [pNew, glookup] at hq⟩
  | step P hP ih =>
    obtain ⟨h1, hdis⟩ := ih
    unfold pSolveNext
    by_cases hdead : P.maxDepth.getD (2 ^ 64 - 1) < P.depthSearched + 1
    · rw [pSolveNextLoop_eq, if_pos hdead]
      exact ⟨h1, hdis⟩
    · have hb : TargBd3 P P.depthSearched := hdis.resolve_left hdead
      cases hres : pSolveNextLoop E (P.maxDepth.getD (2 ^ 64 - 1))
          (P.depthSearched + 1) P with
      | mk r P1 =>
        cases r with
        | none =>
          obtain ⟨hmd1, hp11, hdis1⟩ := pSolveNextLoop_none_spec E
            (P.maxDepth.getD (2 ^ 64 - 1)) (P.maxDepth.getD (2 ^ 64 - 1) + 1)
            (P.depthSearched + 1) P (by omega) (by omega) rfl rfl h1 hb P1 hres
          refine ⟨hp11, ?_⟩
          rw [hmd1]
          exact hdis1
        | some sol =>
          cases sol with
          | mk e1 k1 =>
            obtain ⟨hk1, hkm, hmd1, htg, hp11, hdis1⟩ :=
              pSolveNextLoop_some_spec E (P.maxDepth.getD (2 ^ 64 - 1))
                (P.maxDepth.getD (2 ^ 64 - 1) + 1) (P.depthSearched + 1) P
                (by omega) (by omega) rfl rfl h1 hb e1 k1 P1 hres
            refine ⟨hp11, ?_⟩
            rw [hmd1]
            simpa using hdis1

/-- **C5**: for a fixed target, successive `Some` results of
`ProgressiveSolver::solve_next` (`src/progressive_solver.rs` lines
74–83) carry strictly decreasing depths.  For any reachable driver
state, a yield `(e1, k1)` has `1 ≤ k1` and `k1` within the current
effective `max_depth`; the driver lowers `max_depth` to `k1 - 1` before
returning, so the next call searches only depths up to `k1 - 1`, and
any further yield `(e2, k2)` satisfies `k2 ≤ k1 - 1 < k1`. -/
theorem progressive_solve_next_decreasing {A1 A3 A4 : Type}
    (E : PDrv A1 A3 A4) (P : PDState A1 A3 A4) (hre : PReach E P)
    (e1 : Expr) (k1 : ℕ) (P1 : PDState A1 A3 A4)
    (h1 : pSolveNext E P = (some (e1, k1), P1)) :
    1 ≤ k1 ∧ k1 ≤ P.maxDepth.getD (2 ^ 64 - 1) ∧
    P1.maxDepth = some (k1 - 1) ∧
    pSolveNext E P1 = pSolveNextLoop E (k1 - 1) (P1.depthSearched + 1) P1 ∧
    ∀ (e2 : Expr) (k2 : ℕ) (P2 : PDState A1 A3 A4),
      pSolveNext E P1 = (some (e2, k2), P2) → k2 ≤ k1 - 1 ∧ k2 < k1 := by
  obtain ⟨hp1, hdis⟩ := preach_pinv E P hre
  unfold pSolveNext at h1
  by_cases hdead : P.maxDepth.getD (2 ^ 64 - 1) < P.depthSearched + 1
  · rw [pSolveNextLoop_eq, if_pos hdead] at h1
    exact absurd (congrArg Prod.fst h1) (by simp)
  · have hb : TargBd3 P P.depthSearched := hdis.resolve_left hdead
    obtain ⟨hk1, hkm, hmd1, htg, hp11, hinv1⟩ :=
      pSolveNextLoop_some_spec E (P.maxDepth.getD (2 ^ 64 - 1))
        (P.maxDepth.getD (2 ^ 64 - 1) + 1) (P.depthSearched + 1) P
        (by omega) (by omega) rfl rfl hp1 hb e1 k1 P1 h1
    refine ⟨hk1, hkm, hmd1, ?_, ?_⟩
    · unfold pSolveNext
      rw [hmd1]
      simp only [Option.getD_some]
    · intro e2 k2 P2 h2
      unfold pSolveNext at h2
      rw [hmd1] at h2
      simp only [Option.getD_some] at h2
      by_cases hdead1 : k1 - 1 < P1.depthSearched + 1
      · rw [pSolveNextLoop_eq, if_pos hdead1] at h2
        exact absurd (congrArg Prod.fst h2) (by simp)
      · have hb1 : TargBd3 P1 P1.depthSearched := hinv1.resolve_left hdead1
        obtain ⟨hk2, hkm2, _, _, _, _⟩ :=
          pSolveNextLoop_some_spec E (k1 - 1) (k1 - 1 + 1)
            (P1.depthSearched + 1) P1 (by omega) (by omega) rfl
            (by rw [hmd1]; simp only [Option.getD_some]) hp11 hb1 e2 k2 P2 h2
        exact ⟨hkm2, by omega⟩

/-! Concrete driver instance used to exercise the theorem: the integral
search sites offer the literal `1` at offset `0`, the other solvers
offer nothing. -/

def wPickI : ℕ → ℕ → PSub ℤ Unit → PickRes ℤ Unit :=
  fun _ _ _ => PickRes.site 1 (Expr.number 1) 0 ()

def wStop {T : Type} : ℕ → ℕ → PSub T Unit → PickRes T Unit :=
  fun _ _ s => PickRes.stop s.aux

def wDrv : PDrv Unit Unit Unit where
  DI := domI64 10 2
  DQ := ⟨fun _ => false, fun _ => false, fun _ => Option.none,
    fun _ => Option.none⟩
  DR := ⟨fun _ => false, fun _ => false, fun _ => Option.none,
    fun _ => Option.none⟩
  pickI := wPickI
  pickF := wStop
  pickQ := wStop
  pickR := wStop
  gfuel := 1
  lfuel := 1

def wP0 : PDState Unit Unit Unit := pNew 1 (some 5) () () () ()

def wS1 : PSub ℤ Unit :=
  ⟨⟨1, [(1, Expr.number 1, 1)], gpushAt [] 1 1, [1], true⟩, 0, ()⟩

def wPF : PDState Unit Unit Unit :=
  { target := 1, maxDepth := some 5, intS := wS1,
    fullS := ⟨⟨0, [], [], [], false⟩, 0, ()⟩,
    ratS := ⟨⟨0, [], [], [], true⟩, 0, ()⟩,
    rqS := ⟨⟨rqFromInt 0, [], [], [], true⟩, 0, ()⟩,
    depthSearched := 0, searchState := PSrchState.integral }

def wP1 : PDState Unit Unit Unit := { wPF with maxDepth := some 0 }

lemma wPsolve_eq : psolve (domI64 10 2) wPickI 1 1 (1 : ℤ) (some 1)
    (⟨⟨0, [], [], [], true⟩, 0, ()⟩ : PSub ℤ Unit) =
    (some (Expr.number 1, 1), wS1) := by
  show psolveLoop (domI64 10 2) wPickI 1 1 1 1
    (⟨⟨1, [], [], [], true⟩, 0, ()⟩ : PSub ℤ Unit) =
    (some (Expr.number 1, 1), wS1)
  rw [psolveLoop_eq]
  rfl

lemma wStage1_eq : pStage1 wDrv 1 wP0 = (true, wPF) := by
  unfold pStage1 wP0 pNew
  dsimp only [wDrv]
  simp only [reduceIte]
  rw [wPsolve_eq]
  rfl

lemma wSearch_eq : pSearch wDrv 1 wP0 = (true, wPF) := by
  unfold pSearch
  rw [wStage1_eq]
  rfl

lemma wYield : pSolveNext wDrv wP0 = (some (Expr.number 1, 1), wP1) := by
  show pSolveNextLoop wDrv 5 1 wP0 = (some (Expr.number 1, 1), wP1)
  rw [pSolveNextLoop_eq, wSearch_eq]
  rfl

/-- Witness: the theorem applied to the concrete driver above, whose
first `solve_next` call yields depth `1` and lowers `max_depth` from
`5` to `0`. -/
theorem progressive_solve_next_decreasing_witness :
    1 ≤ (1 : ℕ) ∧ 1 ≤ wP0.maxDepth.getD (2 ^ 64 - 1) ∧
    wP1.maxDepth = some (1 - 1) ∧
    pSolveNext wDrv wP1 =
      pSolveNextLoop wDrv (1 - 1) (wP1.depthSearched + 1) wP1 := by
  have h := progressive_solve_next_decreasing wDrv wP0
    (PReach.init 1 (some 5) () () () ()) (Expr.number 1) 1 wP1 wYield
  exact ⟨h.1, h.2.1, h.2.2.1, h.2.2.2.1⟩

/-! ## C8: the value dynamics of the `Rational`, `IntegralQuadratic`
and `RationalQuadratic` solvers

The range predicates of `range_check.rs` compare the signed
numerator/denominator/integral part against `1 << max_digits`; the
claim's `|·|` bounds additionally need every stored component to be
positive, which is a property of the value dynamics.  Each solver's
table is mutated only through `try_insert`, whose candidate values come
from `concat`, the unary walk and the binary phases of its domain
(`src/solver/unary_operation.rs`, `src/solver/binary_operation.rs`),
with operands drawn from the current table.  The per-domain closures
below transcribe every candidate value of those arms exactly; guards
that matter for the sign (zero tests, sign branches, divisibility
checks, operand bounds) are kept, while guards that merely shrink the
candidate set further (expression shapes, floating-point digit
estimates, progressive-mode switches, resume positions) are dropped,
which only enlarges the set of states the invariant is proved for. -/

/-- `PRIMES` (`src/quadratic/mod.rs` line 6). -/
def primes : Fin 4 → ℤ
  | ⟨0, _⟩ => 2
  | ⟨1, _⟩ => 3
  | ⟨2, _⟩ => 5
  | ⟨3, _⟩ => 7

lemma primes_pos : ∀ i : Fin 4, 0 < primes i := by decide

lemma primes_coprime :
    ∀ i j : Fin 4, i ≠ j → Int.gcd (primes i) (primes j) = 1 := by decide

/-- Membership of a value in a gate table. -/
def GMem {T : Type} [DecidableEq T] (tbl : List (T × Expr × ℕ)) (x : T) :
    Prop :=
  (glookup tbl x).isSome = true

lemma repunit_ge_one {n : ℤ} {d : ℕ} (hd : 1 ≤ d) (hn : 1 ≤ n) :
    1 ≤ repunit n d := by
  rw [repunit_eq]
  have h1 := repOnes_pos hd
  nlinarith

/-- The gate preserves any value predicate respected by the `sqrt` and
`factorial` chains. -/
lemma gTryInsert_val_inv {T : Type} [DecidableEq T] (D : DomOps T)
    (V : T → Prop)
    (hsq : ∀ x y, D.sqrtOp x = some y → V x → V y)
    (hfa : ∀ x w, D.factOp x = some w → V x → V w)
    (fuel : ℕ) (x : T) (d : ℕ) (e : Expr) (st : GState T) (hx : V x)
    (hst : ∀ v e' d', glookup st.table v = some (e', d') → V v) :
    ∀ v e' d', glookup (gTryInsert D fuel x d e st).2.table v = some (e', d') →
      V v := by
  induction fuel generalizing x d e st with
  | zero => exact hst
  | succ fuel ih =>
    simp only [gTryInsert]
    by_cases hg : ¬ D.range x ∨ (glookup st.table x).isSome
    · rw [if_pos hg]
      exact hst
    · rw [if_neg hg]
      have h1 : ∀ v e' d',
          glookup ((x, e, d) :: st.table) v = some (e', d') → V v := by
        intro v e' d' h
        rcases glookup_cons_inv h with ⟨rfl, -⟩ | h
        · exact hx
        · exact hst _ _ _ h
      have h2 : ∀ v e' d',
          glookup (match D.sqrtOp x with
            | some y => gTryInsert D fuel y d (Expr.fromSqrt e 1)
                { st with
                    table := (x, e, d) :: st.table
                    byDepth := gpushAt st.byDepth d x
                    newNumbers :=
                      if st.progressive then st.newNumbers ++ [x]
                      else st.newNumbers }
            | none => (false,
                { st with
                    table := (x, e, d) :: st.table
                    byDepth := gpushAt st.byDepth d x
                    newNumbers :=
                      if st.progressive then st.newNumbers ++ [x]
                      else st.newNumbers })).2.table v = some (e', d') →
            V v := by
        cases hs : D.sqrtOp x with
        | some y => exact ih y d (Expr.fromSqrt e 1) _ (hsq x y hs hx) h1
        | none => exact h1
      by_cases hi : D.isInt x = true
      · rw [if_pos hi]
        cases hf : D.factOp x with
        | some w => exact ih w d (Expr.fromFactorial e) _ (hfa x w hf hx) h2
        | none => exact h2
      · rw [if_neg hi]
        exact h2

/-! ### The `Rational` solver (`Solver<Rational64>`): values are exact
rationals.  `RangeCheck<Rational>` (`src/solver/range_check.rs` lines
21–27) bounds the numerator and denominator by `1 << max_digits`. -/

/-- The domain operations of the `Rational` solver: the range check,
`is_int` (`is_integer`), the chained `sqrt`
(`src/solver/unary_operation.rs` lines 154–166: square roots of
numerator and denominator) and `factorial` (lines 79–91). -/
def domQ (md : ℕ) (mf : ℤ) : DomOps ℚ where
  range x := decide (x.num ≤ 2 ^ md) && decide ((x.den : ℤ) ≤ 2 ^ md)
  isInt x := x.den == 1
  sqrtOp x :=
    match intSqrt? x.num, intSqrt? (x.den : ℤ) with
    | some p, some q => some ((p : ℚ) / (q : ℚ))
    | _, _ => none
  factOp x := if x.den = 1 ∧ x.num < mf then some ((factorial x.num : ℚ))
    else none

/-- The candidate values the `Rational` searcher feeds to the gate:
`concat` (`unary_operation.rs` lines 67–73), the `division_diff_one`
family (lines 168–231, with its sign guards), and the binary arms of
`binary_operation.rs` lines 219–385 — add, subtract (inserting the
positive difference), multiply, the `x/x = 1` rule, divide and its
inverse, power and its inverse (the exponent selected by the
floating-point clamping loop is abstracted to an arbitrary integer),
and `factorial_divide` with its operand swap and bound `y_int > 2`. -/
def qArm (n : ℤ) (tbl : List (ℚ × Expr × ℕ)) (z : ℚ) : Prop :=
  (∃ k : ℕ, 1 ≤ k ∧ z = (repunit n k : ℚ)) ∨
  (∃ x, GMem tbl x ∧
    ((x.num < (x.den : ℤ) ∧ (z = 1 - x ∨ z = (1 - x)⁻¹)) ∨
     ((x.den : ℤ) < x.num ∧ (z = x - 1 ∨ z = (x - 1)⁻¹)) ∨
     z = x + 1 ∨ z = (x + 1)⁻¹)) ∨
  (∃ x y, GMem tbl x ∧ GMem tbl y ∧
    (z = x + y ∨
     (x - y ≠ 0 ∧ z = (if x - y < 0 then -(x - y) else x - y)) ∨
     z = x * y ∨
     (x = y ∧ x.den = 1 ∧ x.num = n ∧ z = 1) ∨
     (x ≠ y ∧ (z = x / y ∨ z = (x / y)⁻¹)) ∨
     (∃ e : ℤ, z = x ^ e ∨ z = (x ^ e)⁻¹) ∨
     (2 < min x.num y.num ∧
       (z = (factorial_divide (max x.num y.num) (min x.num y.num) : ℚ) ∨
        z = ((factorial_divide (max x.num y.num) (min x.num y.num) : ℚ))⁻¹))))

/-- The states of the `Rational` solver reachable from a fresh solver:
the target moves with each `solve` call, and the table only grows by
gate insertions of arm values. -/
inductive QReach (md : ℕ) (mf n : ℤ) : GState ℚ → Prop
  | init (prog : Bool) : QReach md mf n ⟨0, [], [], [], prog⟩
  | retarget (t : ℚ) {st : GState ℚ} (h : QReach md mf n st) :
      QReach md mf n { st with target := t }
  | step (fuel : ℕ) (x : ℚ) (d : ℕ) (e : Expr) {st : GState ℚ}
      (hx : qArm n st.table x) (h : QReach md mf n st) :
      QReach md mf n (gTryInsert (domQ md mf) fuel x d e st).2

lemma qArm_pos {n : ℤ} (hn : 1 ≤ n)
    {tbl : List (ℚ × Expr × ℕ)}
    (htbl : ∀ v e d, glookup tbl v = some (e, d) → 0 < v)
    {z : ℚ} (hz : qArm n tbl z) : 0 < z := by
  have hmem : ∀ x : ℚ, GMem tbl x → 0 < x := by
    intro x hx
    unfold GMem at hx
    obtain ⟨⟨e, d⟩, hq⟩ := Option.isSome_iff_exists.mp hx
    exact htbl x e d hq
  rcases hz with ⟨k, hk, rfl⟩ | ⟨x, hx, hc⟩ | ⟨x, y, hx, hy, hc⟩
  · exact_mod_cast lt_of_lt_of_le one_pos (repunit_ge_one hk hn)
  · have hxp := hmem x hx
    have hx1 : x.num < (x.den : ℤ) → x < 1 := by
      intro h
      rw [← Rat.num_div_den x, div_lt_one (by exact_mod_cast x.pos)]
      exact_mod_cast h
    have h1x : (x.den : ℤ) < x.num → 1 < x := by
      intro h
      rw [← Rat.num_div_den x]
      rw [lt_div_iff₀ (by exact_mod_cast x.pos)]
      rw [one_mul]
      exact_mod_cast h
    rcases hc with ⟨hlt, rfl | rfl⟩ | ⟨hlt, rfl | rfl⟩ | rfl | rfl
    · linarith [hx1 hlt]
    · exact inv_pos.mpr (by linarith [hx1 hlt])
    · linarith [h1x hlt]
    · exact inv_pos.mpr (by linarith [h1x hlt])
    · linarith
    · exact inv_pos.mpr (by linarith)
  · have hxp := hmem x hx
    have hyp := hmem y hy
    rcases hc with rfl | ⟨hne, rfl⟩ | rfl | ⟨-, -, -, rfl⟩ |
        ⟨-, rfl | rfl⟩ | ⟨e, rfl | rfl⟩ | ⟨hfd, rfl | rfl⟩
    · linarith
    · by_cases hlt : x - y < 0
      · rw [if_pos hlt]
        linarith
      · rw [if_neg hlt]
        rcases lt_or_eq_of_le (not_lt.mp hlt) with h | h
        · linarith
        · exact absurd h.symm hne
    · exact mul_pos hxp hyp
    · exact one_pos
    · exact div_pos hxp hyp
    · exact inv_pos.mpr (div_pos hxp hyp)
    · exact zpow_pos hxp e
    · exact inv_pos.mpr (zpow_pos hxp e)
    · exact_mod_cast lt_of_lt_of_le one_pos
        (factorial_divide_pos (by omega : (0 : ℤ) ≤ min x.num y.num))
    · exact inv_pos.mpr (by
        exact_mod_cast lt_of_lt_of_le one_pos
          (factorial_divide_pos (by omega : (0 : ℤ) ≤ min x.num y.num)))

lemma domQ_sqrt_pos (md : ℕ) (mf : ℤ) :
    ∀ x y : ℚ, (domQ md mf).sqrtOp x = some y → 0 < x → 0 < y := by
  intro x y h hx
  unfold domQ at h
  dsimp only at h
  cases hsn : intSqrt? x.num with
  | none => rw [hsn] at h; exact absurd h (by simp)
  | some p =>
    cases hsd : intSqrt? (x.den : ℤ) with
    | none => rw [hsn, hsd] at h; exact absurd h (by simp)
    | some q =>
      rw [hsn, hsd] at h
      have hy : y = (p : ℚ) / (q : ℚ) := (Option.some_inj.mp h).symm
      unfold intSqrt? at hsn hsd
      by_cases h1 : 0 ≤ x.num ∧ Int.sqrt x.num * Int.sqrt x.num = x.num
      · by_cases h2 : 0 ≤ (x.den : ℤ) ∧
            Int.sqrt (x.den : ℤ) * Int.sqrt (x.den : ℤ) = (x.den : ℤ)
        · rw [if_pos h1] at hsn
          rw [if_pos h2] at hsd
          have hp : p = Int.sqrt x.num := (Option.some_inj.mp hsn).symm
          have hq : q = Int.sqrt (x.den : ℤ) := (Option.some_inj.mp hsd).symm
          have hnum : 0 < x.num := Rat.num_pos.mpr hx
          have hppos : 0 < p := by
            rcases lt_or_eq_of_le (Int.sqrt_nonneg x.num) with h' | h'
            · rw [hp]; exact h'
            · rw [hp] at *
              exfalso
              rw [← h'] at h1
              omega
          have hden : (0 : ℤ) < (x.den : ℤ) := by exact_mod_cast x.pos
          have hqpos : 0 < q := by
            rcases lt_or_eq_of_le (Int.sqrt_nonneg (x.den : ℤ)) with h' | h'
            · rw [hq]; exact h'
            · rw [hq] at *
              exfalso
              rw [← h'] at h2
              omega
          rw [hy]
          apply div_pos
          · exact_mod_cast hppos
          · exact_mod_cast hqpos
        · rw [if_neg h2] at hsd
          exact absurd hsd (by simp)
      · rw [if_neg h1] at hsn
        exact absurd hsn (by simp)

lemma domQ_fact_pos (md : ℕ) (mf : ℤ) :
    ∀ x w : ℚ, (domQ md mf).factOp x = some w → 0 < x → 0 < w := by
  intro x w h _
  unfold domQ at h
  dsimp only at h
  by_cases hc : x.den = 1 ∧ x.num < mf
  · rw [if_pos hc] at h
    have : w = ((factorial x.num : ℤ) : ℚ) := (Option.some_inj.mp h).symm
    rw [this]
    exact_mod_cast lt_of_lt_of_le one_pos (factorial_pos x.num)
  · rw [if_neg hc] at h
    exact absurd h (by simp)

/-- Reachable `Rational` tables hold only positive values. -/
lemma qReach_pos {md : ℕ} {mf n : ℤ} (hn : 1 ≤ n) {st : GState ℚ}
    (h : QReach md mf n st) :
    ∀ v e d, glookup st.table v = some (e, d) → 0 < v := by
  induction h with
  | init prog =>
    intro v e d h
    exact absurd h (by simp [glookup])
  | retarget t h ih => exact ih
  | step fuel x d e hx h ih =>
    exact gTryInsert_val_inv (domQ _ _) (fun v => 0 < v)
      (domQ_sqrt_pos _ _) (domQ_fact_pos _ _) fuel x d e _
      (qArm_pos hn ih hx) ih

/-- Reachable `Rational` tables hold only range-checked values. -/
lemma qReach_range {md : ℕ} {mf n : ℤ} {st : GState ℚ}
    (h : QReach md mf n st) :
    ∀ v e d, glookup st.table v = some (e, d) →
      (domQ md mf).range v = true := by
  induction h with
  | init prog =>
    intro v e d h
    exact absurd h (by simp [glookup])
  | retarget t h ih => exact ih
  | step fuel x d e hx h ih => exact gTryInsert_range (domQ md mf) fuel x d e _ ih

/-! ### The `IntegralQuadratic` solver.  Values are an integral part,
four quadratic-part exponents for the primes 2, 3, 5, 7, and a
quadratic power (`src/quadratic/mod.rs`); the arithmetic is transcribed
from `src/quadratic/integral.rs` (`Int.tdiv`/`Int.tmod` are Rust's
truncating `/` and `%`, and fuel equal to the dividend bounds the
square-extraction loops, which strictly shrink it). -/

/-- Value view of `IntegralQuadratic`. -/
structure IQVal where
  integralPart : ℤ
  quadraticPart : Fin 4 → ℕ
  quadraticPower : ℕ
  deriving DecidableEq

def iqZero : IQVal := ⟨0, fun _ => 0, 0⟩

def iqOne : IQVal := ⟨1, fun _ => 0, 0⟩

/-- `IntegralQuadratic::from_int`. -/
def iqFromInt (x : ℤ) : IQVal := ⟨x, fun _ => 0, 0⟩

/-- `Number::to_int` (`src/quadratic/integral.rs` lines 64–72). -/
def iqToInt (a : IQVal) : Option ℤ :=
  if a.quadraticPower = 0 then some a.integralPart else none

/-- Negation (lines 125–133). -/
def iqNeg (a : IQVal) : IQVal :=
  ⟨-a.integralPart, a.quadraticPart, a.quadraticPower⟩

/-- Addition (lines 165–183). -/
def iqAdd (a b : IQVal) : IQVal :=
  if a.integralPart = 0 then b
  else if b.integralPart = 0 then a
  else if a.integralPart + b.integralPart = 0 then iqZero
  else ⟨a.integralPart + b.integralPart, a.quadraticPart, a.quadraticPower⟩

/-- `add_integer` (lines 185–193). -/
def iqAddInt (a : IQVal) (r : ℤ) : IQVal :=
  ⟨a.integralPart + r, a.quadraticPart, a.quadraticPower⟩

/-- Subtraction (lines 195–210). -/
def iqSub (a b : IQVal) : IQVal :=
  if a.integralPart = 0 then iqNeg b
  else if b.integralPart = 0 then a
  else if a.integralPart = b.integralPart then iqZero
  else ⟨a.integralPart - b.integralPart, a.quadraticPart, a.quadraticPower⟩

/-- `subtract_integer` (lines 212–220). -/
def iqSubInt (a : IQVal) (r : ℤ) : IQVal :=
  ⟨a.integralPart - r, a.quadraticPart, a.quadraticPower⟩

/-- The shared normalisation tail of `mul` and `div`: halve the
quadratic part while the power is positive and every entry is even. -/
def qNormalize : ℕ → (Fin 4 → ℕ) → ℕ × (Fin 4 → ℕ)
  | 0, part => (0, part)
  | qp + 1, part =>
    if ∀ i, part i % 2 = 0 then qNormalize qp (fun i => part i / 2)
    else (qp + 1, part)

/-- Multiplication (lines 222–254): the quadratic parts are aligned to
the larger power and added; an overflowing entry is masked (`&` with
`2^qp - 1`, i.e. reduced mod `2^qp`) and carries its prime into the
integral part. -/
def iqMul (a b : IQVal) : IQVal :=
  let ip0 := a.integralPart * b.integralPart
  if ip0 = 0 then iqZero
  else
    let qp := max a.quadraticPower b.quadraticPower
    if qp = 0 then ⟨ip0, fun _ => 0, 0⟩
    else
      let raw : Fin 4 → ℕ := fun i =>
        a.quadraticPart i * 2 ^ (qp - a.quadraticPower) +
          b.quadraticPart i * 2 ^ (qp - b.quadraticPower)
      let part : Fin 4 → ℕ := fun i =>
        if 2 ^ qp ≤ raw i then raw i % 2 ^ qp else raw i
      let ip1 := ip0 * ((Finset.univ : Finset (Fin 4)).prod fun i =>
        if 2 ^ qp ≤ raw i then primes i else 1)
      let nz := qNormalize qp part
      ⟨ip1, nz.2, nz.1⟩

/-- `is_divisible_by` (lines 349–364). -/
def iqIsDivisibleBy (a b : IQVal) : Bool :=
  if Int.tmod a.integralPart b.integralPart ≠ 0 then false
  else
    decide (∀ i : Fin 4,
      a.quadraticPart i * 2 ^ b.quadraticPower <
          b.quadraticPart i * 2 ^ a.quadraticPower →
        Int.tmod (a.integralPart.tdiv b.integralPart) (primes i) = 0)

/-- Division (lines 270–301): entry-wise subtraction of the aligned
quadratic parts, borrowing a prime out of the integral part where the
right entry is larger. -/
def iqDiv (a b : IQVal) : IQVal :=
  let ip0 := a.integralPart.tdiv b.integralPart
  if ip0 = 0 then iqZero
  else
    let qp := max a.quadraticPower b.quadraticPower
    if qp = 0 then ⟨ip0, fun _ => 0, 0⟩
    else
      let xs : Fin 4 → ℕ := fun i =>
        a.quadraticPart i * 2 ^ (qp - a.quadraticPower)
      let ys : Fin 4 → ℕ := fun i =>
        b.quadraticPart i * 2 ^ (qp - b.quadraticPower)
      let part : Fin 4 → ℕ := fun i =>
        if xs i < ys i then 2 ^ qp + xs i - ys i else xs i - ys i
      let ip1 := (List.finRange 4).foldl
        (fun acc i => if xs i < ys i then acc.tdiv (primes i) else acc) ip0
      let nz := qNormalize qp part
      ⟨ip1, nz.2, nz.1⟩

/-- The halving loop of `pow` (lines 328–333). -/
def iqPowAux : ℕ → ℕ → ℕ × ℕ
  | 0, power => (0, power)
  | qp + 1, power =>
    if power % 2 = 0 then iqPowAux qp (power / 2) else (qp + 1, power)

/-- `pow` (lines 319–346): the integral part is raised to the original
power; the halved power distributes over the quadratic part by floor
division, whose quotients carry primes into the integral part. -/
def iqPow (a : IQVal) (power : ℕ) : IQVal :=
  if power = 0 then iqOne
  else
    let nz := iqPowAux a.quadraticPower power
    let qp := nz.1
    let pw := nz.2
    let ip := a.integralPart ^ power *
      ((Finset.univ : Finset (Fin 4)).prod fun i =>
        primes i ^ (a.quadraticPart i * pw / 2 ^ qp))
    let part : Fin 4 → ℕ := fun i => a.quadraticPart i * pw % 2 ^ qp
    ⟨ip, part, qp⟩

/-- The square-extraction loop of `try_sqrt` (`while p % prime² == 0`);
the fuel is instantiated with the dividend, which bounds the exactly
shrinking iteration count. -/
def extractSq (prime : ℤ) : ℕ → ℤ → ℤ → ℤ × ℤ
  | 0, acc, p => (acc, p)
  | fuel + 1, acc, p =>
    if Int.tmod p (prime * prime) = 0 then
      extractSq prime fuel (acc * prime) (p.tdiv (prime * prime))
    else (acc, p)

/-- One prime of the `try_sqrt` loop (lines 376–386): extract square
factors, then move a remaining single factor under the root. -/
def iqSqrtStep (qp1 : ℕ) (s : ℤ × ℤ × (Fin 4 → ℕ)) (i : Fin 4) :
    ℤ × ℤ × (Fin 4 → ℕ) :=
  let e := extractSq (primes i) s.2.1.toNat s.1 s.2.1
  if Int.tmod e.2 (primes i) = 0 then
    (e.1, e.2.tdiv (primes i),
      Function.update s.2.2 i (Nat.lor (s.2.2 i) (2 ^ (qp1 - 1))))
  else (e.1, e.2, s.2.2)

/-- `try_sqrt` (lines 366–397). -/
def iqTrySqrt (a : IQVal) : Option IQVal :=
  if a.integralPart = 0 then some a
  else if a.integralPart < 0 then none
  else
    let qp1 := a.quadraticPower + 1
    let s := (List.finRange 4).foldl (iqSqrtStep qp1)
      (1, a.integralPart, a.quadraticPart)
    match intSqrt? s.2.1 with
    | some m =>
      let part := s.2.2
      some ⟨s.1 * m, part, if ∀ i, part i = 0 then 0 else qp1⟩
    | none => none

/-- The domain operations of the `IntegralQuadratic` solver: the range
check (`src/solver/range_check.rs` lines 29–35), `is_int`, the chained
`sqrt` (`src/solver/unary_operation.rs` lines 239–251, guarded by
`quadratic_power < max_quadratic_power`) and `factorial`. -/
def domIQ (md mq : ℕ) (mf : ℤ) : DomOps IQVal where
  range x := decide (x.integralPart ≤ 2 ^ md) && decide (x.quadraticPower ≤ mq)
  isInt x := x.quadraticPower == 0
  sqrtOp x := if x.quadraticPower < mq then iqTrySqrt x else none
  factOp x :=
    match iqToInt x with
    | some m => if m < mf then some (iqFromInt (factorial m)) else none
    | none => none

/-- The candidate values of the `IntegralQuadratic` searcher: `concat`,
`division_diff_one` (`unary_operation.rs` lines 253–280, with the
`integral_part > 1` guard), and the binary arms of
`binary_operation.rs` lines 387–545 — add, subtract with its sign
branch, multiply, the `x/x = 1` rule, divide under `is_divisible_by`,
power (exponent abstracted), `factorial_divide` with its `y_int > 2`
bound. -/
def iqArm (n : ℤ) (tbl : List (IQVal × Expr × ℕ)) (z : IQVal) : Prop :=
  (∃ k : ℕ, 1 ≤ k ∧ z = iqFromInt (repunit n k)) ∨
  (∃ x, GMem tbl x ∧
    ((1 < x.integralPart ∧ z = iqSubInt x 1) ∨ z = iqAddInt x 1)) ∨
  (∃ x y, GMem tbl x ∧ GMem tbl y ∧
    ((x.quadraticPower = y.quadraticPower ∧
        x.quadraticPart = y.quadraticPart ∧ z = iqAdd x y) ∨
     ((iqSub x y).integralPart ≠ 0 ∧
       z = if (iqSub x y).integralPart < 0 then iqNeg (iqSub x y)
           else iqSub x y) ∨
     z = iqMul x y ∨
     (x = y ∧ iqToInt x = some n ∧ z = iqFromInt 1) ∨
     (x ≠ y ∧ iqIsDivisibleBy x y = true ∧ z = iqDiv x y) ∨
     (∃ e : ℕ, z = iqPow x e) ∨
     (2 < y.integralPart ∧
       z = iqFromInt (factorial_divide x.integralPart y.integralPart))))

/-- The states of the `IntegralQuadratic` solver reachable from a fresh
solver. -/
inductive IQReach (md mq : ℕ) (mf n : ℤ) : GState IQVal → Prop
  | init (prog : Bool) : IQReach md mq mf n ⟨iqFromInt 0, [], [], [], prog⟩
  | retarget (t : IQVal) {st : GState IQVal} (h : IQReach md mq mf n st) :
      IQReach md mq mf n { st with target := t }
  | step (fuel : ℕ) (x : IQVal) (d : ℕ) (e : Expr) {st : GState IQVal}
      (hx : iqArm n st.table x) (h : IQReach md mq mf n st) :
      IQReach md mq mf n (gTryInsert (domIQ md mq mf) fuel x d e st).2

lemma one_le_mul_int {a b : ℤ} (ha : 1 ≤ a) (hb : 1 ≤ b) : 1 ≤ a * b := by
  nlinarith

lemma tdiv_ge_one {a b : ℤ} (ha : 1 ≤ a) (hb : 1 ≤ b)
    (h : Int.tmod a b = 0) : 1 ≤ a.tdiv b := by
  have hab := Int.tdiv_add_tmod a b
  rw [h, add_zero] at hab
  by_contra hc
  push_neg at hc
  have hx : b * a.tdiv b ≤ 0 :=
    mul_nonpos_of_nonneg_of_nonpos (by omega) (by omega)
  omega

lemma dvd_of_tmod_zero {a b : ℤ} (h : Int.tmod a b = 0) : b ∣ a := by
  have hab := Int.tdiv_add_tmod a b
  rw [h, add_zero] at hab
  exact ⟨a.tdiv b, hab.symm⟩

lemma prod_if_primes_ge_one (P : Fin 4 → Prop) [DecidablePred P] :
    1 ≤ (Finset.univ : Finset (Fin 4)).prod
      (fun i => if P i then primes i else 1) := by
  have h := Finset.prod_le_prod (s := (Finset.univ : Finset (Fin 4)))
    (f := fun _ => (1 : ℤ)) (g := fun i => if P i then primes i else 1)
    (fun i _ => by norm_num)
    (fun i _ => by
      show (1 : ℤ) ≤ if P i then primes i else 1
      by_cases hc : P i
      · rw [if_pos hc]
        have := primes_pos i
        omega
      · rw [if_neg hc])
  simpa using h

lemma foldl_tdiv_primes_pos (P : Fin 4 → Prop) [DecidablePred P] :
    ∀ (l : List (Fin 4)), l.Nodup → ∀ acc : ℤ, 1 ≤ acc →
    (∀ i ∈ l, P i → primes i ∣ acc) →
    1 ≤ l.foldl (fun a i => if P i then a.tdiv (primes i) else a) acc := by
  intro l
  induction l with
  | nil =>
    intro _ acc h _
    simpa using h
  | cons i0 rest ih =>
    intro hnd acc hacc hdvd
    simp only [List.foldl_cons]
    by_cases hp : P i0
    · rw [if_pos hp]
      obtain ⟨t, ht⟩ := hdvd i0 (by simp) hp
      have hpi := primes_pos i0
      have ht1 : 1 ≤ t := by
        by_contra hc
        push_neg at hc
        have hx : primes i0 * t ≤ 0 :=
          mul_nonpos_of_nonneg_of_nonpos (by omega) (by omega)
        omega
      have htd : acc.tdiv (primes i0) = t := by
        rw [ht]
        exact Int.mul_tdiv_cancel_left t (by omega)
      rw [htd]
      apply ih (List.Nodup.of_cons hnd) t ht1
      intro j hj hpj
      have hji : j ≠ i0 := by
        intro hji
        subst hji
        exact (List.nodup_cons.mp hnd).1 hj
      have hdj : primes j ∣ acc := hdvd j (by simp [hj]) hpj
      have hco : IsCoprime (primes j) (primes i0) :=
        Int.isCoprime_iff_gcd_eq_one.mpr (primes_coprime j i0 hji)
      rw [ht] at hdj
      exact hco.dvd_of_dvd_mul_left hdj
    · rw [if_neg hp]
      apply ih (List.Nodup.of_cons hnd) acc hacc
      intro j hj hpj
      exact hdvd j (by simp [hj]) hpj

lemma shift_lt_imp {ax bx aq bq : ℕ}
    (h : ax * 2 ^ (max aq bq - aq) < bx * 2 ^ (max aq bq - bq)) :
    ax * 2 ^ bq < bx * 2 ^ aq := by
  have e1 : ax * 2 ^ bq =
      ax * 2 ^ (max aq bq - aq) * 2 ^ (aq + bq - max aq bq) := by
    rw [mul_assoc, ← pow_add,
      show max aq bq - aq + (aq + bq - max aq bq) = bq by omega]
  have e2 : bx * 2 ^ aq =
      bx * 2 ^ (max aq bq - bq) * 2 ^ (aq + bq - max aq bq) := by
    rw [mul_assoc, ← pow_add,
      show max aq bq - bq + (aq + bq - max aq bq) = aq by omega]
  rw [e1, e2]
  exact mul_lt_mul_of_pos_right h (pow_pos (by norm_num) _)

lemma intSqrt?_ge_one {v m : ℤ} (h : intSqrt? v = some m) (hv : 1 ≤ v) :
    1 ≤ m := by
  unfold intSqrt? at h
  by_cases hc : 0 ≤ v ∧ Int.sqrt v * Int.sqrt v = v
  · rw [if_pos hc] at h
    have hm : m = Int.sqrt v := (Option.some_inj.mp h).symm
    have h0 := Int.sqrt_nonneg v
    rcases lt_or_eq_of_le h0 with h' | h'
    · omega
    · exfalso
      rw [← h'] at hc
      omega
  · rw [if_neg hc] at h
    exact absurd h (by simp)

lemma extractSq_pos (prime : ℤ) (hp : 1 ≤ prime) :
    ∀ (fuel : ℕ) (acc p : ℤ), 1 ≤ acc → 1 ≤ p →
      1 ≤ (extractSq prime fuel acc p).1 ∧
        1 ≤ (extractSq prime fuel acc p).2 := by
  intro fuel
  induction fuel with
  | zero =>
    intro acc p h1 h2
    exact ⟨h1, h2⟩
  | succ fuel ih =>
    intro acc p h1 h2
    simp only [extractSq]
    by_cases hm : Int.tmod p (prime * prime) = 0
    · rw [if_pos hm]
      exact ih _ _ (one_le_mul_int h1 hp)
        (tdiv_ge_one h2 (one_le_mul_int hp hp) hm)
    · rw [if_neg hm]
      exact ⟨h1, h2⟩

lemma iqSqrtFold_pos (qp1 : ℕ) :
    ∀ (l : List (Fin 4)) (s : ℤ × ℤ × (Fin 4 → ℕ)), 1 ≤ s.1 → 1 ≤ s.2.1 →
      1 ≤ (l.foldl (iqSqrtStep qp1) s).1 ∧
        1 ≤ (l.foldl (iqSqrtStep qp1) s).2.1 := by
  intro l
  induction l with
  | nil => exact fun s h1 h2 => ⟨h1, h2⟩
  | cons i rest ih =>
    intro s h1 h2
    simp only [List.foldl_cons]
    have hpi := primes_pos i
    have he := extractSq_pos (primes i) (by omega) s.2.1.toNat s.1 s.2.1 h1 h2
    unfold iqSqrtStep
    by_cases hm : Int.tmod (extractSq (primes i) s.2.1.toNat s.1 s.2.1).2
        (primes i) = 0
    · rw [if_pos hm]
      exact ih _ he.1 (tdiv_ge_one he.2 (show (1 : ℤ) ≤ primes i by omega) hm)
    · rw [if_neg hm]
      exact ih _ he.1 he.2

lemma iqTrySqrt_pos {a b : IQVal} (ha : 1 ≤ a.integralPart)
    (h : iqTrySqrt a = some b) : 1 ≤ b.integralPart := by
  unfold iqTrySqrt at h
  rw [if_neg (by omega), if_neg (by omega)] at h
  dsimp only at h
  set s := (List.finRange 4).foldl (iqSqrtStep (a.quadraticPower + 1))
    (1, a.integralPart, a.quadraticPart) with hs
  have hfold := iqSqrtFold_pos (a.quadraticPower + 1) (List.finRange 4)
    (1, a.integralPart, a.quadraticPart) (by norm_num) ha
  rw [← hs] at hfold
  cases hsq : intSqrt? s.2.1 with
  | none =>
    rw [hsq] at h
    exact absurd h (by simp)
  | some m =>
    rw [hsq] at h
    have hb : b = ⟨s.1 * m, s.2.2,
        if ∀ i, s.2.2 i = 0 then 0 else a.quadraticPower + 1⟩ :=
      (Option.some_inj.mp h).symm
    have hm := intSqrt?_ge_one hsq hfold.2
    rw [hb]
    exact one_le_mul_int hfold.1 hm

lemma iqAdd_pos {x y : IQVal} (hx : 1 ≤ x.integralPart)
    (hy : 1 ≤ y.integralPart) : 1 ≤ (iqAdd x y).integralPart := by
  unfold iqAdd
  rw [if_neg (by omega), if_neg (by omega), if_neg (by omega)]
  dsimp only
  omega

lemma iqMul_pos {x y : IQVal} (hx : 1 ≤ x.integralPart)
    (hy : 1 ≤ y.integralPart) : 1 ≤ (iqMul x y).integralPart := by
  unfold iqMul
  have h0 : 1 ≤ x.integralPart * y.integralPart := one_le_mul_int hx hy
  rw [if_neg (by omega)]
  dsimp only
  by_cases hq : max x.quadraticPower y.quadraticPower = 0
  · rw [if_pos hq]
    exact h0
  · rw [if_neg hq]
    exact one_le_mul_int h0 (prod_if_primes_ge_one _)

lemma iqDiv_pos {x y : IQVal} (hx : 1 ≤ x.integralPart)
    (hy : 1 ≤ y.integralPart) (hdvd : iqIsDivisibleBy x y = true) :
    1 ≤ (iqDiv x y).integralPart := by
  unfold iqIsDivisibleBy at hdvd
  by_cases hm : Int.tmod x.integralPart y.integralPart ≠ 0
  · rw [if_pos hm] at hdvd
    exact absurd hdvd (by simp)
  · rw [if_neg hm] at hdvd
    push_neg at hm
    have hq := of_decide_eq_true hdvd
    have h0 : 1 ≤ x.integralPart.tdiv y.integralPart := tdiv_ge_one hx hy hm
    unfold iqDiv
    rw [if_neg (by omega)]
    dsimp only
    by_cases hqz : max x.quadraticPower y.quadraticPower = 0
    · rw [if_pos hqz]
      exact h0
    · rw [if_neg hqz]
      refine foldl_tdiv_primes_pos
        (fun i => x.quadraticPart i *
            2 ^ (max x.quadraticPower y.quadraticPower - x.quadraticPower) <
          y.quadraticPart i *
            2 ^ (max x.quadraticPower y.quadraticPower - y.quadraticPower))
        (List.finRange 4) (List.nodup_finRange 4) _ h0 ?_
      intro i _ hlt
      exact dvd_of_tmod_zero (hq i (shift_lt_imp hlt))

lemma iqPow_pos {x : IQVal} (hx : 1 ≤ x.integralPart) (e : ℕ) :
    1 ≤ (iqPow x e).integralPart := by
  unfold iqPow
  by_cases he : e = 0
  · rw [if_pos he]
    exact le_refl 1
  · rw [if_neg he]
    dsimp only
    have h := Finset.prod_le_prod (s := (Finset.univ : Finset (Fin 4)))
      (f := fun _ => (1 : ℤ))
      (g := fun i => primes i ^ (x.quadraticPart i *
        (iqPowAux x.quadraticPower e).2 / 2 ^ (iqPowAux x.quadraticPower e).1))
      (fun i _ => by norm_num)
      (fun i _ => one_le_pow₀ (by have := primes_pos i; omega))
    exact one_le_mul_int (one_le_pow₀ hx) (by simpa using h)

lemma iqArm_pos {n : ℤ} (hn : 1 ≤ n) {tbl : List (IQVal × Expr × ℕ)}
    (htbl : ∀ v e d, glookup tbl v = some (e, d) → 1 ≤ v.integralPart)
    {z : IQVal} (hz : iqArm n tbl z) : 1 ≤ z.integralPart := by
  have hmem : ∀ x : IQVal, GMem tbl x → 1 ≤ x.integralPart := by
    intro x hx
    unfold GMem at hx
    obtain ⟨⟨e, d⟩, hq⟩ := Option.isSome_iff_exists.mp hx
    exact htbl x e d hq
  rcases hz with ⟨k, hk, rfl⟩ | ⟨x, hx, hc⟩ | ⟨x, y, hx, hy, hc⟩
  · exact repunit_ge_one hk hn
  · have hxp := hmem x hx
    rcases hc with ⟨hgt, rfl⟩ | rfl
    · unfold iqSubInt
      dsimp only
      omega
    · unfold iqAddInt
      dsimp only
      omega
  · have hxp := hmem x hx
    have hyp := hmem y hy
    rcases hc with ⟨-, -, rfl⟩ | ⟨hne, rfl⟩ | rfl | ⟨-, -, rfl⟩ |
        ⟨-, hdvd, rfl⟩ | ⟨e, rfl⟩ | ⟨-, rfl⟩
    · exact iqAdd_pos hxp hyp
    · by_cases hlt : (iqSub x y).integralPart < 0
      · rw [if_pos hlt]
        unfold iqNeg
        dsimp only
        omega
      · rw [if_neg hlt]
        omega
    · exact iqMul_pos hxp hyp
    · exact le_refl 1
    · exact iqDiv_pos hxp hyp hdvd
    · exact iqPow_pos hxp e
    · exact factorial_divide_pos (by omega)

lemma domIQ_sqrt_pos (md mq : ℕ) (mf : ℤ) :
    ∀ x y : IQVal, (domIQ md mq mf).sqrtOp x = some y →
      1 ≤ x.integralPart → 1 ≤ y.integralPart := by
  intro x y h hx
  unfold domIQ at h
  dsimp only at h
  by_cases hq : x.quadraticPower < mq
  · rw [if_pos hq] at h
    exact iqTrySqrt_pos hx h
  · rw [if_neg hq] at h
    exact absurd h (by simp)

lemma domIQ_fact_pos (md mq : ℕ) (mf : ℤ) :
    ∀ x w : IQVal, (domIQ md mq mf).factOp x = some w →
      1 ≤ x.integralPart → 1 ≤ w.integralPart := by
  intro x w h _
  unfold domIQ at h
  dsimp only at h
  cases hti : iqToInt x with
  | none =>
    rw [hti] at h
    exact absurd h (by simp)
  | some m =>
    rw [hti] at h
    dsimp only at h
    by_cases hlt : m < mf
    · rw [if_pos hlt] at h
      have hw : w = iqFromInt (factorial m) := (Option.some_inj.mp h).symm
      rw [hw]
      exact factorial_pos m
    · rw [if_neg hlt] at h
      exact absurd h (by simp)

/-- Reachable `IntegralQuadratic` tables hold only values with positive
integral part. -/
lemma iqReach_pos {md mq : ℕ} {mf n : ℤ} (hn : 1 ≤ n) {st : GState IQVal}
    (h : IQReach md mq mf n st) :
    ∀ v e d, glookup st.table v = some (e, d) → 1 ≤ v.integralPart := by
  induction h with
  | init prog =>
    intro v e d h
    exact absurd h (by simp [glookup])
  | retarget t h ih => exact ih
  | step fuel x d e hx h ih =>
    exact gTryInsert_val_inv (domIQ _ _ _) (fun v => 1 ≤ v.integralPart)
      (domIQ_sqrt_pos _ _ _) (domIQ_fact_pos _ _ _) fuel x d e _
      (iqArm_pos hn ih hx) ih

/-- Reachable `IntegralQuadratic` tables hold only range-checked
values. -/
lemma iqReach_range {md mq : ℕ} {mf n : ℤ} {st : GState IQVal}
    (h : IQReach md mq mf n st) :
    ∀ v e d, glookup st.table v = some (e, d) →
      (domIQ md mq mf).range v = true := by
  induction h with
  | init prog =>
    intro v e d h
    exact absurd h (by simp [glookup])
  | retarget t h ih => exact ih
  | step fuel x d e hx h ih =>
    exact gTryInsert_range (domIQ md mq mf) fuel x d e _ ih

/-! ### The `RationalQuadratic` solver.  Values reuse `RQVal` (a
rational part, quadratic-part exponents, quadratic power); arithmetic
from `src/quadratic/rational.rs`. -/

def rqZero : RQVal := ⟨0, fun _ => 0, 0⟩

def rqOne : RQVal := ⟨1, fun _ => 0, 0⟩

/-- Negation (`src/quadratic/rational.rs` lines 135–143). -/
def rqNeg (a : RQVal) : RQVal :=
  ⟨-a.rationalPart, a.quadraticPart, a.quadraticPower⟩

/-- Addition (lines 175–193). -/
def rqAdd (a b : RQVal) : RQVal :=
  if a.rationalPart = 0 then b
  else if b.rationalPart = 0 then a
  else if a.rationalPart + b.rationalPart = 0 then rqZero
  else ⟨a.rationalPart + b.rationalPart, a.quadraticPart, a.quadraticPower⟩

/-- `add` with an integer (lines 195–203). -/
def rqAddInt (a : RQVal) (r : ℤ) : RQVal :=
  ⟨a.rationalPart + (r : ℚ), a.quadraticPart, a.quadraticPower⟩

/-- Subtraction (lines 215–230). -/
def rqSub (a b : RQVal) : RQVal :=
  if a.rationalPart = 0 then rqNeg b
  else if b.rationalPart = 0 then a
  else if a.rationalPart = b.rationalPart then rqZero
  else ⟨a.rationalPart - b.rationalPart, a.quadraticPart, a.quadraticPower⟩

/-- `sub` with an integer (lines 232–240). -/
def rqSubInt (a : RQVal) (r : ℤ) : RQVal :=
  ⟨a.rationalPart - (r : ℚ), a.quadraticPart, a.quadraticPower⟩

/-- Multiplication (lines 252–284): same carry structure as the
integral case, carries multiplying the rational part. -/
def rqMul (a b : RQVal) : RQVal :=
  let rp0 := a.rationalPart * b.rationalPart
  if rp0 = 0 then rqZero
  else
    let qp := max a.quadraticPower b.quadraticPower
    if qp = 0 then ⟨rp0, fun _ => 0, 0⟩
    else
      let raw : Fin 4 → ℕ := fun i =>
        a.quadraticPart i * 2 ^ (qp - a.quadraticPower) +
          b.quadraticPart i * 2 ^ (qp - b.quadraticPower)
      let part : Fin 4 → ℕ := fun i =>
        if 2 ^ qp ≤ raw i then raw i % 2 ^ qp else raw i
      let rp1 := rp0 * ((Finset.univ : Finset (Fin 4)).prod fun i =>
        if 2 ^ qp ≤ raw i then (primes i : ℚ) else 1)
      let nz := qNormalize qp part
      ⟨rp1, nz.2, nz.1⟩

/-- Inverse (lines 314–332). -/
def rqInv (a : RQVal) : RQVal :=
  let rp := (List.finRange 4).foldl
    (fun acc i => if 0 < a.quadraticPart i then acc / (primes i : ℚ) else acc)
    a.rationalPart⁻¹
  let part : Fin 4 → ℕ := fun i =>
    if 0 < a.quadraticPart i then 2 ^ a.quadraticPower - a.quadraticPart i
    else 0
  ⟨rp, part, a.quadraticPower⟩

/-- Division (lines 354–385). -/
def rqDiv (a b : RQVal) : RQVal :=
  let rp0 := a.rationalPart / b.rationalPart
  if rp0 = 0 then rqZero
  else
    let qp := max a.quadraticPower b.quadraticPower
    if qp = 0 then ⟨rp0, fun _ => 0, 0⟩
    else
      let xs : Fin 4 → ℕ := fun i =>
        a.quadraticPart i * 2 ^ (qp - a.quadraticPower)
      let ys : Fin 4 → ℕ := fun i =>
        b.quadraticPart i * 2 ^ (qp - b.quadraticPower)
      let part : Fin 4 → ℕ := fun i =>
        if xs i < ys i then 2 ^ qp + xs i - ys i else xs i - ys i
      let rp1 := (List.finRange 4).foldl
        (fun acc i => if xs i < ys i then acc / (primes i : ℚ) else acc) rp0
      let nz := qNormalize qp part
      ⟨rp1, nz.2, nz.1⟩

/-- The halving loop of `pow` (lines 424–427); `>> 1` on an even `i32`
is its exact halving. -/
def rqPowAux : ℕ → ℤ → ℕ × ℤ
  | 0, power => (0, power)
  | qp + 1, power =>
    if Int.tmod power 2 = 0 then rqPowAux qp (power.tdiv 2)
    else (qp + 1, power)

/-- `pow` (lines 413–440): `div_mod_floor` is floor division
(`Int.fdiv`/`Int.fmod`). -/
def rqPow (a : RQVal) (power : ℤ) : RQVal :=
  if power = 0 then rqOne
  else
    let nz := rqPowAux a.quadraticPower power
    let qp := nz.1
    let pw := nz.2
    let rp := a.rationalPart ^ power *
      ((Finset.univ : Finset (Fin 4)).prod fun i =>
        (primes i : ℚ) ^ Int.fdiv ((a.quadraticPart i : ℤ) * pw) (2 ^ qp))
    let part : Fin 4 → ℕ := fun i =>
      (Int.fmod ((a.quadraticPart i : ℤ) * pw) (2 ^ qp)).toNat
    ⟨rp, part, qp⟩

/-- The per-prime state of `try_sqrt` (lines 452–495). -/
structure SqSt where
  numAcc : ℤ
  denAcc : ℤ
  p : ℤ
  q : ℤ
  part : Fin 4 → ℕ

/-- One prime of `try_sqrt`: extract square factors from the numerator,
move a single remaining factor under the root, then the same for the
denominator (whose single factor also multiplies the denominator). -/
def rqSqrtStep (qp1 : ℕ) (s : SqSt) (i : Fin 4) : SqSt :=
  let e1 := extractSq (primes i) s.p.toNat s.numAcc s.p
  let s1 : SqSt := { s with numAcc := e1.1, p := e1.2 }
  let s2 : SqSt :=
    if Int.tmod s1.p (primes i) = 0 then
      { s1 with
          part := Function.update s1.part i
            (Nat.lor (s1.part i) (2 ^ (qp1 - 1))),
          p := s1.p.tdiv (primes i) }
    else s1
  let e2 := extractSq (primes i) s2.q.toNat s2.denAcc s2.q
  let s3 : SqSt := { s2 with denAcc := e2.1, q := e2.2 }
  if Int.tmod s3.q (primes i) = 0 then
    { s3 with
        denAcc := s3.denAcc * primes i,
        part := Function.update s3.part i
          (Nat.lor (s3.part i) (2 ^ (qp1 - 1))),
        q := s3.q.tdiv (primes i) }
  else s3

/-- `try_sqrt` (lines 452–495); the result's rational part is the value
of `Rational::new_raw(numerator, denominator)`. -/
def rqTrySqrt (a : RQVal) : Option RQVal :=
  if a.rationalPart = 0 then some a
  else if a.rationalPart < 0 then none
  else
    let qp1 := a.quadraticPower + 1
    let s := (List.finRange 4).foldl (rqSqrtStep qp1)
      ⟨1, 1, a.rationalPart.num, (a.rationalPart.den : ℤ), a.quadraticPart⟩
    match intSqrt? s.p, intSqrt? s.q with
    | some mp, some mq =>
      some ⟨((s.numAcc * mp : ℤ) : ℚ) / ((s.denAcc * mq : ℤ) : ℚ), s.part,
        if ∀ i, s.part i = 0 then 0 else qp1⟩
    | _, _ => none

/-- The domain operations of the `RationalQuadratic` solver: range
check (`src/solver/range_check.rs` lines 37–44), `is_int`, chained
`sqrt` (`src/solver/unary_operation.rs` lines 291–303) and
`factorial`. -/
def domRQ (md mq : ℕ) (mf : ℤ) : DomOps RQVal where
  range x := decide (x.rationalPart.num ≤ 2 ^ md) &&
    decide ((x.rationalPart.den : ℤ) ≤ 2 ^ md) &&
    decide (x.quadraticPower ≤ mq)
  isInt x := decide (x.quadraticPower = 0 ∧ x.rationalPart.den = 1)
  sqrtOp x := if x.quadraticPower < mq then rqTrySqrt x else none
  factOp x :=
    match rqToInt x with
    | some m => if m < mf then some (rqFromInt (factorial m)) else none
    | none => none

/-- The candidate values of the `RationalQuadratic` searcher: `concat`,
`division_diff_one` (`unary_operation.rs` lines 305–368, the three
sign-guarded families and their inverses), and the binary arms of
`binary_operation.rs` lines 547–736 — divide and the `x/x = 1` rule,
multiply, add and subtract under the equal-quadratic-part guard, power
and its inverse (exponent abstracted), `factorial_divide` with its swap
and `y_int > 2` bound. -/
def rqArm (n : ℤ) (tbl : List (RQVal × Expr × ℕ)) (z : RQVal) : Prop :=
  (∃ k : ℕ, 1 ≤ k ∧ z = rqFromInt (repunit n k)) ∨
  (∃ x, GMem tbl x ∧
    ((x.rationalPart.num < (x.rationalPart.den : ℤ) ∧
        (z = rqNeg (rqSubInt x 1) ∨ z = rqInv (rqNeg (rqSubInt x 1)))) ∨
     ((x.rationalPart.den : ℤ) < x.rationalPart.num ∧
        (z = rqSubInt x 1 ∨ z = rqInv (rqSubInt x 1))) ∨
     z = rqAddInt x 1 ∨ z = rqInv (rqAddInt x 1))) ∨
  (∃ x y, GMem tbl x ∧ GMem tbl y ∧
    ((x.quadraticPower = y.quadraticPower ∧
        x.quadraticPart = y.quadraticPart ∧ z = rqAdd x y) ∨
     ((rqSub x y).rationalPart ≠ 0 ∧
       z = if (rqSub x y).rationalPart < 0 then rqNeg (rqSub x y)
           else rqSub x y) ∨
     z = rqMul x y ∨
     (x = y ∧ rqToInt x = some n ∧ z = rqFromInt 1) ∨
     (x ≠ y ∧ (z = rqDiv x y ∨ z = rqInv (rqDiv x y))) ∨
     (∃ e : ℤ, z = rqPow x e ∨ z = rqInv (rqPow x e)) ∨
     (∃ m k : ℤ, rqToInt x = some m ∧ rqToInt y = some k ∧ 2 < min m k ∧
       (z = rqFromInt (factorial_divide (max m k) (min m k)) ∨
        z = rqInv (rqFromInt (factorial_divide (max m k) (min m k)))))))

/-- The states of the `RationalQuadratic` solver reachable from a fresh
solver. -/
inductive RQReach (md mq : ℕ) (mf n : ℤ) : GState RQVal → Prop
  | init (prog : Bool) : RQReach md mq mf n ⟨rqFromInt 0, [], [], [], prog⟩
  | retarget (t : RQVal) {st : GState RQVal} (h : RQReach md mq mf n st) :
      RQReach md mq mf n { st with target := t }
  | step (fuel : ℕ) (x : RQVal) (d : ℕ) (e : Expr) {st : GState RQVal}
      (hx : rqArm n st.table x) (h : RQReach md mq mf n st) :
      RQReach md mq mf n (gTryInsert (domRQ md mq mf) fuel x d e st).2

lemma foldl_div_primes_posQ (P : Fin 4 → Prop) [DecidablePred P] :
    ∀ (l : List (Fin 4)) (acc : ℚ), 0 < acc →
      0 < l.foldl (fun a i => if P i then a / (primes i : ℚ) else a) acc := by
  intro l
  induction l with
  | nil => exact fun acc h => h
  | cons i rest ih =>
    intro acc h
    simp only [List.foldl_cons]
    by_cases hp : P i
    · rw [if_pos hp]
      exact ih _ (div_pos h (by exact_mod_cast primes_pos i))
    · rw [if_neg hp]
      exact ih acc h

lemma prod_if_primesQ_pos (P : Fin 4 → Prop) [DecidablePred P] :
    0 < (Finset.univ : Finset (Fin 4)).prod
      (fun i => if P i then (primes i : ℚ) else 1) := by
  apply Finset.prod_pos
  intro i _
  by_cases h : P i
  · rw [if_pos h]
    exact_mod_cast primes_pos i
  · rw [if_neg h]
    norm_num

lemma rqMul_pos {x y : RQVal} (hx : 0 < x.rationalPart)
    (hy : 0 < y.rationalPart) : 0 < (rqMul x y).rationalPart := by
  unfold rqMul
  have h0 : 0 < x.rationalPart * y.rationalPart := mul_pos hx hy
  rw [if_neg (by positivity)]
  dsimp only
  by_cases hq : max x.quadraticPower y.quadraticPower = 0
  · rw [if_pos hq]
    exact h0
  · rw [if_neg hq]
    exact mul_pos h0 (prod_if_primesQ_pos _)

lemma rqInv_pos {x : RQVal} (hx : 0 < x.rationalPart) :
    0 < (rqInv x).rationalPart := by
  unfold rqInv
  exact foldl_div_primes_posQ _ (List.finRange 4) _ (inv_pos.mpr hx)

lemma rqDiv_pos {x y : RQVal} (hx : 0 < x.rationalPart)
    (hy : 0 < y.rationalPart) : 0 < (rqDiv x y).rationalPart := by
  unfold rqDiv
  have h0 : 0 < x.rationalPart / y.rationalPart := div_pos hx hy
  rw [if_neg (by positivity)]
  dsimp only
  by_cases hq : max x.quadraticPower y.quadraticPower = 0
  · rw [if_pos hq]
    exact h0
  · rw [if_neg hq]
    exact foldl_div_primes_posQ _ (List.finRange 4) _ h0

lemma rqPow_pos {x : RQVal} (hx : 0 < x.rationalPart) (e : ℤ) :
    0 < (rqPow x e).rationalPart := by
  unfold rqPow
  by_cases he : e = 0
  · rw [if_pos he]
    norm_num [rqOne]
  · rw [if_neg he]
    dsimp only
    apply mul_pos (zpow_pos hx e)
    apply Finset.prod_pos
    intro i _
    exact zpow_pos (by exact_mod_cast primes_pos i) _

lemma rqSqrtFold_pos (qp1 : ℕ) :
    ∀ (l : List (Fin 4)) (s : SqSt), 1 ≤ s.numAcc → 1 ≤ s.denAcc →
      1 ≤ s.p → 1 ≤ s.q →
      1 ≤ (l.foldl (rqSqrtStep qp1) s).numAcc ∧
      1 ≤ (l.foldl (rqSqrtStep qp1) s).denAcc ∧
      1 ≤ (l.foldl (rqSqrtStep qp1) s).p ∧
      1 ≤ (l.foldl (rqSqrtStep qp1) s).q := by
  intro l
  induction l with
  | nil => exact fun s h1 h2 h3 h4 => ⟨h1, h2, h3, h4⟩
  | cons i rest ih =>
    intro s h1 h2 h3 h4
    simp only [List.foldl_cons]
    have hpi := primes_pos i
    have he1 := extractSq_pos (primes i) (by omega) s.p.toNat s.numAcc s.p h1 h3
    unfold rqSqrtStep
    dsimp only
    by_cases hm1 : Int.tmod (extractSq (primes i) s.p.toNat s.numAcc s.p).2
        (primes i) = 0
    · rw [if_pos hm1]
      dsimp only
      have hp2 : 1 ≤ (extractSq (primes i) s.p.toNat s.numAcc s.p).2.tdiv
          (primes i) :=
        tdiv_ge_one he1.2 (show (1 : ℤ) ≤ primes i by omega) hm1
      have he2 := extractSq_pos (primes i) (by omega) s.q.toNat s.denAcc s.q
        h2 h4
      by_cases hm2 : Int.tmod (extractSq (primes i) s.q.toNat s.denAcc s.q).2
          (primes i) = 0
      · rw [if_pos hm2]
        exact ih _ he1.1 (one_le_mul_int he2.1 (by omega)) hp2
          (tdiv_ge_one he2.2 (show (1 : ℤ) ≤ primes i by omega) hm2)
      · rw [if_neg hm2]
        exact ih _ he1.1 he2.1 hp2 he2.2
    · rw [if_neg hm1]
      dsimp only
      have he2 := extractSq_pos (primes i) (by omega) s.q.toNat s.denAcc s.q
        h2 h4
      by_cases hm2 : Int.tmod (extractSq (primes i) s.q.toNat s.denAcc s.q).2
          (primes i) = 0
      · rw [if_pos hm2]
        exact ih _ he1.1 (one_le_mul_int he2.1 (by omega)) he1.2
          (tdiv_ge_one he2.2 (show (1 : ℤ) ≤ primes i by omega) hm2)
      · rw [if_neg hm2]
        exact ih _ he1.1 he2.1 he1.2 he2.2

lemma rqTrySqrt_pos {a b : RQVal} (ha : 0 < a.rationalPart)
    (h : rqTrySqrt a = some b) : 0 < b.rationalPart := by
  unfold rqTrySqrt at h
  rw [if_neg (by positivity), if_neg (by
    intro hc
    exact absurd hc (not_lt.mpr (le_of_lt ha)))] at h
  dsimp only at h
  set s := (List.finRange 4).foldl (rqSqrtStep (a.quadraticPower + 1))
    (⟨1, 1, a.rationalPart.num, (a.rationalPart.den : ℤ),
      a.quadraticPart⟩ : SqSt) with hs
  have hfold := rqSqrtFold_pos (a.quadraticPower + 1) (List.finRange 4)
    ⟨1, 1, a.rationalPart.num, (a.rationalPart.den : ℤ), a.quadraticPart⟩
    (by norm_num) (by norm_num) (Rat.num_pos.mpr ha)
    (show (1 : ℤ) ≤ (a.rationalPart.den : ℤ) by exact_mod_cast a.rationalPart.pos)
  rw [← hs] at hfold
  cases hsp : intSqrt? s.p with
  | none =>
    rw [hsp] at h
    exact absurd h (by simp)
  | some mp =>
    cases hsq : intSqrt? s.q with
    | none =>
      rw [hsp, hsq] at h
      exact absurd h (by simp)
    | some mq =>
      rw [hsp, hsq] at h
      have hb : b = ⟨((s.numAcc * mp : ℤ) : ℚ) / ((s.denAcc * mq : ℤ) : ℚ),
          s.part, if ∀ i, s.part i = 0 then 0 else a.quadraticPower + 1⟩ :=
        (Option.some_inj.mp h).symm
      have hmp := intSqrt?_ge_one hsp hfold.2.2.1
      have hmq := intSqrt?_ge_one hsq hfold.2.2.2
      rw [hb]
      apply div_pos
      · exact_mod_cast one_le_mul_int hfold.1 hmp
      · exact_mod_cast one_le_mul_int hfold.2.1 hmq

lemma rqArm_pos {n : ℤ} (hn : 1 ≤ n) {tbl : List (RQVal × Expr × ℕ)}
    (htbl : ∀ v e d, glookup tbl v = some (e, d) → 0 < v.rationalPart)
    {z : RQVal} (hz : rqArm n tbl z) : 0 < z.rationalPart := by
  have hmem : ∀ x : RQVal, GMem tbl x → 0 < x.rationalPart := by
    intro x hx
    unfold GMem at hx
    obtain ⟨⟨e, d⟩, hq⟩ := Option.isSome_iff_exists.mp hx
    exact htbl x e d hq
  rcases hz with ⟨k, hk, rfl⟩ | ⟨x, hx, hc⟩ | ⟨x, y, hx, hy, hc⟩
  · show (0 : ℚ) < ((repunit n k : ℤ) : ℚ)
    exact_mod_cast lt_of_lt_of_le one_pos (repunit_ge_one hk hn)
  · have hxp := hmem x hx
    have hlt1 : x.rationalPart.num < (x.rationalPart.den : ℤ) →
        x.rationalPart < 1 := by
      intro h
      rw [← Rat.num_div_den x.rationalPart,
        div_lt_one (by exact_mod_cast x.rationalPart.pos)]
      exact_mod_cast h
    have hgt1 : (x.rationalPart.den : ℤ) < x.rationalPart.num →
        1 < x.rationalPart := by
      intro h
      rw [← Rat.num_div_den x.rationalPart,
        lt_div_iff₀ (by exact_mod_cast x.rationalPart.pos), one_mul]
      exact_mod_cast h
    have hsub1 : x.rationalPart.num < (x.rationalPart.den : ℤ) →
        0 < (rqNeg (rqSubInt x 1)).rationalPart := by
      intro h
      show 0 < -(x.rationalPart - (1 : ℤ))
      have := hlt1 h
      push_cast
      linarith
    have hsub2 : (x.rationalPart.den : ℤ) < x.rationalPart.num →
        0 < (rqSubInt x 1).rationalPart := by
      intro h
      show 0 < x.rationalPart - (1 : ℤ)
      have := hgt1 h
      push_cast
      linarith
    have hadd : 0 < (rqAddInt x 1).rationalPart := by
      show 0 < x.rationalPart + (1 : ℤ)
      push_cast
      linarith
    rcases hc with ⟨hlt, rfl | rfl⟩ | ⟨hlt, rfl | rfl⟩ | rfl | rfl
    · exact hsub1 hlt
    · exact rqInv_pos (hsub1 hlt)
    · exact hsub2 hlt
    · exact rqInv_pos (hsub2 hlt)
    · exact hadd
    · exact rqInv_pos hadd
  · have hxp := hmem x hx
    have hyp := hmem y hy
    rcases hc with ⟨-, -, rfl⟩ | ⟨hne, rfl⟩ | rfl | ⟨-, -, rfl⟩ |
        ⟨-, rfl | rfl⟩ | ⟨e, rfl | rfl⟩ | ⟨m, k, -, -, hmk, rfl | rfl⟩
    · unfold rqAdd
      rw [if_neg (by positivity), if_neg (by positivity),
        if_neg (by positivity)]
      dsimp only
      linarith
    · by_cases hlt : (rqSub x y).rationalPart < 0
      · rw [if_pos hlt]
        show 0 < -(rqSub x y).rationalPart
        linarith
      · rw [if_neg hlt]
        rcases lt_or_eq_of_le (not_lt.mp hlt) with h | h
        · exact h
        · exact absurd h.symm hne
    · exact rqMul_pos hxp hyp
    · show (0 : ℚ) < ((1 : ℤ) : ℚ)
      norm_num
    · exact rqDiv_pos hxp hyp
    · exact rqInv_pos (rqDiv_pos hxp hyp)
    · exact rqPow_pos hxp e
    · exact rqInv_pos (rqPow_pos hxp e)
    · show (0 : ℚ) < ((factorial_divide (max m k) (min m k) : ℤ) : ℚ)
      exact_mod_cast lt_of_lt_of_le one_pos (factorial_divide_pos (by omega))
    · apply rqInv_pos
      show (0 : ℚ) < ((factorial_divide (max m k) (min m k) : ℤ) : ℚ)
      exact_mod_cast lt_of_lt_of_le one_pos (factorial_divide_pos (by omega))

lemma domRQ_sqrt_pos (md mq : ℕ) (mf : ℤ) :
    ∀ x y : RQVal, (domRQ md mq mf).sqrtOp x = some y →
      0 < x.rationalPart → 0 < y.rationalPart := by
  intro x y h hx
  unfold domRQ at h
  dsimp only at h
  by_cases hq : x.quadraticPower < mq
  · rw [if_pos hq] at h
    exact rqTrySqrt_pos hx h
  · rw [if_neg hq] at h
    exact absurd h (by simp)

lemma domRQ_fact_pos (md mq : ℕ) (mf : ℤ) :
    ∀ x w : RQVal, (domRQ md mq mf).factOp x = some w →
      0 < x.rationalPart → 0 < w.rationalPart := by
  intro x w h _
  unfold domRQ at h
  dsimp only at h
  cases hti : rqToInt x with
  | none =>
    rw [hti] at h
    exact absurd h (by simp)
  | some m =>
    rw [hti] at h
    dsimp only at h
    by_cases hlt : m < mf
    · rw [if_pos hlt] at h
      have hw : w = rqFromInt (factorial m) := (Option.some_inj.mp h).symm
      rw [hw]
      show (0 : ℚ) < ((factorial m : ℤ) : ℚ)
      exact_mod_cast lt_of_lt_of_le one_pos (factorial_pos m)
    · rw [if_neg hlt] at h
      exact absurd h (by simp)

/-- Reachable `RationalQuadratic` tables hold only values with positive
rational part. -/
lemma rqReach_pos {md mq : ℕ} {mf n : ℤ} (hn : 1 ≤ n) {st : GState RQVal}
    (h : RQReach md mq mf n st) :
    ∀ v e d, glookup st.table v = some (e, d) → 0 < v.rationalPart := by
  induction h with
  | init prog =>
    intro v e d h
    exact absurd h (by simp [glookup])
  | retarget t h ih => exact ih
  | step fuel x d e hx h ih =>
    exact gTryInsert_val_inv (domRQ _ _ _) (fun v => 0 < v.rationalPart)
      (domRQ_sqrt_pos _ _ _) (domRQ_fact_pos _ _ _) fuel x d e _
      (rqArm_pos hn ih hx) ih

/-- Reachable `RationalQuadratic` tables hold only range-checked
values. -/
lemma rqReach_range {md mq : ℕ} {mf n : ℤ} {st : GState RQVal}
    (h : RQReach md mq mf n st) :
    ∀ v e d, glookup st.table v = some (e, d) →
      (domRQ md mq mf).range v = true := by
  induction h with
  | init prog =>
    intro v e d h
    exact absurd h (by simp [glookup])
  | retarget t h ih => exact ih
  | step fuel x d e hx h ih =>
    exact gTryInsert_range (domRQ md mq mf) fuel x d e _ ih

/-- **C8**: every value ever stored in a solver's table satisfies its
domain's range bound in absolute-value form.  For the `i64` solver
(whole embedding, all states reachable by `Solver::solve` from a fresh
solver) every table value `v` satisfies `1 ≤ v` and
`|v| ≤ 2^max_digits`.  For the `Rational`, `IntegralQuadratic` and
`RationalQuadratic` solvers, whose candidate-value dynamics are
transcribed as the arm relations above (an over-approximation of the
search order), every stored value is positive and its numerator,
denominator and integral part satisfy the `|·| ≤ 2^max_digits` bounds,
with `quadratic_power ≤ max_quadratic_power` for the radical domains.
The implemented predicates of `range_check.rs` are signed (`x ≤ 1 <<
max_digits` with no absolute value); positivity of every stored value
bridges them to the claim's `|·|` forms. -/
theorem tables_in_range_abs :
    (∀ st : IState, ReachI st → ∀ v e d, tlookup st.table v = some (e, d) →
      1 ≤ v ∧ |v| ≤ 2 ^ st.limits.maxDigits) ∧
    (∀ (md : ℕ) (mf n : ℤ), 1 ≤ n → ∀ st : GState ℚ, QReach md mf n st →
      ∀ v e d, glookup st.table v = some (e, d) →
        0 < v ∧ |v.num| ≤ 2 ^ md ∧ |(v.den : ℤ)| ≤ 2 ^ md) ∧
    (∀ (md mq : ℕ) (mf n : ℤ), 1 ≤ n → ∀ st : GState IQVal,
      IQReach md mq mf n st →
      ∀ v e d, glookup st.table v = some (e, d) →
        1 ≤ v.integralPart ∧ |v.integralPart| ≤ 2 ^ md ∧
          v.quadraticPower ≤ mq) ∧
    (∀ (md mq : ℕ) (mf n : ℤ), 1 ≤ n → ∀ st : GState RQVal,
      RQReach md mq mf n st →
      ∀ v e d, glookup st.table v = some (e, d) →
        0 < v.rationalPart ∧ |v.rationalPart.num| ≤ 2 ^ md ∧
          |(v.rationalPart.den : ℤ)| ≤ 2 ^ md ∧ v.quadraticPower ≤ mq) := by
  refine ⟨?_, ?_, ?_, ?_⟩
  · intro st h v e d hl
    obtain ⟨h1, h2, -, -, -⟩ := (reachI_inv h).entry hl
    exact ⟨h1, by rw [abs_of_nonneg (by linarith)]; exact h2⟩
  · intro md mf n hn st h v e d hl
    have hpos := qReach_pos hn h v e d hl
    have hrng := qReach_range h v e d hl
    unfold domQ at hrng
    dsimp only at hrng
    rw [Bool.and_eq_true, decide_eq_true_eq, decide_eq_true_eq] at hrng
    refine ⟨hpos, ?_, ?_⟩
    · rw [abs_of_nonneg (le_of_lt (Rat.num_pos.mpr hpos))]
      exact hrng.1
    · rw [abs_of_nonneg (by positivity)]
      exact hrng.2
  · intro md mq mf n hn st h v e d hl
    have hpos := iqReach_pos hn h v e d hl
    have hrng := iqReach_range h v e d hl
    unfold domIQ at hrng
    dsimp only at hrng
    rw [Bool.and_eq_true, decide_eq_true_eq, decide_eq_true_eq] at hrng
    exact ⟨hpos, by rw [abs_of_nonneg (by linarith)]; exact hrng.1, hrng.2⟩
  · intro md mq mf n hn st h v e d hl
    have hpos := rqReach_pos hn h v e d hl
    have hrng := rqReach_range h v e d hl
    unfold domRQ at hrng
    dsimp only at hrng
    rw [Bool.and_eq_true, Bool.and_eq_true, decide_eq_true_eq,
      decide_eq_true_eq, decide_eq_true_eq] at hrng
    refine ⟨hpos, ?_, ?_, hrng.2⟩
    · rw [abs_of_nonneg (le_of_lt (Rat.num_pos.mpr hpos))]
      exact hrng.1.1
    · rw [abs_of_nonneg (by positivity)]
      exact hrng.1.2

theorem tables_in_range_abs_witness :
    (1 ≤ (1 : ℤ) ∧ |(1 : ℤ)| ≤ 2 ^ (4 : ℕ)) ∧
    (0 < ((repunit 1 1 : ℤ) : ℚ) ∧
      |((repunit 1 1 : ℤ) : ℚ).num| ≤ 2 ^ (4 : ℕ) ∧
      |((((repunit 1 1 : ℤ) : ℚ)).den : ℤ)| ≤ 2 ^ (4 : ℕ)) ∧
    (1 ≤ (iqFromInt (repunit 1 1)).integralPart ∧
      |(iqFromInt (repunit 1 1)).integralPart| ≤ 2 ^ (4 : ℕ) ∧
      (iqFromInt (repunit 1 1)).quadraticPower ≤ 0) ∧
    (0 < (rqFromInt (repunit 1 1)).rationalPart ∧
      |(rqFromInt (repunit 1 1)).rationalPart.num| ≤ 2 ^ (4 : ℕ) ∧
      |((rqFromInt (repunit 1 1)).rationalPart.den : ℤ)| ≤ 2 ^ (4 : ℕ) ∧
      (rqFromInt (repunit 1 1)).quadraticPower ≤ 0) := by
  refine ⟨?_, ?_, ?_, ?_⟩
  · have h := tables_in_range_abs.1 _
      (ReachI.solve 1 1 (some 1)
        (ReachI.init 1 ⟨4, 0, 2⟩ (by decide) (by decide)))
      1 (Expr.number 1) 1 (by
        show tlookup (solveLoop (1 + 1) 1 1
            { newSolver 1 ⟨4, 0, 2⟩ with target := 1 }).2.table 1 =
          some (Expr.number 1, 1)
        rw [solveLoop_eq]
        decide)
    have hL : (solveI (1 + 1) 1 (some 1)
        (newSolver 1 ⟨4, 0, 2⟩)).2.limits.maxDigits = 4 := by
      show (solveLoop (1 + 1) 1 1
          { newSolver 1 ⟨4, 0, 2⟩ with target := 1 }).2.limits.maxDigits = 4
      rw [solveLoop_eq]
      decide
    rw [hL] at h
    exact h
  · exact tables_in_range_abs.2.1 4 0 1 (by decide) _
      (QReach.step 1 ((repunit 1 1 : ℤ) : ℚ) 1 (Expr.number 1)
        (Or.inl ⟨1, le_refl 1, rfl⟩) (QReach.init false))
      _ (Expr.number 1) 1 (by decide)
  · exact tables_in_range_abs.2.2.1 4 0 0 1 (by decide) _
      (IQReach.step 1 (iqFromInt (repunit 1 1)) 1 (Expr.number 1)
        (Or.inl ⟨1, le_refl 1, rfl⟩) (IQReach.init false))
      _ (Expr.number 1) 1 (by decide)
  · exact tables_in_range_abs.2.2.2 4 0 0 1 (by decide) _
      (RQReach.step 1 (rqFromInt (repunit 1 1)) 1 (Expr.number 1)
        (Or.inl ⟨1, le_refl 1, rfl⟩) (RQReach.init false))
      _ (Expr.number 1) 1 (by decide)

end Tchisla
